import Mathlib

/-!
Verification of the routing-graph analysis and definition-export pipeline of the
StudioGraph repository (a MIDI studio routing designer).

The TypeScript sources under `src/utils/` are shallowly embedded below:

* `loopDetection.ts`  — `detectCycle`, `wouldCreateCycle`
* `hapaxRouting.ts`   — `traceHapaxRouting`
* `hapaxExport.ts`    — `findConnectedInstruments`, `generateHapaxDefinition`,
                        `generateAllDefinitions` (plus `groupBySection` from `csvParser.ts`)
* `studioExport.ts`   — `parseStudioData`

JavaScript `Map`s are embedded as association lists with `Map.set` replacing the
binding in place (`mapSet`), which preserves both key uniqueness and the original
insertion order that `Map` iteration exposes.  JavaScript `Set`s are embedded as
duplicate-free lists in insertion order (`setAdd`).  The unbounded `while` loops
and the recursive DFS of the source are embedded with an explicit fuel parameter
chosen large enough that it can never be exhausted (lemmas below establish the
bounds where a claim depends on the search running to completion).
-/

set_option maxHeartbeats 1000000

namespace StudioGraph

/-- JavaScript `Map.get`: the value bound to `k`, if any.  Keys are unique
because all updates go through `mapSet`. -/
def mapGet {β : Type} : List (String × β) → String → Option β
  | [], _ => none
  | (k', v) :: rest, k => if k = k' then some v else mapGet rest k

/-- JavaScript `Map.set`: replace the binding for `k` in place (keeping its
original position, as a JS `Map` does) or append a fresh binding at the end. -/
def mapSet {β : Type} : List (String × β) → String → β → List (String × β)
  | [], k, v => [(k, v)]
  | (k', v') :: rest, k, v =>
    if k = k' then (k, v) :: rest else (k', v') :: mapSet rest k v

/-- JavaScript `Set.add`: append the element unless it is already present. -/
def setAdd (l : List String) (x : String) : List String :=
  if x ∈ l then l else l ++ [x]

/-- An edge of the routing graph (a `Connection`).  `sourceHandle` is the
output-port identifier on the source instrument (`null` when absent) and
`portType` is the medium carried by the connection, read from `edge.data`
(`undefined` when the edge has no data). -/
structure EdgeT where
  id : String
  source : String
  target : String
  sourceHandle : Option String
  portType : Option String
deriving DecidableEq, Repr

/-- Track type of an instrument (`InstrumentType` in `types/index.ts`). -/
inductive InstrumentType where
  | POLY
  | DRUM
  | MPE
deriving DecidableEq, Repr

/-- A CC mapping; `sectionName` embeds the optional `section` field of the
TypeScript `CCMapping` (renamed because `section` is a Lean keyword). -/
structure CCMapping where
  ccNumber : Int
  paramName : String
  sectionName : Option String
deriving DecidableEq, Repr

/-- An NRPN mapping (`NRPNMapping` in `types/index.ts`). -/
structure NRPNMapping where
  msb : Int
  lsb : Int
  paramName : String
  sectionName : Option String
deriving DecidableEq, Repr

/-- An ASSIGN slot (`AssignCC` in `types/index.ts`). -/
structure AssignCC where
  slot : Int
  ccNumber : Int
  paramName : String
  defaultValue : Int
deriving DecidableEq, Repr

/-- Automation-lane type tag (`AutomationType` in `types/index.ts`). -/
inductive AutomationType where
  | CC
  | PB
  | AT
  | CV
  | NRPN
deriving DecidableEq, Repr

/-- An automation lane (`AutomationLane` in `types/index.ts`); the optional
payload fields are `undefined` when absent. -/
structure AutomationLane where
  slot : Int
  type : AutomationType
  ccNumber : Option Int
  cvNumber : Option Int
  nrpnMsb : Option Int
  nrpnLsb : Option Int
  nrpnDepth : Option Int
deriving DecidableEq, Repr

/-- A drum lane (`DrumLane` in `types/index.ts`): row number, optional trigger,
optional channel-code string, optional note, and a display name. -/
structure DrumLane where
  lane : Int
  trig : Option Int
  chan : Option String
  note : Option Int
  name : String
deriving DecidableEq, Repr

/-- The per-instrument data (`InstrumentNodeData`); the optional booleans
`isHapax` and `localOff` are embedded as `Bool` since the source only ever
compares them with `true`. -/
structure NodeData where
  name : String
  manufacturer : String
  channel : Int
  type : InstrumentType
  ccMap : List CCMapping
  nrpnMap : List NRPNMapping
  assignCCs : List AssignCC
  automationLanes : List AutomationLane
  drumLanes : Option (List DrumLane)
  isHapax : Bool
  localOff : Bool
deriving DecidableEq, Repr

/-- A node of the graph: a React Flow `Node<InstrumentNodeData>` (position and
other canvas-only fields are irrelevant to the analyzed functions). -/
structure NodeT where
  id : String
  data : NodeData
deriving DecidableEq, Repr

/-! ## `loopDetection.ts` — `wouldCreateCycle` -/

/-- Loop body of `wouldCreateCycle` (`loopDetection.ts`, lines 109–125): a
breadth-first search from the queue front; returns `true` as soon as the
dequeued node is `src`.  The fuel only bounds the number of iterations; lemma
`wccLoop_false_not_reaches` shows the chosen fuel is never exhausted. -/
def wccLoop (edges : List EdgeT) (src : String) :
    Nat → List String → List String → Bool
  | 0, _, _ => false
  | _ + 1, [], _ => false
  | fuel + 1, current :: rest, vis =>
    if current = src then true
    else if current ∈ vis then wccLoop edges src fuel rest vis
    else
      let vis' := current :: vis
      let pushes :=
        (edges.filter (fun e => decide (e.source = current ∧ e.target ∉ vis'))).map
          (fun e => e.target)
      wccLoop edges src fuel (rest ++ pushes) vis'

/-- Fuel for `wouldCreateCycle`: strictly larger than the greatest possible
number of loop iterations (at most `edges.length + 1` distinct nodes ever enter
the visited set, and each unvisited dequeue enqueues at most `edges.length`
nodes). -/
def wccFuel (edges : List EdgeT) : Nat :=
  (edges.length + 2) * (edges.length + 2)

/-- `wouldCreateCycle(nodes, edges, newSource, newTarget)` from
`loopDetection.ts` (lines 98–128).  The `nodes` argument is unused in the
source (`_nodes`) and is kept here for signature fidelity. -/
def wouldCreateCycle (_nodes : List NodeT) (edges : List EdgeT)
    (newSource newTarget : String) : Bool :=
  wccLoop edges newSource (wccFuel edges) [newTarget] []

/-- Forward reachability along the edge list: the reflexive-transitive closure
of the step `e.source ⟶ e.target` over `e ∈ edges`. -/
inductive Reaches (edges : List EdgeT) : String → String → Prop
  | refl (x : String) : Reaches edges x x
  | head {x z : String} (e : EdgeT) (he : e ∈ edges) (hs : e.source = x)
      (h : Reaches edges e.target z) : Reaches edges x z

/-- Reachability is preserved by appending one more edge at the end of the
path. -/
theorem Reaches.snocEdge {edges : List EdgeT} {a b : String} (e : EdgeT)
    (h : Reaches edges a b) (he : e ∈ edges) (hs : e.source = b) :
    Reaches edges a e.target := by
  induction h with
  | refl x => exact Reaches.head e he hs (Reaches.refl _)
  | head e' he' hs' _ ih => exact Reaches.head e' he' hs' (ih hs)

/-- Soundness of the `wouldCreateCycle` search: if every queued node is
reachable from `tgt` and the loop answers `true`, then `src` is reachable
from `tgt`. -/
theorem wccLoop_true_reaches (edges : List EdgeT) (src tgt : String) :
    ∀ (fuel : Nat) (q vis : List String),
      (∀ x ∈ q, Reaches edges tgt x) →
      wccLoop edges src fuel q vis = true → Reaches edges tgt src := by
  intro fuel
  induction fuel with
  | zero => intro q vis _ hrun; simp [wccLoop] at hrun
  | succ fuel ih =>
    intro q vis hq hrun
    match q with
    | [] => simp [wccLoop] at hrun
    | current :: rest =>
      rw [wccLoop] at hrun
      by_cases hsrc : current = src
      · exact hsrc ▸ hq current (by simp)
      · rw [if_neg hsrc] at hrun
        by_cases hvis : current ∈ vis
        · rw [if_pos hvis] at hrun
          exact ih rest vis (fun x hx => hq x (List.mem_cons_of_mem _ hx)) hrun
        · rw [if_neg hvis] at hrun
          refine ih _ _ ?_ hrun
          intro x hx
          rcases List.mem_append.mp hx with hx | hx
          · exact hq x (List.mem_cons_of_mem _ hx)
          · rcases List.mem_map.mp hx with ⟨e, he, rfl⟩
            rcases List.mem_filter.mp he with ⟨heE, hp⟩
            rcases of_decide_eq_true hp with ⟨hsrc', _⟩
            exact Reaches.snocEdge e (hq current (by simp)) heE hsrc'

/-- A visited set that is closed under outgoing edges and avoids `src` cannot
reach `src`. -/
theorem closed_not_reaches (edges : List EdgeT) (src : String) (vis : List String)
    (hcl : ∀ u ∈ vis, u ≠ src ∧ ∀ e ∈ edges, e.source = u → e.target ∈ vis) :
    ∀ x z, Reaches edges x z → z = src → x ∈ vis → False := by
  intro x z hr
  induction hr with
  | refl y => intro hz hy; exact (hcl y hy).1 hz
  | head e he hs _ ih =>
    intro hz hx
    exact ih hz ((hcl _ hx).2 e he hs)

/-- Completeness of the `wouldCreateCycle` search: when the loop answers
`false` under its invariants (visited nodes avoid `src` and are closed under
outgoing edges modulo the queue; the fuel dominates the loop measure), no
queued or visited node reaches `src`. -/
theorem wccLoop_false_not_reaches (edges : List EdgeT) (src : String) (U : List String)
    (hUedges : ∀ e ∈ edges, e.target ∈ U) :
    ∀ (fuel : Nat) (q vis : List String),
      q.length + (U.toFinset.card - vis.length) * (edges.length + 1) < fuel →
      vis.Nodup → (∀ x ∈ vis, x ∈ U) → (∀ x ∈ q, x ∈ U) →
      (∀ u ∈ vis, u ≠ src ∧ ∀ e ∈ edges, e.source = u → e.target ∈ vis ∨ e.target ∈ q) →
      wccLoop edges src fuel q vis = false →
      ∀ x, (x ∈ q ∨ x ∈ vis) → ¬ Reaches edges x src := by
  intro fuel
  induction fuel with
  | zero => intro q vis hm; omega
  | succ fuel ih =>
    intro q vis hm hnd hvU hqU hcl hrun
    match q with
    | [] =>
      rintro x (hx | hx)
      · simp at hx
      · intro hr
        refine closed_not_reaches edges src vis ?_ x src hr rfl hx
        intro u hu
        refine ⟨(hcl u hu).1, fun e he hs => ?_⟩
        rcases (hcl u hu).2 e he hs with h | h
        · exact h
        · simp at h
    | current :: rest =>
      rw [wccLoop] at hrun
      by_cases hsrc : current = src
      · simp [hsrc] at hrun
      · rw [if_neg hsrc] at hrun
        by_cases hvis : current ∈ vis
        · rw [if_pos hvis] at hrun
          have hcl' : ∀ u ∈ vis, u ≠ src ∧
              ∀ e ∈ edges, e.source = u → e.target ∈ vis ∨ e.target ∈ rest := by
            intro u hu
            refine ⟨(hcl u hu).1, fun e he hs => ?_⟩
            rcases (hcl u hu).2 e he hs with h | h
            · exact Or.inl h
            · rcases List.mem_cons.mp h with h | h
              · exact Or.inl (h ▸ hvis)
              · exact Or.inr h
          have hres := ih rest vis (by simp at hm ⊢; omega) hnd hvU
            (fun x hx => hqU x (List.mem_cons_of_mem _ hx)) hcl' hrun
          rintro x (hx | hx)
          · rcases List.mem_cons.mp hx with rfl | hx
            · exact hres x (Or.inr hvis)
            · exact hres x (Or.inl hx)
          · exact hres x (Or.inr hx)
        · rw [if_neg hvis] at hrun
          set vis' := current :: vis with hvis'
          set pushes :=
            (edges.filter (fun e => decide (e.source = current ∧ e.target ∉ vis'))).map
              (fun e => e.target) with hpushes
          have hndv' : vis'.Nodup := List.nodup_cons.mpr ⟨hvis, hnd⟩
          have hvU' : ∀ x ∈ vis', x ∈ U := by
            intro x hx
            rcases List.mem_cons.mp hx with rfl | hx
            · exact hqU x (by simp)
            · exact hvU x hx
          have hqU' : ∀ x ∈ rest ++ pushes, x ∈ U := by
            intro x hx
            rcases List.mem_append.mp hx with hx | hx
            · exact hqU x (List.mem_cons_of_mem _ hx)
            · rcases List.mem_map.mp hx with ⟨e, he, rfl⟩
              exact hUedges e (List.mem_filter.mp he).1
          have hcard : vis'.length ≤ U.toFinset.card := by
            have hc0 : vis'.toFinset.card = vis'.length := List.toFinset_card_of_nodup hndv'
            have hsub : vis'.toFinset ⊆ U.toFinset := by
              intro a ha
              simp only [List.mem_toFinset] at ha ⊢
              exact hvU' a ha
            calc vis'.length = vis'.toFinset.card := hc0.symm
              _ ≤ U.toFinset.card := Finset.card_le_card hsub
          have hplen : pushes.length ≤ edges.length := by
            rw [hpushes, List.length_map]
            exact List.length_filter_le _ _
          have hm' : (rest ++ pushes).length +
              (U.toFinset.card - vis'.length) * (edges.length + 1) < fuel := by
            have hlc : vis'.length = vis.length + 1 := by simp [hvis']
            have h1 : U.toFinset.card - vis.length =
                (U.toFinset.card - vis'.length) + 1 := by omega
            have h2 : (U.toFinset.card - vis.length) * (edges.length + 1) =
                (U.toFinset.card - vis'.length) * (edges.length + 1) +
                  (edges.length + 1) := by
              rw [h1, Nat.add_mul, one_mul]
            rw [h2] at hm
            set X := (U.toFinset.card - vis'.length) * (edges.length + 1) with hX
            simp only [List.length_append, List.length_cons] at hm ⊢
            omega
          have hcl' : ∀ u ∈ vis', u ≠ src ∧
              ∀ e ∈ edges, e.source = u → e.target ∈ vis' ∨ e.target ∈ rest ++ pushes := by
            intro u hu
            rcases List.mem_cons.mp hu with rfl | hu
            · refine ⟨hsrc, fun e he hs => ?_⟩
              by_cases ht : e.target ∈ vis'
              · exact Or.inl ht
              · refine Or.inr (List.mem_append.mpr (Or.inr ?_))
                rw [hpushes]
                exact List.mem_map.mpr ⟨e, List.mem_filter.mpr
                  ⟨he, decide_eq_true ⟨hs, ht⟩⟩, rfl⟩
            · refine ⟨(hcl u hu).1, fun e he hs => ?_⟩
              rcases (hcl u hu).2 e he hs with h | h
              · exact Or.inl (List.mem_cons_of_mem _ h)
              · rcases List.mem_cons.mp h with h | h
                · exact Or.inl (h ▸ List.mem_cons_self _ _)
                · exact Or.inr (List.mem_append.mpr (Or.inl h))
          have hres := ih (rest ++ pushes) vis' hm' hndv' hvU' hqU' hcl' hrun
          rintro x (hx | hx)
          · rcases List.mem_cons.mp hx with rfl | hx
            · exact hres x (Or.inr (by simp [hvis']))
            · exact hres x (Or.inl (List.mem_append.mpr (Or.inl hx)))
          · exact hres x (Or.inr (List.mem_cons_of_mem _ hx))

/-- C5.  `wouldCreateCycle(nodes, edges, X, Y)` is `true` iff `X = Y` or a
forward path along the existing edges leads from `Y` to `X`; the `nodes`
argument (and hence every instrument's local-off flag) has no effect on the
result. -/
theorem wouldCreateCycle_correct (nodes : List NodeT) (edges : List EdgeT)
    (src tgt : String) :
    (wouldCreateCycle nodes edges src tgt = true ↔ (src = tgt ∨ Reaches edges tgt src)) ∧
    (∀ nodes' : List NodeT,
      wouldCreateCycle nodes' edges src tgt = wouldCreateCycle nodes edges src tgt) := by
  constructor
  · constructor
    · intro hrun
      refine Or.inr (wccLoop_true_reaches edges src tgt (wccFuel edges) [tgt] [] ?_ hrun)
      intro x hx
      rcases List.mem_cons.mp hx with rfl | hx
      · exact Reaches.refl x
      · simp at hx
    · intro hor
      have hreach : Reaches edges tgt src := by
        rcases hor with rfl | h
        · exact Reaches.refl src
        · exact h
      by_contra hrun
      rw [Bool.not_eq_true] at hrun
      set U := tgt :: edges.map (fun e => e.target) with hU
      have hUedges : ∀ e ∈ edges, e.target ∈ U := by
        intro e he
        exact List.mem_cons_of_mem _ (List.mem_map.mpr ⟨e, he, rfl⟩)
      have hm : [tgt].length + (U.toFinset.card - ([] : List String).length) *
          (edges.length + 1) < wccFuel edges := by
        have hcard : U.toFinset.card ≤ U.length := List.toFinset_card_le U
        have hUlen : U.length = edges.length + 1 := by simp [hU]
        simp only [List.length_singleton, List.length_nil, Nat.sub_zero, wccFuel]
        nlinarith [hcard, hUlen]
      have := wccLoop_false_not_reaches edges src U hUedges (wccFuel edges) [tgt] []
        hm (by simp) (by simp) (by intro x hx; simp at hx; simp [hx, hU]) (by simp) hrun
      exact this tgt (Or.inl (by simp)) hreach
  · intro nodes'
    rfl

/-! ## `loopDetection.ts` — `detectCycle` -/

/-- Result record of `detectCycle` (`CycleResult` in `loopDetection.ts`). -/
structure CycleResult where
  hasCycle : Bool
  cycleEdges : List String
deriving DecidableEq, Repr

/-- The mutable state shared by the nested `dfs` closure of `detectCycle`:
the visited set, the recursion stack, the accumulated cycle edges/nodes and
the parent-edge/parent-node maps.  The recursion stack is represented with the
most recently pushed node first, so that it coincides with the current DFS
call chain. -/
structure DfsState where
  visited : List String
  stack : List String
  cycleEdges : List String
  cycleNodes : List String
  parentEdge : List (String × String)
  parentNode : List (String × String)
deriving DecidableEq, Repr

/-- Adjacency list of `detectCycle` (`loopDetection.ts`, lines 10–23): every
node id is bound to `[]` first, then every edge appends `(target, edgeId)`
under its source (edges may introduce keys of their own). -/
def dcAdj (nodes : List NodeT) (edges : List EdgeT) :
    List (String × List (String × String)) :=
  let base := nodes.foldl (fun a n => mapSet a n.id []) []
  edges.foldl
    (fun a e => mapSet a e.source (((mapGet a e.source).getD []) ++ [(e.target, e.id)]))
    base

/-- Node lookup map of `detectCycle` (`nodeMap` in the source; `Map.set` makes
the last node win for a duplicated id). -/
def dcNodeMap (nodes : List NodeT) : List (String × NodeT) :=
  nodes.foldl (fun m n => mapSet m n.id n) []

/-- The cycle trace-back loop of `dfs` (`loopDetection.ts`, lines 49–63):
walk the parent maps from the back-edge source until the on-stack ancestor is
reached, pushing each parent edge and node.  The `while` loop is embedded with
fuel `stack.length + 1`, which dominates the walk because the parent chain
follows the recursion stack. -/
def traceBack (pe pn : List (String × String)) (ancestor : String) :
    Nat → String → List String → List String → List String × List String
  | 0, _, ces, cns => (ces, cns)
  | fuel + 1, current, ces, cns =>
    if current = ancestor then (ces, cns)
    else
      let ces' := match mapGet pe current with
        | some eid => ces ++ [eid]
        | none => ces
      match mapGet pn current with
      | some p => traceBack pe pn ancestor fuel p ces' (cns ++ [p])
      | none => (ces', cns)

mutual

/-- The recursive `dfs` of `detectCycle` (`loopDetection.ts`, lines 32–72).
The fuel bounds the recursion depth only; each recursive call targets an
unvisited node, so `nodes.length + edges.length + 1` fuel can never run
out. -/
def dfs (adj : List (String × List (String × String))) (fuel : Nat)
    (nodeId : String) (st : DfsState) : Bool × DfsState :=
  match fuel with
  | 0 => (false, st)
  | fuel' + 1 =>
    let st1 : DfsState :=
      { st with visited := st.visited.insert nodeId, stack := st.stack.insert nodeId }
    match dfsNeighbors adj fuel' nodeId ((mapGet adj nodeId).getD []) st1 with
    | (true, st2) => (true, st2)
    | (false, st2) => (false, { st2 with stack := st2.stack.erase nodeId })
termination_by (fuel, 0)

/-- The `for`-loop over the neighbors inside `dfs` (`loopDetection.ts`, lines
37–68), returning early as soon as a cycle is found (in which case the
recursion stack is deliberately not cleaned up, as in the source). -/
def dfsNeighbors (adj : List (String × List (String × String))) (fuel : Nat)
    (nodeId : String) (l : List (String × String)) (st : DfsState) : Bool × DfsState :=
  match l with
  | [] => (false, st)
  | (neighborId, edgeId) :: rest =>
    if neighborId ∉ st.visited then
      let st1 : DfsState :=
        { st with parentEdge := mapSet st.parentEdge neighborId edgeId,
                  parentNode := mapSet st.parentNode neighborId nodeId }
      match dfs adj fuel neighborId st1 with
      | (true, st2) => (true, st2)
      | (false, st2) => dfsNeighbors adj fuel nodeId rest st2
    else if neighborId ∈ st.stack then
      let tbOut := traceBack st.parentEdge st.parentNode neighborId
        (st.stack.length + 1) nodeId (st.cycleEdges ++ [edgeId]) (st.cycleNodes ++ [nodeId])
      (true, { st with cycleEdges := tbOut.1, cycleNodes := tbOut.2 ++ [neighborId] })
    else dfsNeighbors adj fuel nodeId rest st
termination_by (fuel, l.length + 1)

end

/-- DFS recursion-depth fuel for `detectCycle`: one more than the number of
node ids that can ever be visited. -/
def dcFuel (nodes : List NodeT) (edges : List EdgeT) : Nat :=
  nodes.length + edges.length + 1

/-- The root loop of `detectCycle` (`loopDetection.ts`, lines 74–92): start a
DFS from every not-yet-visited node in declaration order; stop at the first
found cycle, yielding its `(cycleEdges, cycleNodes)`. -/
def searchLoop (adj : List (String × List (String × String))) (fuel : Nat) :
    List String → DfsState → Option (List String × List String)
  | [], _ => none
  | rootId :: rest, st =>
    if rootId ∈ st.visited then searchLoop adj fuel rest st
    else
      match dfs adj fuel rootId st with
      | (true, st') => some (st'.cycleEdges, st'.cycleNodes)
      | (false, st') => searchLoop adj fuel rest st'

/-- The DFS phase of `detectCycle`: the first found cycle, if any, before the
local-off override is applied. -/
def dcSearch (nodes : List NodeT) (edges : List EdgeT) :
    Option (List String × List String) :=
  searchLoop (dcAdj nodes edges) (dcFuel nodes edges) (nodes.map (fun n => n.id))
    ⟨[], [], [], [], [], []⟩

/-- Lookup of the local-off flag through `nodeMap`
(`node?.data?.localOff === true` in the source; a missing node yields
`false`). -/
def localOffAt (m : List (String × NodeT)) (nid : String) : Bool :=
  match mapGet m nid with
  | some n => n.data.localOff
  | none => false

/-- `detectCycle(nodes, edges)` from `loopDetection.ts` (lines 9–95): run the
DFS; if a cycle was found and any node on it has local-off set, suppress it
(`hasCycle: false`, no edges), otherwise report the cycle's edges. -/
def detectCycle (nodes : List NodeT) (edges : List EdgeT) : CycleResult :=
  match dcSearch nodes edges with
  | some (ces, cns) =>
    if cns.any (fun nid => localOffAt (dcNodeMap nodes) nid) then
      { hasCycle := false, cycleEdges := [] }
    else
      { hasCycle := true, cycleEdges := ces }
  | none => { hasCycle := false, cycleEdges := [] }

/-- C2.  Once the DFS of `detectCycle` has found a cycle `(ces, cns)`, the
reported result is suppressed to `hasCycle = false` with an empty edge set
exactly when some instrument on the found cycle (`cns`) has its local-off
flag set; when no instrument on the found cycle has local-off set the cycle
is reported unchanged, regardless of local-off flags elsewhere in the
graph. -/
theorem detectCycle_localOff_override (nodes : List NodeT) (edges : List EdgeT)
    (ces cns : List String) (hfound : dcSearch nodes edges = some (ces, cns)) :
    ((∃ nid ∈ cns, localOffAt (dcNodeMap nodes) nid = true) →
      detectCycle nodes edges = { hasCycle := false, cycleEdges := [] }) ∧
    ((∀ nid ∈ cns, localOffAt (dcNodeMap nodes) nid = false) →
      detectCycle nodes edges = { hasCycle := true, cycleEdges := ces }) := by
  constructor
  · intro hoff
    rw [detectCycle, hfound]
    have : cns.any (fun nid => localOffAt (dcNodeMap nodes) nid) = true := by
      rcases hoff with ⟨nid, hmem, hval⟩
      exact List.any_eq_true.mpr ⟨nid, hmem, hval⟩
    simp [this]
  · intro hon
    rw [detectCycle, hfound]
    have : cns.any (fun nid => localOffAt (dcNodeMap nodes) nid) = false := by
      rw [List.any_eq_false]
      intro nid hmem
      simp [hon nid hmem]
    simp [this]

/-- Witness for C2 on the concrete graph A→B→A with a local-off instrument C
outside the cycle: the DFS finds the cycle `["e2", "e1"]` through nodes
`B, A, A`, none of which has local-off set, so the cycle is reported. -/
theorem detectCycle_localOff_override_witness :
    detectCycle
      [⟨"A", ⟨"A", "M", 1, .POLY, [], [], [], [], none, false, false⟩⟩,
       ⟨"B", ⟨"B", "M", 1, .POLY, [], [], [], [], none, false, false⟩⟩,
       ⟨"C", ⟨"C", "M", 1, .POLY, [], [], [], [], none, false, true⟩⟩]
      [⟨"e1", "A", "B", none, none⟩, ⟨"e2", "B", "A", none, none⟩,
       ⟨"e3", "A", "C", none, none⟩] =
      { hasCycle := true, cycleEdges := ["e2", "e1"] } :=
  (detectCycle_localOff_override _ _ ["e2", "e1"] ["B", "A", "A"]
    (by simp [dcSearch, searchLoop, dfs, dfsNeighbors, traceBack, dcAdj, dcFuel,
      mapGet, mapSet])).2 (by decide)

/-- The fields of an edge that `detectCycle` and `wouldCreateCycle` read:
identifier, source and target.  Neither function ever inspects the carried
medium (`portType`) or the source handle. -/
def edgeCore (e : EdgeT) : String × String × String := (e.id, e.source, e.target)

/-- The adjacency of `detectCycle` only depends on the edge cores. -/
theorem dcAdj_core_eq (nodes : List NodeT) :
    ∀ (edges₁ edges₂ : List EdgeT),
      edges₁.map edgeCore = edges₂.map edgeCore →
      dcAdj nodes edges₁ = dcAdj nodes edges₂ := by
  have main : ∀ (edges₁ edges₂ : List EdgeT),
      edges₁.map edgeCore = edges₂.map edgeCore →
      ∀ acc : List (String × List (String × String)),
        edges₁.foldl (fun a e =>
          mapSet a e.source (((mapGet a e.source).getD []) ++ [(e.target, e.id)])) acc =
        edges₂.foldl (fun a e =>
          mapSet a e.source (((mapGet a e.source).getD []) ++ [(e.target, e.id)])) acc := by
    intro edges₁
    induction edges₁ with
    | nil =>
      intro edges₂ h acc
      rcases List.map_eq_nil.mp h.symm with rfl
      rfl
    | cons a t₁ ih =>
      intro edges₂ h acc
      match edges₂ with
      | [] => simp at h
      | b :: t₂ =>
        simp only [List.map_cons, List.cons.injEq] at h
        rcases h with ⟨hcore, htail⟩
        rcases Prod.mk.injEq .. ▸ hcore with ⟨hid, hst⟩
        rcases Prod.mk.injEq .. ▸ hst with ⟨hsrc, htgt⟩
        simp only [List.foldl_cons, hid, hsrc, htgt]
        exact ih t₂ htail _
  intro edges₁ edges₂ h
  unfold dcAdj
  exact main edges₁ edges₂ h _

/-- Filtering and projecting through `edgeCore` only depends on the list of
cores. -/
theorem filter_map_factor {γ : Type} (f : String × String × String → Bool)
    (g : String × String × String → γ) (l₁ l₂ : List EdgeT)
    (h : l₁.map edgeCore = l₂.map edgeCore) :
    (l₁.filter (fun e => f (edgeCore e))).map (fun e => g (edgeCore e)) =
    (l₂.filter (fun e => f (edgeCore e))).map (fun e => g (edgeCore e)) := by
  have factor : ∀ l : List EdgeT,
      (l.filter (fun e => f (edgeCore e))).map (fun e => g (edgeCore e)) =
      ((l.map edgeCore).filter f).map g := by
    intro l
    induction l with
    | nil => rfl
    | cons a t ih =>
      simp only [List.map_cons, List.filter_cons]
      by_cases hc : f (edgeCore a) = true
      · rw [hc]
        simp only [if_true, List.map_cons, ih]
      · rw [Bool.not_eq_true] at hc
        rw [hc]
        simp only [Bool.false_eq_true, if_false, ih]
  rw [factor, factor, h]

/-- The `wouldCreateCycle` loop only depends on the edge cores. -/
theorem wccLoop_core_eq (src : String) (edges₁ edges₂ : List EdgeT)
    (h : edges₁.map edgeCore = edges₂.map edgeCore) :
    ∀ (fuel : Nat) (q vis : List String),
      wccLoop edges₁ src fuel q vis = wccLoop edges₂ src fuel q vis := by
  have hpush : ∀ (current : String) (vis' : List String),
      (edges₁.filter (fun e => decide (e.source = current ∧ e.target ∉ vis'))).map
          (fun e => e.target) =
      (edges₂.filter (fun e => decide (e.source = current ∧ e.target ∉ vis'))).map
          (fun e => e.target) := by
    intro current vis'
    exact filter_map_factor
      (fun c => decide (c.2.1 = current ∧ c.2.2 ∉ vis')) (fun c => c.2.2)
      edges₁ edges₂ h
  intro fuel
  induction fuel with
  | zero => intro q vis; rfl
  | succ fuel ih =>
    intro q vis
    match q with
    | [] => rfl
    | current :: rest =>
      rw [wccLoop, wccLoop]
      by_cases hsrc : current = src
      · simp [hsrc]
      · rw [if_neg hsrc, if_neg hsrc]
        by_cases hvis : current ∈ vis
        · rw [if_pos hvis, if_pos hvis, ih]
        · rw [if_neg hvis, if_neg hvis]
          simp only []
          rw [hpush current (current :: vis), ih]

/-- C10.  Both cycle functions build their adjacency from every connection
with no filtering by medium: their results are invariant under changing the
`portType` (and `sourceHandle`) data of the edges, a loop made only of
`audio`/`cv` connections is reported as a cycle, and an `audio` path from the
candidate target to the candidate source makes `wouldCreateCycle` answer
`true`. -/
theorem cycleFunctions_ignore_medium :
    (∀ (nodes : List NodeT) (edges₁ edges₂ : List EdgeT),
      edges₁.map edgeCore = edges₂.map edgeCore →
      detectCycle nodes edges₁ = detectCycle nodes edges₂) ∧
    (∀ (nodes : List NodeT) (edges₁ edges₂ : List EdgeT) (src tgt : String),
      edges₁.map edgeCore = edges₂.map edgeCore →
      wouldCreateCycle nodes edges₁ src tgt = wouldCreateCycle nodes edges₂ src tgt) ∧
    detectCycle
      [⟨"A", ⟨"A", "M", 1, .POLY, [], [], [], [], none, false, false⟩⟩,
       ⟨"B", ⟨"B", "M", 1, .POLY, [], [], [], [], none, false, false⟩⟩]
      [⟨"a1", "A", "B", some "audio-out-1", some "audio"⟩,
       ⟨"a2", "B", "A", some "cv-out-1", some "cv"⟩] =
      { hasCycle := true, cycleEdges := ["a2", "a1"] } ∧
    wouldCreateCycle [] [⟨"a3", "B", "A", some "audio-out-1", some "audio"⟩] "A" "B" =
      true := by
  refine ⟨?_, ?_, ?_, rfl⟩
  · intro nodes edges₁ edges₂ h
    have hlen : edges₁.length = edges₂.length := by
      have := congrArg List.length h
      simpa using this
    unfold detectCycle dcSearch
    rw [dcAdj_core_eq nodes edges₁ edges₂ h]
    unfold dcFuel
    rw [hlen]
  · intro nodes edges₁ edges₂ src tgt h
    have hlen : edges₁.length = edges₂.length := by
      have := congrArg List.length h
      simpa using this
    unfold wouldCreateCycle wccFuel
    rw [hlen, wccLoop_core_eq src edges₁ edges₂ h]
  · simp [detectCycle, dcSearch, searchLoop, dfs, dfsNeighbors, traceBack, dcAdj,
      dcFuel, dcNodeMap, localOffAt, mapGet, mapSet]

/-- Witness for C10: two concrete edge lists that differ only in medium data
(midi versus audio) produce identical `detectCycle` results. -/
theorem cycleFunctions_ignore_medium_witness :
    detectCycle
      [⟨"A", ⟨"A", "M", 1, .POLY, [], [], [], [], none, false, false⟩⟩]
      [⟨"s", "A", "A", some "midi-out-1", some "midi"⟩] =
    detectCycle
      [⟨"A", ⟨"A", "M", 1, .POLY, [], [], [], [], none, false, false⟩⟩]
      [⟨"s", "A", "A", some "audio-out-1", some "audio"⟩] :=
  cycleFunctions_ignore_medium.1
    [⟨"A", ⟨"A", "M", 1, .POLY, [], [], [], [], none, false, false⟩⟩]
    [⟨"s", "A", "A", some "midi-out-1", some "midi"⟩]
    [⟨"s", "A", "A", some "audio-out-1", some "audio"⟩] (by decide)

/-! ## Correctness of the cycle reported by `detectCycle` (claim C6) -/

theorem mapGet_mapSet_self {β : Type} (m : List (String × β)) (k : String) (v : β) :
    mapGet (mapSet m k v) k = some v := by
  induction m with
  | nil => simp [mapSet, mapGet]
  | cons p rest ih =>
    by_cases hk : k = p.1
    · simp [mapSet, mapGet, hk]
    · simp [mapSet, mapGet, hk, ih]

theorem mapGet_mapSet_ne {β : Type} (m : List (String × β)) {k k' : String} (v : β)
    (hne : k ≠ k') : mapGet (mapSet m k' v) k = mapGet m k := by
  induction m with
  | nil => simp [mapSet, mapGet, hne]
  | cons p rest ih =>
    by_cases hk : k' = p.1
    · subst hk
      simp [mapSet, mapGet, hne, ih]
    · by_cases hk2 : k = p.1
      · simp [mapSet, mapGet, hk, hk2]
      · simp [mapSet, mapGet, hk, hk2, ih]

/-- A forward walk in the connection graph from `a` to `b`: a chained list of
edges whose first edge leaves `a` and whose last edge enters `b`. -/
inductive FWalk (edges : List EdgeT) : String → String → List EdgeT → Prop
  | nil (a : String) : FWalk edges a a []
  | cons {b : String} {w : List EdgeT} (e : EdgeT) (he : e ∈ edges)
      (hw : FWalk edges e.target b w) : FWalk edges e.source b (e :: w)

/-- A walk can be extended by one edge at its end. -/
theorem FWalk.snoc {edges : List EdgeT} {a b : String} {w : List EdgeT} (e : EdgeT)
    (hw : FWalk edges a b w) (he : e ∈ edges) (hs : e.source = b) :
    FWalk edges a e.target (w ++ [e]) := by
  induction hw with
  | nil x => rw [← hs]; exact FWalk.cons e he (FWalk.nil _)
  | cons e' he' _ ih => exact FWalk.cons e' he' (ih hs)

/-- The parent-chain relation used by the recursion-stack invariant: `b` is
the recorded DFS parent of `a` and the recorded parent edge really runs from
`b` to `a` in the graph. -/
def ParentLink (edges : List EdgeT) (pe pn : List (String × String))
    (a b : String) : Prop :=
  mapGet pn a = some b ∧
    ∃ i, mapGet pe a = some i ∧ ∃ e ∈ edges, e.source = b ∧ e.target = a ∧ e.id = i

/-- A `Chain'` is preserved by changing the relation on pairs whose first
component stays in the list. -/
theorem chain'_congr_left {α : Type} {R S : α → α → Prop} :
    ∀ {l : List α}, (∀ a ∈ l, ∀ b, R a b → S a b) →
      List.Chain' R l → List.Chain' S l := by
  intro l
  induction l with
  | nil => intro _ _; exact List.chain'_nil
  | cons x t ih =>
    intro himp hch
    rcases List.chain'_cons'.mp hch with ⟨hhd, htl⟩
    refine List.chain'_cons'.mpr ⟨?_, ih (fun a ha b => himp a (List.mem_cons_of_mem _ ha) b) htl⟩
    intro y hy
    exact himp x (List.mem_cons_self _ _) y (hhd y hy)

/-- The invariant carried by the `detectCycle` DFS state: the recursion stack
is duplicate-free, contained in the visited set, linked top-down by the parent
maps, and no cycle output has been produced yet. -/
structure DCInv (edges : List EdgeT) (st : DfsState) : Prop where
  nd : st.stack.Nodup
  sv : ∀ x ∈ st.stack, x ∈ st.visited
  ch : List.Chain' (ParentLink edges st.parentEdge st.parentNode) st.stack
  ce : st.cycleEdges = []
  cn : st.cycleNodes = []

/-- The trace-back loop follows the parent chain down the recursion stack and
appends, in reverse order, the identifiers of a genuine walk in the graph from
the ancestor to the back-edge source. -/
theorem traceBack_walk (edges : List EdgeT) (pe pn : List (String × String))
    (anc : String) :
    ∀ (chainL : List String) (x : String) (fuel : Nat) (ces cns : List String),
      List.Chain' (ParentLink edges pe pn) (x :: chainL) →
      anc ∈ x :: chainL →
      (x :: chainL).length < fuel →
      ∃ w : List EdgeT, FWalk edges anc x w ∧
        (traceBack pe pn anc fuel x ces cns).1 =
          ces ++ (w.map (fun e => e.id)).reverse := by
  intro chainL
  induction chainL with
  | nil =>
    intro x fuel ces cns _ hanc hfuel
    have hax : anc = x := by simpa using hanc
    match fuel with
    | 0 => simp at hfuel
    | fuel' + 1 =>
      refine ⟨[], hax ▸ FWalk.nil anc, ?_⟩
      rw [traceBack, if_pos hax.symm]
      simp
  | cons y tail ih =>
    intro x fuel ces cns hch hanc hfuel
    match fuel with
    | 0 => simp at hfuel
    | fuel' + 1 =>
      by_cases hax : x = anc
      · refine ⟨[], by rw [hax]; exact FWalk.nil anc, ?_⟩
        rw [traceBack, if_pos hax]
        simp
      · have hancL : anc ∈ y :: tail := by
          rcases List.mem_cons.mp hanc with h | h
          · exact absurd h.symm hax
          · exact h
        rcases List.chain'_cons.mp hch with ⟨hlink, hch'⟩
        rcases hlink with ⟨hpn, i, hpe, e, heE, hesrc, hetgt, heid⟩
        have hfuel' : (y :: tail).length < fuel' := by
          simp at hfuel ⊢
          omega
        rcases ih y fuel' (ces ++ [i]) (cns ++ [y]) hch' hancL hfuel' with ⟨w, hw, hres⟩
        refine ⟨w ++ [e], ?_, ?_⟩
        · have := FWalk.snoc e hw heE hesrc
          rwa [hetgt] at this
        · rw [traceBack, if_neg hax]
          simp only [hpe, hpn]
          rw [hres]
          simp [heid]

/-- Soundness of an adjacency list: every recorded neighbor entry comes from a
real edge of the graph. -/
def AdjSound (adj : List (String × List (String × String))) (edges : List EdgeT) : Prop :=
  ∀ s p, p ∈ (mapGet adj s).getD [] →
    ∃ e ∈ edges, e.source = s ∧ e.target = p.1 ∧ e.id = p.2

/-- What a failed (cycle-free) DFS call guarantees: the recursion stack is
restored, the visited set only grows, and the parent maps are unchanged on
previously visited nodes. -/
structure FalsePost (st st' : DfsState) : Prop where
  stk : st'.stack = st.stack
  vmono : ∀ x ∈ st.visited, x ∈ st'.visited
  peStab : ∀ x ∈ st.visited, mapGet st'.parentEdge x = mapGet st.parentEdge x
  pnStab : ∀ x ∈ st.visited, mapGet st'.parentNode x = mapGet st.parentNode x

/-- What a successful DFS call guarantees: the accumulated cycle edges are, in
reverse order, the identifiers of a nonempty closed walk of the graph. -/
def TruePost (edges : List EdgeT) (st' : DfsState) : Prop :=
  ∃ (cyc : List EdgeT) (a : String), cyc ≠ [] ∧ FWalk edges a a cyc ∧
    st'.cycleEdges.reverse = cyc.map (fun e => e.id)

/-- Combined postcondition of `dfs`/`dfsNeighbors`. -/
def DfsOut (edges : List EdgeT) (st : DfsState) (out : Bool × DfsState) : Prop :=
  (out.1 = false → FalsePost st out.2 ∧ DCInv edges out.2) ∧
  (out.1 = true → TruePost edges out.2)

/-- Precondition linking a node about to be pushed with the current top of the
recursion stack. -/
def LinkOK (edges : List EdgeT) (st : DfsState) (nodeId : String) : Prop :=
  ∀ hd, st.stack.head? = some hd →
    ParentLink edges st.parentEdge st.parentNode nodeId hd

/-- Updating the parent maps at a not-yet-visited key preserves the DFS
invariant (the recursion stack only holds visited nodes, so its links are
untouched). -/
theorem DCInv.parentUpdate {edges : List EdgeT} {st : DfsState}
    (hinv : DCInv edges st) (neighborId edgeId nodeId : String)
    (hnv : neighborId ∉ st.visited) :
    DCInv edges { st with parentEdge := mapSet st.parentEdge neighborId edgeId,
                          parentNode := mapSet st.parentNode neighborId nodeId } := by
  refine ⟨hinv.nd, hinv.sv, ?_, hinv.ce, hinv.cn⟩
  refine chain'_congr_left (fun a ha b hab => ?_) hinv.ch
  have hane : a ≠ neighborId := fun h => hnv (h ▸ hinv.sv a ha)
  rcases hab with ⟨hpn, i, hpe, he⟩
  exact ⟨by rw [mapGet_mapSet_ne _ _ hane]; exact hpn,
    i, by rw [mapGet_mapSet_ne _ _ hane]; exact hpe, he⟩

/-- Specification of the neighbor loop, assuming the specification of `dfs`
at the same fuel. -/
theorem dfsNeighbors_spec_of_dfs (adj : List (String × List (String × String)))
    (edges : List EdgeT) (fuel : Nat)
    (hdfs : ∀ (nodeId : String) (st : DfsState), DCInv edges st →
      nodeId ∉ st.visited → LinkOK edges st nodeId →
      DfsOut edges st (dfs adj fuel nodeId st)) :
    ∀ (l : List (String × String)) (nodeId : String) (srest : List String)
      (st : DfsState), DCInv edges st → st.stack = nodeId :: srest →
      (∀ p ∈ l, ∃ e ∈ edges, e.source = nodeId ∧ e.target = p.1 ∧ e.id = p.2) →
      DfsOut edges st (dfsNeighbors adj fuel nodeId l st) := by
  intro l
  induction l with
  | nil =>
    intro nodeId srest st hinv _ _
    rw [dfsNeighbors.eq_def]
    exact ⟨fun _ => ⟨⟨rfl, fun x hx => hx, fun _ _ => rfl, fun _ _ => rfl⟩, hinv⟩,
      fun h => by simp at h⟩
  | cons p rest ih =>
    rcases p with ⟨neighborId, edgeId⟩
    intro nodeId srest st hinv hstk hneigh
    rcases hneigh (neighborId, edgeId) (List.mem_cons_self _ _) with
      ⟨e, heE, hesrc, hetgt, heid⟩
    rw [dfsNeighbors.eq_def]
    dsimp only
    by_cases hv : neighborId ∈ st.visited
    · rw [if_neg (not_not_intro hv)]
      by_cases hstack : neighborId ∈ st.stack
      · rw [if_pos hstack]
        have hch : List.Chain' (ParentLink edges st.parentEdge st.parentNode)
            (nodeId :: srest) := hstk ▸ hinv.ch
        have hanc : neighborId ∈ nodeId :: srest := hstk ▸ hstack
        have hlen : (nodeId :: srest).length < st.stack.length + 1 := by
          rw [hstk]
          omega
        rcases traceBack_walk edges st.parentEdge st.parentNode neighborId srest
            nodeId (st.stack.length + 1) (st.cycleEdges ++ [edgeId])
            (st.cycleNodes ++ [nodeId]) hch hanc hlen with ⟨w, hw, hres⟩
        refine ⟨fun h => by simp at h, fun _ => ?_⟩
        refine ⟨w ++ [e], neighborId, by simp, ?_, ?_⟩
        · have := FWalk.snoc e hw heE hesrc
          rwa [hetgt] at this
        · show (traceBack st.parentEdge st.parentNode neighborId
            (st.stack.length + 1) nodeId (st.cycleEdges ++ [edgeId])
            (st.cycleNodes ++ [nodeId])).1.reverse = _
          rw [hres, hinv.ce]
          simp [heid]
      · rw [if_neg hstack]
        exact ih nodeId srest st hinv hstk
          (fun q hq => hneigh q (List.mem_cons_of_mem _ hq))
    · rw [if_pos hv]
      have hinv1 := hinv.parentUpdate neighborId edgeId nodeId hv
      have hlink1 : LinkOK edges
          { st with parentEdge := mapSet st.parentEdge neighborId edgeId,
                    parentNode := mapSet st.parentNode neighborId nodeId } neighborId := by
        intro hd hhd
        simp only [hstk, List.head?_cons, Option.some.injEq] at hhd
        subst hhd
        exact ⟨mapGet_mapSet_self _ _ _, edgeId, mapGet_mapSet_self _ _ _,
          e, heE, hesrc, hetgt, heid⟩
      have hspec := hdfs neighborId _ hinv1 hv hlink1
      rcases hout : dfs adj fuel neighborId
          { st with parentEdge := mapSet st.parentEdge neighborId edgeId,
                    parentNode := mapSet st.parentNode neighborId nodeId } with ⟨b, st2⟩
      rw [hout] at hspec
      match b with
      | true =>
        exact ⟨fun h => by simp at h, fun _ => hspec.2 rfl⟩
      | false =>
        rcases hspec.1 rfl with ⟨hfp, hinv2⟩
        have hstk2 : st2.stack = nodeId :: srest := by rw [hfp.stk, hstk]
        have hrec := ih nodeId srest st2 hinv2 hstk2
          (fun q hq => hneigh q (List.mem_cons_of_mem _ hq))
        refine ⟨fun hfin => ?_, fun htru => (hrec.2 htru)⟩
        rcases hrec.1 hfin with ⟨hfp2, hinv3⟩
        refine ⟨⟨by rw [hfp2.stk, hstk2, hstk], ?_, ?_, ?_⟩, hinv3⟩
        · intro x hx
          exact hfp2.vmono x (hfp.vmono x hx)
        · intro x hx
          have hxne : x ≠ neighborId := fun h => hv (h ▸ hx)
          rw [hfp2.peStab x (hfp.vmono x hx), hfp.peStab x hx]
          exact mapGet_mapSet_ne _ _ hxne
        · intro x hx
          have hxne : x ≠ neighborId := fun h => hv (h ▸ hx)
          rw [hfp2.pnStab x (hfp.vmono x hx), hfp.pnStab x hx]
          exact mapGet_mapSet_ne _ _ hxne

/-- Specification of the mutual DFS of `detectCycle`, by induction on the
fuel: a failed search restores its state invariants, and a successful search
leaves a genuine closed walk of the graph in `cycleEdges`. -/
theorem dfs_spec (adj : List (String × List (String × String)))
    (edges : List EdgeT) (hadj : AdjSound adj edges) :
    ∀ (fuel : Nat) (nodeId : String) (st : DfsState), DCInv edges st →
      nodeId ∉ st.visited → LinkOK edges st nodeId →
      DfsOut edges st (dfs adj fuel nodeId st) := by
  intro fuel
  induction fuel with
  | zero =>
    intro nodeId st hinv _ _
    rw [dfs.eq_def]
    exact ⟨fun _ => ⟨⟨rfl, fun x hx => hx, fun _ _ => rfl, fun _ _ => rfl⟩, hinv⟩,
      fun h => by simp at h⟩
  | succ fuel ih =>
    intro nodeId st hinv hnv hlink
    have hnstk : nodeId ∉ st.stack := fun h => hnv (hinv.sv nodeId h)
    have hins : st.stack.insert nodeId = nodeId :: st.stack :=
      List.insert_of_not_mem hnstk
    have hinv1 : DCInv edges
        { st with visited := st.visited.insert nodeId,
                  stack := st.stack.insert nodeId } := by
      refine ⟨?_, ?_, ?_, hinv.ce, hinv.cn⟩
      · rw [hins]
        exact List.nodup_cons.mpr ⟨hnstk, hinv.nd⟩
      · intro x hx
        rw [hins] at hx
        rcases List.mem_cons.mp hx with rfl | hx
        · exact List.mem_insert_self _ _
        · exact List.mem_insert_of_mem (hinv.sv x hx)
      · show List.Chain' _ (st.stack.insert nodeId)
        rw [hins]
        refine List.chain'_cons'.mpr ⟨?_, hinv.ch⟩
        intro y hy
        exact hlink y hy
    have hneigh : ∀ p ∈ (mapGet adj nodeId).getD [],
        ∃ e ∈ edges, e.source = nodeId ∧ e.target = p.1 ∧ e.id = p.2 :=
      fun p hp => hadj nodeId p hp
    have hspec := dfsNeighbors_spec_of_dfs adj edges fuel ih
      ((mapGet adj nodeId).getD []) nodeId st.stack _ hinv1 (by rw [hins]) hneigh
    rw [dfs.eq_def]
    dsimp only
    rcases hout : dfsNeighbors adj fuel nodeId ((mapGet adj nodeId).getD [])
        { st with visited := st.visited.insert nodeId,
                  stack := st.stack.insert nodeId } with ⟨b, st2⟩
    rw [hout] at hspec
    match b with
    | true =>
      exact ⟨fun h => by simp at h, fun _ => hspec.2 rfl⟩
    | false =>
      rcases hspec.1 rfl with ⟨hfp, hinv2⟩
      have hstk2 : st2.stack = nodeId :: st.stack := by rw [hfp.stk, hins]
      refine ⟨fun _ => ?_, fun h => by simp at h⟩
      constructor
      · refine ⟨?_, ?_, ?_, ?_⟩
        · show st2.stack.erase nodeId = st.stack
          rw [hstk2, List.erase_cons_head]
        · intro x hx
          exact hfp.vmono x (List.mem_insert_of_mem hx)
        · intro x hx
          exact hfp.peStab x (List.mem_insert_of_mem hx)
        · intro x hx
          exact hfp.pnStab x (List.mem_insert_of_mem hx)
      · refine ⟨?_, ?_, ?_, hinv2.ce, hinv2.cn⟩
        · show (st2.stack.erase nodeId).Nodup
          rw [hstk2, List.erase_cons_head]
          exact (List.nodup_cons.mp (hstk2 ▸ hinv2.nd)).2
        · intro x hx
          have hx' : x ∈ st2.stack.erase nodeId := hx
          rw [hstk2, List.erase_cons_head] at hx'
          show x ∈ st2.visited
          exact hinv2.sv x (hstk2 ▸ List.mem_cons_of_mem _ hx')
        · show List.Chain' _ (st2.stack.erase nodeId)
          rw [hstk2, List.erase_cons_head]
          exact (hstk2 ▸ hinv2.ch : List.Chain' _ (nodeId :: st.stack)).tail

/-- The node-initialized base map of `dcAdj` holds only empty neighbor
lists. -/
theorem dcAdj_base_empty (nodes : List NodeT) :
    ∀ (acc : List (String × List (String × String))),
      (∀ s, (mapGet acc s).getD [] = []) →
      ∀ s, (mapGet (nodes.foldl (fun a n => mapSet a n.id []) acc) s).getD [] = [] := by
  induction nodes with
  | nil => intro acc h s; exact h s
  | cons n rest ih =>
    intro acc h s
    refine ih (mapSet acc n.id []) (fun s' => ?_) s
    by_cases hs : s' = n.id
    · subst hs
      rw [mapGet_mapSet_self]
      rfl
    · rw [mapGet_mapSet_ne _ _ hs]
      exact h s'

/-- Every neighbor entry of the `detectCycle` adjacency comes from an actual
edge. -/
theorem dcAdj_sound (nodes : List NodeT) (edges : List EdgeT) :
    AdjSound (dcAdj nodes edges) edges := by
  have main : ∀ (es : List EdgeT) (acc : List (String × List (String × String))),
      (∀ s p, p ∈ (mapGet acc s).getD [] →
        ∃ e ∈ edges, e.source = s ∧ e.target = p.1 ∧ e.id = p.2) →
      (∀ e ∈ es, e ∈ edges) →
      AdjSound (es.foldl (fun a e =>
        mapSet a e.source (((mapGet a e.source).getD []) ++ [(e.target, e.id)])) acc)
        edges := by
    intro es
    induction es with
    | nil => intro acc hacc _; exact hacc
    | cons a rest ih =>
      intro acc hacc hmem
      refine ih _ (fun s p hp => ?_) (fun e he => hmem e (List.mem_cons_of_mem _ he))
      by_cases hs : s = a.source
      · subst hs
        rw [mapGet_mapSet_self] at hp
        simp only [Option.getD_some] at hp
        rcases List.mem_append.mp hp with hp | hp
        · exact hacc _ p hp
        · rcases List.mem_singleton.mp hp with rfl
          exact ⟨a, hmem a (List.mem_cons_self _ _), rfl, rfl, rfl⟩
      · rw [mapGet_mapSet_ne _ _ hs] at hp
        exact hacc s p hp
  refine main edges _ (fun s p hp => ?_) (fun e he => he)
  rw [dcAdj_base_empty nodes [] (fun s => rfl) s] at hp
  simp at hp

/-- If the root loop of `detectCycle` reports a cycle, the recorded cycle
edges are, in reverse order, the identifiers of a nonempty closed walk. -/
theorem searchLoop_walk (adj : List (String × List (String × String)))
    (edges : List EdgeT) (hadj : AdjSound adj edges) (fuel : Nat) :
    ∀ (roots : List String) (st : DfsState), DCInv edges st → st.stack = [] →
      ∀ ces cns, searchLoop adj fuel roots st = some (ces, cns) →
      ∃ (cyc : List EdgeT) (a : String), cyc ≠ [] ∧ FWalk edges a a cyc ∧
        ces.reverse = cyc.map (fun e => e.id) := by
  intro roots
  induction roots with
  | nil =>
    intro st _ _ ces cns h
    simp [searchLoop] at h
  | cons r rest ih =>
    intro st hinv hstk ces cns h
    rw [searchLoop] at h
    by_cases hv : r ∈ st.visited
    · rw [if_pos hv] at h
      exact ih st hinv hstk ces cns h
    · rw [if_neg hv] at h
      have hlink : LinkOK edges st r := by
        intro hd hhd
        rw [hstk] at hhd
        simp at hhd
      have hspec := dfs_spec adj edges hadj fuel r st hinv hv hlink
      rcases hout : dfs adj fuel r st with ⟨b, st'⟩
      rw [hout] at h hspec
      match b with
      | true =>
        simp only [Option.some.injEq, Prod.mk.injEq] at h
        rcases hspec.2 rfl with ⟨cyc, a, hne, hwalk, hids⟩
        exact ⟨cyc, a, hne, hwalk, by rw [← h.1]; exact hids⟩
      | false =>
        rcases hspec.1 rfl with ⟨hfp, hinv'⟩
        exact ih st' hinv' (by rw [hfp.stk, hstk]) ces cns h

/-- C6.  Whenever `detectCycle` reports `hasCycle = true`, the returned edge
identifiers are exactly (in reverse DFS trace-back order) the edges of a
nonempty closed walk of the graph — the back-edge plus every tree edge on the
path from the back-edge's on-stack ancestor down to the back-edge's source —
so every connection lying on the reported cycle appears in the result; and a
single self-loop connection is reported as a one-node cycle containing exactly
that connection. -/
theorem detectCycle_reports_closed_walk :
    (∀ (nodes : List NodeT) (edges : List EdgeT) (ces : List String),
      detectCycle nodes edges = { hasCycle := true, cycleEdges := ces } →
      ∃ (cyc : List EdgeT) (a : String), cyc ≠ [] ∧ FWalk edges a a cyc ∧
        ces.reverse = cyc.map (fun e => e.id)) ∧
    detectCycle
      [⟨"A", ⟨"A", "M", 1, .POLY, [], [], [], [], none, false, false⟩⟩]
      [⟨"s", "A", "A", none, none⟩] =
      { hasCycle := true, cycleEdges := ["s"] } := by
  constructor
  · intro nodes edges ces hres
    unfold detectCycle at hres
    rcases hsearch : dcSearch nodes edges with _ | ⟨ces', cns'⟩
    · rw [hsearch] at hres
      simp at hres
    · rw [hsearch] at hres
      dsimp only at hres
      by_cases hany :
          (cns'.any (fun nid => localOffAt (dcNodeMap nodes) nid)) = true
      · rw [if_pos hany] at hres
        simp at hres
      · rw [if_neg hany] at hres
        have hces : ces = ces' := by
          have := congrArg CycleResult.cycleEdges hres
          exact this.symm
        subst hces
        unfold dcSearch at hsearch
        exact searchLoop_walk (dcAdj nodes edges) edges (dcAdj_sound nodes edges)
          (dcFuel nodes edges) (nodes.map (fun n => n.id)) ⟨[], [], [], [], [], []⟩
          ⟨List.nodup_nil, by simp, List.chain'_nil, rfl, rfl⟩ rfl ces cns' hsearch
  · simp [detectCycle, dcSearch, searchLoop, dfs, dfsNeighbors, traceBack, dcAdj,
      dcFuel, dcNodeMap, localOffAt, mapGet, mapSet]

/-- Witness for C6: on the one-node self-loop graph the reported edge list
`["s"]` indeed reverses to a closed walk. -/
theorem detectCycle_reports_closed_walk_witness :
    ∃ (cyc : List EdgeT) (a : String), cyc ≠ [] ∧
      FWalk [⟨"s", "A", "A", none, none⟩] a a cyc ∧
      (["s"] : List String).reverse = cyc.map (fun e => e.id) :=
  detectCycle_reports_closed_walk.1
    [⟨"A", ⟨"A", "M", 1, .POLY, [], [], [], [], none, false, false⟩⟩]
    [⟨"s", "A", "A", none, none⟩] ["s"] detectCycle_reports_closed_walk.2

/-! ## `hapaxRouting.ts` — `traceHapaxRouting` -/

/-- A connection is transport-capable when its carried medium is `midi` or
`usb` (`hapaxRouting.ts`, lines 19–20); an edge without data is skipped. -/
def isTransport (e : EdgeT) : Bool :=
  match e.portType with
  | some pt => pt = "midi" ∨ pt = "usb"
  | none => false

/-- Adjacency restricted to transport-capable connections
(`hapaxRouting.ts`, lines 17–25): each qualifying edge appends
`(target, sourceHandle || '')` under its source. -/
def transportAdj (edges : List EdgeT) : List (String × List (String × String)) :=
  edges.foldl
    (fun adj e =>
      if isTransport e then
        mapSet adj e.source
          (((mapGet adj e.source).getD []) ++ [(e.target, e.sourceHandle.getD "")])
      else adj)
    []

/-- Handle set lookup in a node-to-handles map (`m.get(k) || new Set()`). -/
def vpGet (m : List (String × List String)) (k : String) : List String :=
  (mapGet m k).getD []

/-- Seeding loop of the BFS (`hapaxRouting.ts`, lines 33–39): push every
direct hub connection `(target, handle)` and record the handle as visited for
its target. -/
def seedLoop :
    List (String × String) →
    List (String × String) × List (String × List String) →
    List (String × String) × List (String × List String)
  | [], qv => qv
  | p :: rest, qv =>
    seedLoop rest (qv.1 ++ [p], mapSet qv.2 p.1 (setAdd (vpGet qv.2 p.1) p.2))

/-- Neighbor propagation inside the BFS loop (`hapaxRouting.ts`, lines
51–60): skip the hub, skip `(target, handle)` pairs already visited, and
otherwise mark visited and enqueue. -/
def propagate (hub handle : String) :
    List (String × String) →
    List (String × String) × List (String × List String) →
    List (String × String) × List (String × List String)
  | [], qv => qv
  | p :: rest, qv =>
    if p.1 = hub then propagate hub handle rest qv
    else if handle ∈ vpGet qv.2 p.1 then propagate hub handle rest qv
    else propagate hub handle rest
      (qv.1 ++ [(p.1, handle)], mapSet qv.2 p.1 (vpGet qv.2 p.1 ++ [handle]))

/-- The BFS loop of `traceHapaxRouting` (`hapaxRouting.ts`, lines 41–61):
record each dequeued `(node, handle)` pair in the result and propagate the
handle along the node's outgoing transport connections.  The fuel dominates
the iteration count (`traceLoop_no_hub_key` and the completeness lemma below
only rely on runs whose fuel exceeds the loop measure). -/
def traceLoop (hub : String) (adj : List (String × List (String × String))) :
    Nat → List (String × String) → List (String × List String) →
    List (String × List String) → List (String × List String)
  | 0, _, _, res => res
  | _ + 1, [], _, res => res
  | fuel + 1, (nodeId, handle) :: rest, vis, res =>
    let res' := mapSet res nodeId (setAdd (vpGet res nodeId) handle)
    let qv := propagate hub handle ((mapGet adj nodeId).getD []) (rest, vis)
    traceLoop hub adj fuel qv.1 qv.2 res'

/-- Fuel for the routing BFS: strictly more than the seed queue length plus
the number of distinct `(target, handle)` pairs that can ever be enqueued. -/
def traceFuel (edges : List EdgeT) : Nat :=
  (edges.length + 2) * (edges.length + 2)

/-- `traceHapaxRouting(nodes, edges)` from `hapaxRouting.ts` (lines 8–69):
BFS from the hub node following transport-capable edges, returning the map
`nodeId → hub handles that reach it`.  The final `Set → Array` conversion of
the source is the identity here because handle sets are already kept as
insertion-ordered duplicate-free lists. -/
def traceHapaxRouting (nodes : List NodeT) (edges : List EdgeT) :
    List (String × List String) :=
  match nodes.find? (fun n => n.data.isHapax) with
  | none => []
  | some hapaxNode =>
    let midiAdj := transportAdj edges
    let seeded := seedLoop ((mapGet midiAdj hapaxNode.id).getD []) ([], [])
    traceLoop hapaxNode.id midiAdj (traceFuel edges) seeded.1 seeded.2 []

/-- Characterization of the transport adjacency: `(t, h)` is listed under `s`
iff some transport-capable edge runs from `s` to `t` with handle `h`. -/
theorem transportAdj_mem (edges : List EdgeT) (s t h : String) :
    (t, h) ∈ (mapGet (transportAdj edges) s).getD [] ↔
      ∃ e ∈ edges, isTransport e = true ∧ e.source = s ∧ e.target = t ∧
        e.sourceHandle.getD "" = h := by
  have main : ∀ (es : List EdgeT) (acc : List (String × List (String × String))),
      ((t, h) ∈ (mapGet (es.foldl (fun adj e =>
          if isTransport e then
            mapSet adj e.source
              (((mapGet adj e.source).getD []) ++ [(e.target, e.sourceHandle.getD "")])
          else adj) acc) s).getD [] ↔
        (t, h) ∈ (mapGet acc s).getD [] ∨
          ∃ e ∈ es, isTransport e = true ∧ e.source = s ∧ e.target = t ∧
            e.sourceHandle.getD "" = h) := by
    intro es
    induction es with
    | nil =>
      intro acc
      simp
    | cons e₀ rest ih =>
      intro acc
      simp only [List.foldl_cons]
      by_cases htr : isTransport e₀ = true
      · rw [if_pos htr, ih]
        constructor
        · rintro (hmem | hex)
          · by_cases hs : s = e₀.source
            · subst hs
              rw [mapGet_mapSet_self] at hmem
              simp only [Option.getD_some] at hmem
              rcases List.mem_append.mp hmem with hmem | hmem
              · exact Or.inl hmem
              · rcases List.mem_singleton.mp hmem with heq
                rcases Prod.mk.injEq .. ▸ heq with ⟨h1, h2⟩
                exact Or.inr ⟨e₀, List.mem_cons_self _ _, htr, rfl, h1.symm, h2.symm⟩
            · rw [mapGet_mapSet_ne _ _ hs] at hmem
              exact Or.inl hmem
          · rcases hex with ⟨e, he, hprops⟩
            exact Or.inr ⟨e, List.mem_cons_of_mem _ he, hprops⟩
        · rintro (hmem | ⟨e, he, h1, h2, h3, h4⟩)
          · by_cases hs : s = e₀.source
            · subst hs
              rw [mapGet_mapSet_self]
              simp only [Option.getD_some]
              exact Or.inl (List.mem_append.mpr (Or.inl hmem))
            · rw [mapGet_mapSet_ne _ _ hs]
              exact Or.inl hmem
          · rcases List.mem_cons.mp he with rfl | he
            · subst h2
              refine Or.inl ?_
              rw [mapGet_mapSet_self]
              simp only [Option.getD_some]
              exact List.mem_append.mpr (Or.inr (by simp [h3, h4]))
            · exact Or.inr ⟨e, he, h1, h2, h3, h4⟩
      · rw [if_neg htr, ih]
        constructor
        · rintro (hmem | hex)
          · exact Or.inl hmem
          · rcases hex with ⟨e, he, hprops⟩
            exact Or.inr ⟨e, List.mem_cons_of_mem _ he, hprops⟩
        · rintro (hmem | ⟨e, he, h1, h2, h3, h4⟩)
          · exact Or.inl hmem
          · rcases List.mem_cons.mp he with rfl | he
            · exact absurd h1 htr
            · exact Or.inr ⟨e, he, h1, h2, h3, h4⟩
  rw [show transportAdj edges = edges.foldl (fun adj e =>
      if isTransport e then
        mapSet adj e.source
          (((mapGet adj e.source).getD []) ++ [(e.target, e.sourceHandle.getD "")])
      else adj) [] from rfl, main]
  simp [mapGet]

/-- The seeding loop enqueues exactly the hub's adjacency entries (after the
inherited queue prefix). -/
theorem seedLoop_queue : ∀ (l : List (String × String))
    (qv : List (String × String) × List (String × List String)),
    (seedLoop l qv).1 = qv.1 ++ l := by
  intro l
  induction l with
  | nil => intro qv; simp [seedLoop]
  | cons p rest ih =>
    intro qv
    rw [seedLoop, ih]
    simp

/-- Propagation never enqueues the hub. -/
theorem propagate_not_hub (hub handle : String) :
    ∀ (l : List (String × String))
      (qv : List (String × String) × List (String × List String)),
      (∀ x ∈ qv.1, x.1 ≠ hub) →
      ∀ x ∈ (propagate hub handle l qv).1, x.1 ≠ hub := by
  intro l
  induction l with
  | nil => intro qv hq; exact hq
  | cons p rest ih =>
    intro qv hq
    rw [propagate]
    by_cases hhub : p.1 = hub
    · rw [if_pos hhub]
      exact ih qv hq
    · rw [if_neg hhub]
      by_cases hvis : handle ∈ vpGet qv.2 p.1
      · rw [if_pos hvis]
        exact ih qv hq
      · rw [if_neg hvis]
        refine ih _ (fun x hx => ?_)
        rcases List.mem_append.mp hx with hx | hx
        · exact hq x hx
        · rcases List.mem_singleton.mp hx with rfl
          exact hhub

/-- If no queued pair names the hub, the BFS loop never records the hub in its
result map. -/
theorem traceLoop_no_hub (hub : String) (adj : List (String × List (String × String))) :
    ∀ (fuel : Nat) (q : List (String × String)) (vis res : List (String × List String)),
      (∀ x ∈ q, x.1 ≠ hub) → mapGet res hub = none →
      mapGet (traceLoop hub adj fuel q vis res) hub = none := by
  intro fuel
  induction fuel with
  | zero => intro q vis res _ hres; exact hres
  | succ fuel ih =>
    intro q vis res hq hres
    match q with
    | [] => exact hres
    | (nodeId, handle) :: rest =>
      rw [traceLoop]
      refine ih _ _ _ ?_ ?_
      · exact propagate_not_hub hub handle _ _
          (fun x hx => hq x (List.mem_cons_of_mem _ hx))
      · have hne : hub ≠ nodeId := fun hcontra =>
          hq (nodeId, handle) (List.mem_cons_self _ _) hcontra.symm
        rw [mapGet_mapSet_ne _ _ hne]
        exact hres

/-- C1 (amended).  For every graph with a hub instrument and no direct
transport-capable hub-to-hub self-loop connection, the map returned by
`traceHapaxRouting` never contains the hub instrument as a key — in
particular a downstream instrument's connection back into the hub never adds
a `(hub, handle)` entry.  (A direct transport self-loop on the hub is the one
exception: the seeding phase does not skip it; see the counterexample.) -/
theorem traceHapaxRouting_no_hub_key (nodes : List NodeT) (edges : List EdgeT)
    (hub : NodeT) (hfind : nodes.find? (fun n => n.data.isHapax) = some hub)
    (hnoself : ∀ e ∈ edges, isTransport e = true → e.source = hub.id →
      e.target ≠ hub.id) :
    mapGet (traceHapaxRouting nodes edges) hub.id = none := by
  unfold traceHapaxRouting
  rw [hfind]
  refine traceLoop_no_hub hub.id (transportAdj edges) (traceFuel edges) _ _ _ ?_ rfl
  intro x hx
  rw [seedLoop_queue _ ([], [])] at hx
  simp only [List.nil_append] at hx
  have hx' : (x.1, x.2) ∈ (mapGet (transportAdj edges) hub.id).getD [] := hx
  rcases (transportAdj_mem edges hub.id x.1 x.2).mp hx' with ⟨e, he, htr, hsrc, htgt, _⟩
  intro hcontra
  exact hnoself e he htr hsrc (htgt.trans hcontra)

/-- Counterexample to C1 as stated: a direct transport-capable hub-to-hub
self-loop connection does put the hub instrument itself into the trace
result. -/
theorem traceHapaxRouting_hub_self_loop_key :
    mapGet (traceHapaxRouting
      [⟨"hapax", ⟨"Hapax", "Squarp", 1, .POLY, [], [], [], [], none, true, false⟩⟩]
      [⟨"e1", "hapax", "hapax", some "midi-a", some "midi"⟩]) "hapax" =
      some ["midi-a"] := by
  decide

/-- Witness for C1 (amended) on a two-node graph whose downstream node routes
back into the hub: the hub still does not appear in the result. -/
theorem traceHapaxRouting_no_hub_key_witness :
    mapGet (traceHapaxRouting
      [⟨"hapax", ⟨"Hapax", "Squarp", 1, .POLY, [], [], [], [], none, true, false⟩⟩,
       ⟨"node-1", ⟨"N1", "M", 1, .POLY, [], [], [], [], none, false, false⟩⟩]
      [⟨"e1", "hapax", "node-1", some "midi-a", some "midi"⟩,
       ⟨"e2", "node-1", "hapax", some "midi-out-1", some "midi"⟩]) "hapax" = none :=
  traceHapaxRouting_no_hub_key
    [⟨"hapax", ⟨"Hapax", "Squarp", 1, .POLY, [], [], [], [], none, true, false⟩⟩,
     ⟨"node-1", ⟨"N1", "M", 1, .POLY, [], [], [], [], none, false, false⟩⟩]
    [⟨"e1", "hapax", "node-1", some "midi-a", some "midi"⟩,
     ⟨"e2", "node-1", "hapax", some "midi-out-1", some "midi"⟩]
    ⟨"hapax", ⟨"Hapax", "Squarp", 1, .POLY, [], [], [], [], none, true, false⟩⟩
    (by decide) (by decide)

/-! ## Completeness machinery for the routing BFS (claim C3) -/

theorem vpGet_mapSet_self (m : List (String × List String)) (k : String)
    (v : List String) : vpGet (mapSet m k v) k = v := by
  unfold vpGet
  rw [mapGet_mapSet_self]
  rfl

theorem vpGet_mapSet_ne (m : List (String × List String)) {k k' : String}
    (v : List String) (hne : k ≠ k') : vpGet (mapSet m k' v) k = vpGet m k := by
  unfold vpGet
  rw [mapGet_mapSet_ne _ _ hne]

/-- Membership in the seeded visited map: exactly the inherited pairs plus
the seeded list. -/
theorem seedLoop_vis : ∀ (l : List (String × String))
    (qv : List (String × String) × List (String × List String)) (n h : String),
    (h ∈ vpGet (seedLoop l qv).2 n ↔ h ∈ vpGet qv.2 n ∨ (n, h) ∈ l) := by
  intro l
  induction l with
  | nil => intro qv n h; simp [seedLoop]
  | cons p rest ih =>
    intro qv n h
    rw [seedLoop, ih]
    by_cases hn : n = p.1
    · subst hn
      rw [vpGet_mapSet_self]
      unfold setAdd
      by_cases hmem : p.2 ∈ vpGet qv.2 p.1
      · rw [if_pos hmem]
        constructor
        · rintro (hh | hh)
          · exact Or.inl hh
          · exact Or.inr (List.mem_cons_of_mem _ hh)
        · rintro (hh | hh)
          · exact Or.inl hh
          · rcases List.mem_cons.mp hh with heq | hh
            · have : h = p.2 := congrArg Prod.snd heq
              exact Or.inl (this ▸ hmem)
            · exact Or.inr hh
      · rw [if_neg hmem]
        constructor
        · rintro (hh | hh)
          · rcases List.mem_append.mp hh with hh | hh
            · exact Or.inl hh
            · rcases List.mem_singleton.mp hh with rfl
              exact Or.inr (List.mem_cons_self _ _)
          · exact Or.inr (List.mem_cons_of_mem _ hh)
        · rintro (hh | hh)
          · exact Or.inl (List.mem_append.mpr (Or.inl hh))
          · rcases List.mem_cons.mp hh with heq | hh
            · have : h = p.2 := congrArg Prod.snd heq
              exact Or.inl (List.mem_append.mpr (Or.inr (by simp [this])))
            · exact Or.inr hh
    · rw [vpGet_mapSet_ne _ _ hn]
      constructor
      · rintro (hh | hh)
        · exact Or.inl hh
        · exact Or.inr (List.mem_cons_of_mem _ hh)
      · rintro (hh | hh)
        · exact Or.inl hh
        · rcases List.mem_cons.mp hh with heq | hh
          · exact absurd (congrArg Prod.fst heq) hn
          · exact Or.inr hh

/-- Total number of `(node, handle)` pairs recorded in a visited map. -/
def pairCount (vis : List (String × List String)) : Nat :=
  (vis.map (fun p => p.2.length)).sum

/-- `mapSet` that appends one genuinely new handle increases the pair count by
exactly one. -/
theorem pairCount_mapSet_snoc (vis : List (String × List String))
    (k h : String) :
    pairCount (mapSet vis k (vpGet vis k ++ [h])) = pairCount vis + 1 := by
  induction vis with
  | nil => simp [pairCount, mapSet, vpGet, mapGet]
  | cons p rest ih =>
    by_cases hk : k = p.1
    · subst hk
      unfold mapSet
      rw [if_pos rfl]
      unfold vpGet mapGet
      rw [if_pos rfl]
      simp [pairCount]
      omega
    · unfold mapSet
      rw [if_neg hk]
      have hget : vpGet (p :: rest) k = vpGet rest k := by
        show ((if k = p.1 then some p.2 else mapGet rest k).getD []) =
          (mapGet rest k).getD []
        rw [if_neg hk]
      rw [hget]
      simp only [pairCount, List.map_cons, List.sum_cons] at ih ⊢
      omega

/-- Under duplicate-free keys every binding agrees with `mapGet`. -/
theorem mapGet_of_mem_nodup (vis : List (String × List String))
    (hkeys : (vis.map Prod.fst).Nodup) :
    ∀ p ∈ vis, mapGet vis p.1 = some p.2 := by
  induction vis with
  | nil => intro p hp; simp at hp
  | cons q rest ih =>
    intro p hp
    simp only [List.map_cons, List.nodup_cons] at hkeys
    rcases List.mem_cons.mp hp with rfl | hp
    · unfold mapGet
      rw [if_pos rfl]
    · unfold mapGet
      have hne : p.1 ≠ q.1 := by
        intro hcontra
        exact hkeys.1 (hcontra ▸ List.mem_map_of_mem Prod.fst hp)
      rw [if_neg hne]
      exact ih hkeys.2 p hp

/-- The pair count of a well-formed visited map is bounded by the number of
possible `(target, handle)` pairs. -/
theorem pairCount_le (vis : List (String × List String)) (T H : List String)
    (hkeys : (vis.map Prod.fst).Nodup)
    (hvals : ∀ n, (vpGet vis n).Nodup)
    (huniv : ∀ n h, h ∈ vpGet vis n → n ∈ T ∧ h ∈ H) :
    pairCount vis ≤ T.toFinset.card * H.toFinset.card := by
  set pairsOf : String × List String → List (String × String) :=
    fun p => p.2.map (fun h => (p.1, h)) with hpairsOf
  set allPairs : List (String × String) := (vis.map pairsOf).join with hallPairs
  have hmem : ∀ n h, (n, h) ∈ allPairs ↔ ∃ p ∈ vis, p.1 = n ∧ h ∈ p.2 := by
    intro n h
    rw [hallPairs]
    simp only [List.mem_join, List.mem_map]
    constructor
    · rintro ⟨blk, ⟨p, hp, rfl⟩, hblk⟩
      rcases List.mem_map.mp hblk with ⟨h', hh', heq⟩
      rcases Prod.mk.injEq .. ▸ heq with ⟨h1, h2⟩
      exact ⟨p, hp, h1, h2 ▸ hh'⟩
    · rintro ⟨p, hp, rfl, hh⟩
      exact ⟨pairsOf p, ⟨p, hp, rfl⟩, List.mem_map.mpr ⟨h, hh, rfl⟩⟩
  have hlen : allPairs.length = pairCount vis := by
    rw [hallPairs, List.length_join, pairCount]
    rw [List.map_map]
    congr 1
    apply List.map_congr_left
    intro p _
    simp [hpairsOf]
  have hvalOf : ∀ p ∈ vis, p.2 = vpGet vis p.1 := by
    intro p hp
    unfold vpGet
    rw [mapGet_of_mem_nodup vis hkeys p hp]
    rfl
  have hnd : allPairs.Nodup := by
    rw [hallPairs]
    rw [List.nodup_join]
    constructor
    · intro blk hblk
      rcases List.mem_map.mp hblk with ⟨p, hp, rfl⟩
      refine List.Nodup.map ?_ ?_
      · intro a b hab
        exact congrArg Prod.snd hab
      · rw [hvalOf p hp]
        exact hvals p.1
    · rw [List.pairwise_map]
      have hkp : vis.Pairwise (fun p q => p.1 ≠ q.1) :=
        (List.pairwise_map.mp hkeys)
      refine hkp.imp ?_
      intro p q hpq x hxp hxq
      rcases List.mem_map.mp hxp with ⟨h1, _, rfl⟩
      rcases List.mem_map.mp hxq with ⟨h2, _, heq⟩
      exact hpq (congrArg Prod.fst heq).symm
  have hsub : allPairs.toFinset ⊆ T.toFinset ×ˢ H.toFinset := by
    intro x hx
    rcases x with ⟨n, h⟩
    rw [List.mem_toFinset] at hx
    rcases (hmem n h).mp hx with ⟨p, hp, rfl, hh⟩
    have hh' : h ∈ vpGet vis p.1 := (hvalOf p hp) ▸ hh
    rcases huniv p.1 h hh' with ⟨hT, hH⟩
    rw [Finset.mem_product]
    exact ⟨List.mem_toFinset.mpr hT, List.mem_toFinset.mpr hH⟩
  calc pairCount vis = allPairs.length := hlen.symm
    _ = allPairs.toFinset.card := (List.toFinset_card_of_nodup hnd).symm
    _ ≤ (T.toFinset ×ˢ H.toFinset).card := Finset.card_le_card hsub
    _ = T.toFinset.card * H.toFinset.card := Finset.card_product _ _

theorem mapSet_keys_subset {β : Type} (m : List (String × β)) (k : String) (v : β) :
    ∀ x ∈ (mapSet m k v).map Prod.fst, x ∈ m.map Prod.fst ∨ x = k := by
  induction m with
  | nil => intro x hx; simp [mapSet] at hx; simp [hx]
  | cons p rest ih =>
    intro x hx
    by_cases hk : k = p.1
    · subst hk
      unfold mapSet at hx
      rw [if_pos rfl] at hx
      simp only [List.map_cons, List.mem_cons] at hx ⊢
      rcases hx with rfl | hx
      · exact Or.inr rfl
      · exact Or.inl (Or.inr hx)
    · unfold mapSet at hx
      rw [if_neg hk] at hx
      simp only [List.map_cons, List.mem_cons] at hx ⊢
      rcases hx with rfl | hx
      · exact Or.inl (Or.inl rfl)
      · rcases ih x hx with hx | hx
        · exact Or.inl (Or.inr hx)
        · exact Or.inr hx

theorem mapSet_keys_nodup {β : Type} (m : List (String × β)) (k : String) (v : β)
    (h : (m.map Prod.fst).Nodup) : ((mapSet m k v).map Prod.fst).Nodup := by
  induction m with
  | nil => simp [mapSet]
  | cons p rest ih =>
    simp only [List.map_cons, List.nodup_cons] at h
    by_cases hk : k = p.1
    · subst hk
      unfold mapSet
      rw [if_pos rfl]
      simp only [List.map_cons, List.nodup_cons]
      exact h
    · unfold mapSet
      rw [if_neg hk]
      simp only [List.map_cons, List.nodup_cons]
      refine ⟨fun hcontra => ?_, ih h.2⟩
      rcases mapSet_keys_subset rest k v p.1 hcontra with hx | hx
      · exact h.1 hx
      · exact hk hx.symm

theorem propagate_vis_mono (hub handle : String) :
    ∀ (l : List (String × String)) (qv : _ × _) (n h' : String),
      h' ∈ vpGet qv.2 n → h' ∈ vpGet (propagate hub handle l qv).2 n := by
  intro l
  induction l with
  | nil => intro qv n h' hmem; exact hmem
  | cons p rest ih =>
    intro qv n h' hmem
    rw [propagate]
    by_cases hhub : p.1 = hub
    · rw [if_pos hhub]; exact ih qv n h' hmem
    · rw [if_neg hhub]
      by_cases hvis : handle ∈ vpGet qv.2 p.1
      · rw [if_pos hvis]; exact ih qv n h' hmem
      · rw [if_neg hvis]
        refine ih _ n h' ?_
        by_cases hn : n = p.1
        · subst hn
          rw [vpGet_mapSet_self]
          exact List.mem_append.mpr (Or.inl hmem)
        · rw [vpGet_mapSet_ne _ _ hn]
          exact hmem

theorem propagate_queue_mono (hub handle : String) :
    ∀ (l : List (String × String)) (qv : _ × _) (x : String × String),
      x ∈ qv.1 → x ∈ (propagate hub handle l qv).1 := by
  intro l
  induction l with
  | nil => intro qv x hx; exact hx
  | cons p rest ih =>
    intro qv x hx
    rw [propagate]
    by_cases hhub : p.1 = hub
    · rw [if_pos hhub]; exact ih qv x hx
    · rw [if_neg hhub]
      by_cases hvis : handle ∈ vpGet qv.2 p.1
      · rw [if_pos hvis]; exact ih qv x hx
      · rw [if_neg hvis]
        exact ih _ x (List.mem_append.mpr (Or.inl hx))

theorem propagate_qv (hub handle : String) :
    ∀ (l : List (String × String)) (qv : _ × _),
      (∀ x ∈ qv.1, x.2 ∈ vpGet qv.2 x.1) →
      ∀ x ∈ (propagate hub handle l qv).1,
        x.2 ∈ vpGet (propagate hub handle l qv).2 x.1 := by
  intro l
  induction l with
  | nil => intro qv hq x hx; exact hq x hx
  | cons p rest ih =>
    intro qv hq x hx
    rw [propagate] at hx ⊢
    by_cases hhub : p.1 = hub
    · rw [if_pos hhub] at hx ⊢; exact ih qv hq x hx
    · rw [if_neg hhub] at hx ⊢
      by_cases hvis : handle ∈ vpGet qv.2 p.1
      · rw [if_pos hvis] at hx ⊢; exact ih qv hq x hx
      · rw [if_neg hvis] at hx ⊢
        refine ih _ ?_ x hx
        intro y hy
        rcases List.mem_append.mp hy with hy | hy
        · by_cases hyn : y.1 = p.1
          · rw [hyn, vpGet_mapSet_self]
            exact List.mem_append.mpr (Or.inl (hyn ▸ hq y hy))
          · rw [vpGet_mapSet_ne _ _ hyn]
            exact hq y hy
        · rcases List.mem_singleton.mp hy with rfl
          rw [vpGet_mapSet_self]
          exact List.mem_append.mpr (Or.inr (by simp))

theorem propagate_cover (hub handle : String) :
    ∀ (l : List (String × String)) (qv : _ × _),
      ∀ p ∈ l, p.1 ≠ hub → handle ∈ vpGet (propagate hub handle l qv).2 p.1 := by
  intro l
  induction l with
  | nil => intro qv p hp; simp at hp
  | cons q rest ih =>
    intro qv p hp hne
    rw [propagate]
    rcases List.mem_cons.mp hp with rfl | hp
    · rw [if_neg hne]
      by_cases hvis : handle ∈ vpGet qv.2 p.1
      · rw [if_pos hvis]
        exact propagate_vis_mono hub handle rest qv p.1 handle hvis
      · rw [if_neg hvis]
        refine propagate_vis_mono hub handle rest _ p.1 handle ?_
        rw [vpGet_mapSet_self]
        exact List.mem_append.mpr (Or.inr (by simp))
    · by_cases hhub : q.1 = hub
      · rw [if_pos hhub]; exact ih qv p hp hne
      · rw [if_neg hhub]
        by_cases hvis : handle ∈ vpGet qv.2 q.1
        · rw [if_pos hvis]; exact ih qv p hp hne
        · rw [if_neg hvis]; exact ih _ p hp hne

theorem propagate_new_vis (hub handle : String) :
    ∀ (l : List (String × String)) (qv : _ × _) (n h' : String),
      h' ∈ vpGet (propagate hub handle l qv).2 n →
      h' ∈ vpGet qv.2 n ∨ (n, h') ∈ (propagate hub handle l qv).1 := by
  intro l
  induction l with
  | nil => intro qv n h' hmem; exact Or.inl hmem
  | cons p rest ih =>
    intro qv n h' hmem
    rw [propagate] at hmem ⊢
    by_cases hhub : p.1 = hub
    · rw [if_pos hhub] at hmem ⊢; exact ih qv n h' hmem
    · rw [if_neg hhub] at hmem ⊢
      by_cases hvis : handle ∈ vpGet qv.2 p.1
      · rw [if_pos hvis] at hmem ⊢; exact ih qv n h' hmem
      · rw [if_neg hvis] at hmem ⊢
        rcases ih _ n h' hmem with hmem' | hq
        · by_cases hn : n = p.1
          · subst hn
            rw [vpGet_mapSet_self] at hmem'
            rcases List.mem_append.mp hmem' with hmem' | hmem'
            · exact Or.inl hmem'
            · rcases List.mem_singleton.mp hmem' with rfl
              refine Or.inr (propagate_queue_mono hub h' rest _ _ ?_)
              exact List.mem_append.mpr (Or.inr (by simp))
          · rw [vpGet_mapSet_ne _ _ hn] at hmem'
            exact Or.inl hmem'
        · exact Or.inr hq

theorem propagate_count (hub handle : String) :
    ∀ (l : List (String × String)) (qv : _ × _),
      (propagate hub handle l qv).1.length + pairCount qv.2 =
        qv.1.length + pairCount (propagate hub handle l qv).2 := by
  intro l
  induction l with
  | nil => intro qv; rfl
  | cons p rest ih =>
    intro qv
    rw [propagate]
    by_cases hhub : p.1 = hub
    · rw [if_pos hhub]; exact ih qv
    · rw [if_neg hhub]
      by_cases hvis : handle ∈ vpGet qv.2 p.1
      · rw [if_pos hvis]; exact ih qv
      · rw [if_neg hvis]
        have := ih (qv.1 ++ [(p.1, handle)],
          mapSet qv.2 p.1 (vpGet qv.2 p.1 ++ [handle]))
        rw [pairCount_mapSet_snoc] at this
        simp only [List.length_append, List.length_singleton] at this
        omega

theorem propagate_keys_nodup (hub handle : String) :
    ∀ (l : List (String × String)) (qv : _ × _),
      ((qv.2.map Prod.fst).Nodup) →
      (((propagate hub handle l qv).2.map Prod.fst).Nodup) := by
  intro l
  induction l with
  | nil => intro qv h; exact h
  | cons p rest ih =>
    intro qv h
    rw [propagate]
    by_cases hhub : p.1 = hub
    · rw [if_pos hhub]; exact ih qv h
    · rw [if_neg hhub]
      by_cases hvis : handle ∈ vpGet qv.2 p.1
      · rw [if_pos hvis]; exact ih qv h
      · rw [if_neg hvis]
        exact ih _ (mapSet_keys_nodup _ _ _ h)

theorem propagate_vals_nodup (hub handle : String) :
    ∀ (l : List (String × String)) (qv : _ × _),
      (∀ n, (vpGet qv.2 n).Nodup) →
      ∀ n, (vpGet (propagate hub handle l qv).2 n).Nodup := by
  intro l
  induction l with
  | nil => intro qv h n; exact h n
  | cons p rest ih =>
    intro qv h n
    rw [propagate]
    by_cases hhub : p.1 = hub
    · rw [if_pos hhub]; exact ih qv h n
    · rw [if_neg hhub]
      by_cases hvis : handle ∈ vpGet qv.2 p.1
      · rw [if_pos hvis]; exact ih qv h n
      · rw [if_neg hvis]
        refine ih _ (fun m => ?_) n
        by_cases hm : m = p.1
        · subst hm
          rw [vpGet_mapSet_self]
          rw [List.nodup_append]
          exact ⟨h p.1, List.nodup_singleton _, by
            intro a ha hb
            rcases List.mem_singleton.mp hb with rfl
            exact hvis ha⟩
        · rw [vpGet_mapSet_ne _ _ hm]
          exact h m

theorem propagate_univ (hub handle : String) (T H : List String) :
    ∀ (l : List (String × String)) (qv : _ × _),
      (∀ n h', h' ∈ vpGet qv.2 n → n ∈ T ∧ h' ∈ H) →
      (∀ p ∈ l, p.1 ∈ T) → handle ∈ H →
      ∀ n h', h' ∈ vpGet (propagate hub handle l qv).2 n → n ∈ T ∧ h' ∈ H := by
  intro l
  induction l with
  | nil => intro qv hu _ _ n h' hmem; exact hu n h' hmem
  | cons p rest ih =>
    intro qv hu hl hH n h' hmem
    rw [propagate] at hmem
    by_cases hhub : p.1 = hub
    · rw [if_pos hhub] at hmem
      exact ih qv hu (fun q hq => hl q (List.mem_cons_of_mem _ hq)) hH n h' hmem
    · rw [if_neg hhub] at hmem
      by_cases hvis : handle ∈ vpGet qv.2 p.1
      · rw [if_pos hvis] at hmem
        exact ih qv hu (fun q hq => hl q (List.mem_cons_of_mem _ hq)) hH n h' hmem
      · rw [if_neg hvis] at hmem
        refine ih _ (fun m h'' hm => ?_)
          (fun q hq => hl q (List.mem_cons_of_mem _ hq)) hH n h' hmem
        by_cases hmp : m = p.1
        · subst hmp
          rw [vpGet_mapSet_self] at hm
          rcases List.mem_append.mp hm with hm | hm
          · exact hu p.1 h'' hm
          · rcases List.mem_singleton.mp hm with rfl
            exact ⟨hl p (List.mem_cons_self _ _), hH⟩
        · rw [vpGet_mapSet_ne _ _ hmp] at hm
          exact hu m h'' hm

theorem setAdd_mem_of_mem {l : List String} {x : String} (y : String)
    (h : x ∈ l) : x ∈ setAdd l y := by
  unfold setAdd
  by_cases hy : y ∈ l
  · rw [if_pos hy]; exact h
  · rw [if_neg hy]; exact List.mem_append.mpr (Or.inl h)

theorem setAdd_mem_self (l : List String) (y : String) : y ∈ setAdd l y := by
  unfold setAdd
  by_cases hy : y ∈ l
  · rw [if_pos hy]; exact hy
  · rw [if_neg hy]; exact List.mem_append.mpr (Or.inr (by simp))

theorem setAdd_elim {l : List String} {x y : String} (h : x ∈ setAdd l y) :
    x ∈ l ∨ x = y := by
  unfold setAdd at h
  by_cases hy : y ∈ l
  · rw [if_pos hy] at h; exact Or.inl h
  · rw [if_neg hy] at h
    rcases List.mem_append.mp h with h | h
    · exact Or.inl h
    · exact Or.inr (List.mem_singleton.mp h)

theorem propagate_queue_ge (hub handle : String) :
    ∀ (l : List (String × String)) (qv : _ × _),
      qv.1.length ≤ (propagate hub handle l qv).1.length := by
  intro l
  induction l with
  | nil => intro qv; exact Nat.le_refl _
  | cons p rest ih =>
    intro qv
    rw [propagate]
    by_cases hhub : p.1 = hub
    · rw [if_pos hhub]; exact ih qv
    · rw [if_neg hhub]
      by_cases hvis : handle ∈ vpGet qv.2 p.1
      · rw [if_pos hvis]; exact ih qv
      · rw [if_neg hvis]
        calc qv.1.length ≤ (qv.1 ++ [(p.1, handle)]).length := by simp
          _ ≤ _ := ih (qv.1 ++ [(p.1, handle)],
            mapSet qv.2 p.1 (vpGet qv.2 p.1 ++ [handle]))

/-- Completeness of the routing BFS loop: given enough fuel and the loop
invariants, there is a final visited set that contains the current one, is
entirely recorded in the final result, and is closed under non-hub
propagation steps out of every recorded pair. -/
theorem traceLoop_complete (hub : String)
    (adj : List (String × List (String × String))) (T H : List String)
    (hadjT : ∀ s p, p ∈ (mapGet adj s).getD [] → p.1 ∈ T) :
    ∀ (fuel : Nat) (q : List (String × String)) (vis res : List (String × List String)),
      q.length + (T.toFinset.card * H.toFinset.card - pairCount vis) < fuel →
      (∀ x ∈ q, x.2 ∈ vpGet vis x.1) →
      ((vis.map Prod.fst).Nodup) →
      (∀ n, (vpGet vis n).Nodup) →
      (∀ n h, h ∈ vpGet vis n → n ∈ T ∧ h ∈ H) →
      (∀ n h, h ∈ vpGet vis n → h ∈ vpGet res n ∨ (n, h) ∈ q) →
      (∀ n h, h ∈ vpGet res n → ∀ p ∈ (mapGet adj n).getD [], p.1 ≠ hub →
        h ∈ vpGet vis p.1) →
      ∃ visF : List (String × List String),
        (∀ n h, h ∈ vpGet vis n → h ∈ vpGet visF n) ∧
        (∀ n h, h ∈ vpGet visF n →
          h ∈ vpGet (traceLoop hub adj fuel q vis res) n) ∧
        (∀ n h, h ∈ vpGet (traceLoop hub adj fuel q vis res) n →
          ∀ p ∈ (mapGet adj n).getD [], p.1 ≠ hub → h ∈ vpGet visF p.1) := by
  intro fuel
  induction fuel with
  | zero => intro q vis res hm; omega
  | succ fuel ih =>
    intro q vis res hm hqv hkeys hvals huniv hvrq hcl
    match q with
    | [] =>
      refine ⟨vis, fun n h hh => hh, fun n h hh => ?_, fun n h hh p hp hne => ?_⟩
      · show h ∈ vpGet res n
        rcases hvrq n h hh with hres | hq
        · exact hres
        · simp at hq
      · exact hcl n h hh p hp hne
    | (nodeId, handle) :: rest =>
      rw [traceLoop]
      have hhand : handle ∈ vpGet vis nodeId :=
        hqv (nodeId, handle) (List.mem_cons_self _ _)
      have hH : handle ∈ H := (huniv nodeId handle hhand).2
      set L := (mapGet adj nodeId).getD [] with hL
      set qv := propagate hub handle L (rest, vis) with hqvdef
      set res' := mapSet res nodeId (setAdd (vpGet res nodeId) handle) with hres'
      have hres'mono : ∀ n h, h ∈ vpGet res n → h ∈ vpGet res' n := by
        intro n h hh
        rw [hres']
        by_cases hn : n = nodeId
        · subst hn
          rw [vpGet_mapSet_self]
          exact setAdd_mem_of_mem handle hh
        · rw [vpGet_mapSet_ne _ _ hn]
          exact hh
      have hLT : ∀ p ∈ L, p.1 ∈ T := fun p hp => hadjT nodeId p hp
      have hkeys' := propagate_keys_nodup hub handle L (rest, vis) hkeys
      have hvals' := propagate_vals_nodup hub handle L (rest, vis) hvals
      have huniv' := propagate_univ hub handle T H L (rest, vis) huniv hLT hH
      have hcap := pairCount_le qv.2 T H hkeys' hvals' huniv'
      have hcapv := pairCount_le vis T H hkeys hvals huniv
      have hcount := propagate_count hub handle L (rest, vis)
      have hge := propagate_queue_ge hub handle L (rest, vis)
      rw [← hqvdef] at hcount hge
      dsimp only at hcount hge
      have hm' : qv.1.length +
          (T.toFinset.card * H.toFinset.card - pairCount qv.2) < fuel := by
        simp only [List.length_cons] at hm
        omega
      have hqv' : ∀ x ∈ qv.1, x.2 ∈ vpGet qv.2 x.1 := by
        refine propagate_qv hub handle L (rest, vis) ?_
        intro x hx
        exact hqv x (List.mem_cons_of_mem _ hx)
      have hvrq' : ∀ n h, h ∈ vpGet qv.2 n → h ∈ vpGet res' n ∨ (n, h) ∈ qv.1 := by
        intro n h hh
        rcases propagate_new_vis hub handle L (rest, vis) n h hh with hh' | hh'
        · rcases hvrq n h hh' with hres | hq
          · exact Or.inl (hres'mono n h hres)
          · rcases List.mem_cons.mp hq with heq | hq
            · rcases Prod.mk.injEq .. ▸ heq with ⟨h1, h2⟩
              subst h1; subst h2
              refine Or.inl ?_
              rw [hres', vpGet_mapSet_self]
              exact setAdd_mem_self _ _
            · exact Or.inr (propagate_queue_mono hub handle L (rest, vis) (n, h) hq)
        · exact Or.inr hh'
      have hcl' : ∀ n h, h ∈ vpGet res' n →
          ∀ p ∈ (mapGet adj n).getD [], p.1 ≠ hub → h ∈ vpGet qv.2 p.1 := by
        intro n h hh p hp hne
        rw [hres'] at hh
        by_cases hn : n = nodeId
        · subst hn
          rw [vpGet_mapSet_self] at hh
          rcases setAdd_elim hh with hh | rfl
          · exact propagate_vis_mono hub handle L (rest, vis) p.1 h
              (hcl n h hh p hp hne)
          · exact propagate_cover hub h L (rest, vis) p (hL ▸ hp) hne
        · rw [vpGet_mapSet_ne _ _ hn] at hh
          exact propagate_vis_mono hub handle L (rest, vis) p.1 h
            (hcl n h hh p hp hne)
      rcases ih qv.1 qv.2 res' hm' hqv' hkeys' hvals' huniv' hvrq' hcl' with
        ⟨visF, hf1, hf2, hf3⟩
      refine ⟨visF, ?_, hf2, hf3⟩
      intro n h hh
      exact hf1 n h (propagate_vis_mono hub handle L (rest, vis) n h hh)

/-- The claim's path predicate: a chain of transport-capable connections
whose first edge leaves the hub from the output handle `h`, each later edge
continuing from the previous target, never passing through the hub after
leaving it, ending at the indexed instrument. -/
inductive HubPath (edges : List EdgeT) (hub h : String) : String → Prop
  | seed (e : EdgeT) (he : e ∈ edges) (htr : isTransport e = true)
      (hs : e.source = hub) (hh : e.sourceHandle.getD "" = h)
      (ht : e.target ≠ hub) : HubPath edges hub h e.target
  | step {u : String} (e : EdgeT) (hu : HubPath edges hub h u) (he : e ∈ edges)
      (htr : isTransport e = true) (hs : e.source = u) (ht : e.target ≠ hub) :
      HubPath edges hub h e.target

/-- Propagation preserves an arbitrary per-pair invariant of the queue. -/
theorem propagate_queue_sound (hub handle : String) (P : String → String → Prop) :
    ∀ (l : List (String × String)) (qv : _ × _),
      (∀ x ∈ qv.1, P x.1 x.2) →
      (∀ p ∈ l, p.1 ≠ hub → P p.1 handle) →
      ∀ x ∈ (propagate hub handle l qv).1, P x.1 x.2 := by
  intro l
  induction l with
  | nil => intro qv hq _ x hx; exact hq x hx
  | cons p rest ih =>
    intro qv hq hstep x hx
    rw [propagate] at hx
    by_cases hhub : p.1 = hub
    · rw [if_pos hhub] at hx
      exact ih qv hq (fun q hq' => hstep q (List.mem_cons_of_mem _ hq')) x hx
    · rw [if_neg hhub] at hx
      by_cases hvis : handle ∈ vpGet qv.2 p.1
      · rw [if_pos hvis] at hx
        exact ih qv hq (fun q hq' => hstep q (List.mem_cons_of_mem _ hq')) x hx
      · rw [if_neg hvis] at hx
        refine ih _ ?_ (fun q hq' => hstep q (List.mem_cons_of_mem _ hq')) x hx
        intro y hy
        rcases List.mem_append.mp hy with hy | hy
        · exact hq y hy
        · rcases List.mem_singleton.mp hy with rfl
          exact hstep p (List.mem_cons_self _ _) hhub

/-- Soundness of the routing BFS loop for any step-closed per-pair
invariant. -/
theorem traceLoop_sound (hub : String)
    (adj : List (String × List (String × String))) (P : String → String → Prop)
    (hstepAdj : ∀ n handle, P n handle →
      ∀ p ∈ (mapGet adj n).getD [], p.1 ≠ hub → P p.1 handle) :
    ∀ (fuel : Nat) (q : List (String × String)) (vis res : List (String × List String)),
      (∀ x ∈ q, P x.1 x.2) → (∀ n h, h ∈ vpGet res n → P n h) →
      ∀ n h, h ∈ vpGet (traceLoop hub adj fuel q vis res) n → P n h := by
  intro fuel
  induction fuel with
  | zero => intro q vis res _ hres n h hh; exact hres n h hh
  | succ fuel ih =>
    intro q vis res hq hres
    match q with
    | [] => exact hres
    | (nodeId, handle) :: rest =>
      rw [traceLoop]
      have hPhead : P nodeId handle := hq (nodeId, handle) (List.mem_cons_self _ _)
      refine ih _ _ _ ?_ ?_
      · refine propagate_queue_sound hub handle P _ (rest, vis) ?_ ?_
        · intro x hx
          exact hq x (List.mem_cons_of_mem _ hx)
        · intro p hp hne
          exact hstepAdj nodeId handle hPhead p hp hne
      · intro n h hh
        by_cases hn : n = nodeId
        · subst hn
          rw [vpGet_mapSet_self] at hh
          rcases setAdd_elim hh with hh | rfl
          · exact hres n h hh
          · exact hPhead
        · rw [vpGet_mapSet_ne _ _ hn] at hh
          exact hres n h hh

/-- Seeding preserves duplicate-free keys. -/
theorem seedLoop_keys_nodup :
    ∀ (l : List (String × String)) (qv : _ × _),
      ((qv.2.map Prod.fst).Nodup) → (((seedLoop l qv).2.map Prod.fst).Nodup) := by
  intro l
  induction l with
  | nil => intro qv h; exact h
  | cons p rest ih =>
    intro qv h
    rw [seedLoop]
    exact ih _ (mapSet_keys_nodup _ _ _ h)

/-- Seeding preserves duplicate-free handle sets. -/
theorem seedLoop_vals_nodup :
    ∀ (l : List (String × String)) (qv : _ × _),
      (∀ n, (vpGet qv.2 n).Nodup) → ∀ n, (vpGet (seedLoop l qv).2 n).Nodup := by
  intro l
  induction l with
  | nil => intro qv h n; exact h n
  | cons p rest ih =>
    intro qv h n
    rw [seedLoop]
    refine ih _ (fun m => ?_) n
    by_cases hm : m = p.1
    · subst hm
      rw [vpGet_mapSet_self]
      unfold setAdd
      by_cases hmem : p.2 ∈ vpGet qv.2 p.1
      · rw [if_pos hmem]; exact h p.1
      · rw [if_neg hmem]
        rw [List.nodup_append]
        exact ⟨h p.1, List.nodup_singleton _, by
          intro a ha hb
          rcases List.mem_singleton.mp hb with rfl
          exact hmem ha⟩
    · rw [vpGet_mapSet_ne _ _ hm]
      exact h m

/-- Adjacency lists of the transport adjacency are never longer than the edge
list. -/
theorem transportAdj_len (edges : List EdgeT) (s : String) :
    ((mapGet (transportAdj edges) s).getD []).length ≤ edges.length := by
  have main : ∀ (es : List EdgeT) (acc : List (String × List (String × String))),
      ((mapGet (es.foldl (fun adj e =>
        if isTransport e then
          mapSet adj e.source
            (((mapGet adj e.source).getD []) ++ [(e.target, e.sourceHandle.getD "")])
        else adj) acc) s).getD []).length ≤
      ((mapGet acc s).getD []).length + es.length := by
    intro es
    induction es with
    | nil => intro acc; simp
    | cons e₀ rest ih =>
      intro acc
      simp only [List.foldl_cons, List.length_cons]
      by_cases htr : isTransport e₀ = true
      · rw [if_pos htr]
        refine (ih _).trans ?_
        by_cases hs : s = e₀.source
        · subst hs
          rw [mapGet_mapSet_self]
          simp only [Option.getD_some, List.length_append, List.length_singleton]
          omega
        · rw [mapGet_mapSet_ne _ _ hs]
          omega
      · rw [if_neg htr]
        refine (ih _).trans ?_
        omega
  have := main edges []
  simpa [transportAdj, mapGet] using this

/-- C3 (amended).  For every graph with a hub instrument and no direct
transport-capable hub-to-hub self-loop connection, every non-hub instrument
`I` and every handle `h`: `h` is in the trace result set for `I` iff a path
of transport-capable connections leaves the hub from output handle `h`, each
later connection continuing from the previous target, never re-entering the
hub, and ends at `I`.  Consequently nodes reachable only via `audio`/`cv`
connections are absent, handles survive any number of intermediate hops
unchanged, and two distinct handles converging on one instrument are both
recorded. -/
theorem traceHapaxRouting_reaches_iff (nodes : List NodeT) (edges : List EdgeT)
    (hub : NodeT) (I h : String)
    (hfind : nodes.find? (fun n => n.data.isHapax) = some hub)
    (hnoself : ∀ e ∈ edges, isTransport e = true → e.source = hub.id →
      e.target ≠ hub.id)
    (_hInothub : I ≠ hub.id) :
    h ∈ vpGet (traceHapaxRouting nodes edges) I ↔ HubPath edges hub.id h I := by
  have hout : traceHapaxRouting nodes edges =
      traceLoop hub.id (transportAdj edges) (traceFuel edges)
        (seedLoop ((mapGet (transportAdj edges) hub.id).getD []) ([], [])).1
        (seedLoop ((mapGet (transportAdj edges) hub.id).getD []) ([], [])).2 [] := by
    unfold traceHapaxRouting
    rw [hfind]
  set L := (mapGet (transportAdj edges) hub.id).getD [] with hLdef
  have hseedq : (seedLoop L ([], [])).1 = L := by
    rw [seedLoop_queue]
    rfl
  have hseedvis : ∀ n h', h' ∈ vpGet (seedLoop L ([], [])).2 n ↔ (n, h') ∈ L := by
    intro n h'
    rw [seedLoop_vis]
    constructor
    · rintro (hh | hh)
      · simp [vpGet, mapGet] at hh
      · exact hh
    · intro hh
      exact Or.inr hh
  constructor
  · intro hmem
    rw [hout] at hmem
    refine traceLoop_sound hub.id (transportAdj edges)
      (fun n h' => HubPath edges hub.id h' n) ?_ (traceFuel edges) _ _ []
      ?_ (by intro n h' hh; simp [vpGet, mapGet] at hh) I h hmem
    · intro n handle hP p hp hne
      rcases (transportAdj_mem edges n p.1 p.2).mp hp with ⟨e, he, htr, hsrc, htgt, _⟩
      have := HubPath.step e hP he htr hsrc (htgt ▸ hne)
      rwa [htgt] at this
    · rw [hseedq]
      intro x hx
      rcases (transportAdj_mem edges hub.id x.1 x.2).mp hx with
        ⟨e, he, htr, hsrc, htgt, hhdl⟩
      rw [← htgt]
      exact HubPath.seed e he htr hsrc hhdl (htgt ▸ hnoself e he htr hsrc)
  · intro hpath
    set T := edges.map (fun e => e.target) with hT
    set H := edges.map (fun e => e.sourceHandle.getD "") with hH
    have hadjT : ∀ s p, p ∈ (mapGet (transportAdj edges) s).getD [] → p.1 ∈ T := by
      intro s p hp
      rcases (transportAdj_mem edges s p.1 p.2).mp hp with ⟨e, he, _, _, htgt, _⟩
      rw [hT]
      exact List.mem_map.mpr ⟨e, he, htgt⟩
    have hkeys0 := seedLoop_keys_nodup L ([], []) (by simp)
    have hvals0 := seedLoop_vals_nodup L ([], []) (by intro n; simp [vpGet, mapGet])
    have huniv0 : ∀ n h', h' ∈ vpGet (seedLoop L ([], [])).2 n → n ∈ T ∧ h' ∈ H := by
      intro n h' hh
      rcases (hseedvis n h').mp hh with hh
      rcases (transportAdj_mem edges hub.id n h').mp hh with
        ⟨e, he, _, _, htgt, hhdl⟩
      exact ⟨hT ▸ List.mem_map.mpr ⟨e, he, htgt⟩, hH ▸ List.mem_map.mpr ⟨e, he, hhdl⟩⟩
    have hm0 : (seedLoop L ([], [])).1.length +
        (T.toFinset.card * H.toFinset.card - pairCount (seedLoop L ([], [])).2) <
        traceFuel edges := by
      have h1 : (seedLoop L ([], [])).1.length ≤ edges.length := by
        rw [hseedq]
        exact transportAdj_len edges hub.id
      have h2 : T.toFinset.card ≤ edges.length := by
        calc T.toFinset.card ≤ T.length := List.toFinset_card_le T
          _ = edges.length := by rw [hT, List.length_map]
      have h3 : H.toFinset.card ≤ edges.length := by
        calc H.toFinset.card ≤ H.length := List.toFinset_card_le H
          _ = edges.length := by rw [hH, List.length_map]
      have h4 : T.toFinset.card * H.toFinset.card ≤ edges.length * edges.length :=
        Nat.mul_le_mul h2 h3
      have h5 : T.toFinset.card * H.toFinset.card -
          pairCount (seedLoop L ([], [])).2 ≤ edges.length * edges.length :=
        le_trans (Nat.sub_le _ _) h4
      have h6 : edges.length + edges.length * edges.length < traceFuel edges := by
        unfold traceFuel
        nlinarith [Nat.zero_le edges.length]
      omega
    have hqv0 : ∀ x ∈ (seedLoop L ([], [])).1,
        x.2 ∈ vpGet (seedLoop L ([], [])).2 x.1 := by
      intro x hx
      rw [hseedq] at hx
      exact (hseedvis x.1 x.2).mpr hx
    have hvrq0 : ∀ n h', h' ∈ vpGet (seedLoop L ([], [])).2 n →
        h' ∈ vpGet [] n ∨ (n, h') ∈ (seedLoop L ([], [])).1 := by
      intro n h' hh
      rw [hseedq]
      exact Or.inr ((hseedvis n h').mp hh)
    have hcl0 : ∀ n h', h' ∈ vpGet ([] : List (String × List String)) n →
        ∀ p ∈ (mapGet (transportAdj edges) n).getD [], p.1 ≠ hub.id →
        h' ∈ vpGet (seedLoop L ([], [])).2 p.1 := by
      intro n h' hh
      simp [vpGet, mapGet] at hh
    rcases traceLoop_complete hub.id (transportAdj edges) T H hadjT
      (traceFuel edges) (seedLoop L ([], [])).1 (seedLoop L ([], [])).2 []
      hm0 hqv0 hkeys0 hvals0 huniv0 hvrq0 hcl0 with ⟨visF, hf1, hf2, hf3⟩
    rw [hout]
    clear _hInothub
    induction hpath with
    | seed e he htr hs hh ht =>
      refine hf2 e.target h (hf1 e.target h ?_)
      rw [hseedvis]
      exact (transportAdj_mem edges hub.id e.target h).mpr ⟨e, he, htr, hs, rfl, hh⟩
    | step e _ he htr hs ht ih =>
      rename_i u _
      refine hf2 e.target h ?_
      refine hf3 u h ih (e.target, e.sourceHandle.getD "") ?_ ht
      exact (transportAdj_mem edges u e.target (e.sourceHandle.getD "")).mpr
        ⟨e, he, htr, hs, rfl, rfl⟩

/-- Counterexample to C3 as stated: with a transport-capable hub-to-hub
self-loop carrying handle `midi-a`, the BFS propagates `midi-a` to `node-1`
even though no connection path starting from hub output `midi-a` and avoiding
the hub afterwards ever reaches `node-1`. -/
theorem traceHapaxRouting_self_loop_contaminates :
    "midi-a" ∈ vpGet (traceHapaxRouting
      [⟨"hapax", ⟨"Hapax", "Squarp", 1, .POLY, [], [], [], [], none, true, false⟩⟩,
       ⟨"node-1", ⟨"N1", "M", 1, .POLY, [], [], [], [], none, false, false⟩⟩]
      [⟨"e1", "hapax", "hapax", some "midi-a", some "midi"⟩,
       ⟨"e2", "hapax", "node-1", some "midi-b", some "midi"⟩]) "node-1" ∧
    ¬ HubPath
      [⟨"e1", "hapax", "hapax", some "midi-a", some "midi"⟩,
       ⟨"e2", "hapax", "node-1", some "midi-b", some "midi"⟩]
      "hapax" "midi-a" "node-1" := by
  constructor
  · decide
  · have haux : ∀ t, ¬ HubPath
        [⟨"e1", "hapax", "hapax", some "midi-a", some "midi"⟩,
         ⟨"e2", "hapax", "node-1", some "midi-b", some "midi"⟩]
        "hapax" "midi-a" t := by
      intro t hpath
      induction hpath with
      | seed e he htr hs hh ht =>
        rcases List.mem_cons.mp he with rfl | he
        · exact ht rfl
        · rcases List.mem_cons.mp he with rfl | he
          · simp at hh
          · simp at he
      | step e _ he htr hs ht ih => exact ih
    exact haux "node-1"

/-- Witness for C3 (amended) on a two-hop chain hub →(midi-a)→ thru →
synth: the characterization applies with all hypotheses discharged. -/
theorem traceHapaxRouting_reaches_iff_witness :
    "midi-a" ∈ vpGet (traceHapaxRouting
      [⟨"hapax", ⟨"Hapax", "Squarp", 1, .POLY, [], [], [], [], none, true, false⟩⟩,
       ⟨"thru", ⟨"Thru", "M", 1, .POLY, [], [], [], [], none, false, false⟩⟩,
       ⟨"synth", ⟨"Synth", "M", 1, .POLY, [], [], [], [], none, false, false⟩⟩]
      [⟨"e1", "hapax", "thru", some "midi-a", some "midi"⟩,
       ⟨"e2", "thru", "synth", some "midi-out-1", some "midi"⟩]) "synth" ↔
    HubPath
      [⟨"e1", "hapax", "thru", some "midi-a", some "midi"⟩,
       ⟨"e2", "thru", "synth", some "midi-out-1", some "midi"⟩]
      "hapax" "midi-a" "synth" :=
  traceHapaxRouting_reaches_iff
    [⟨"hapax", ⟨"Hapax", "Squarp", 1, .POLY, [], [], [], [], none, true, false⟩⟩,
     ⟨"thru", ⟨"Thru", "M", 1, .POLY, [], [], [], [], none, false, false⟩⟩,
     ⟨"synth", ⟨"Synth", "M", 1, .POLY, [], [], [], [], none, false, false⟩⟩]
    [⟨"e1", "hapax", "thru", some "midi-a", some "midi"⟩,
     ⟨"e2", "thru", "synth", some "midi-out-1", some "midi"⟩]
    ⟨"hapax", ⟨"Hapax", "Squarp", 1, .POLY, [], [], [], [], none, true, false⟩⟩
    "synth" "midi-a" (by decide) (by decide) (by decide)

/-! ## `hapaxExport.ts` — connection resolver and definition serializer -/

/-- A resolved `(instrument, hub port code, analog?)` tuple
(`ConnectedInstrument` in `hapaxExport.ts`). -/
structure ConnectedInstrument where
  node : NodeT
  hapaxPort : String
  isAnalog : Bool
deriving DecidableEq, Repr

/-- The fixed hub-port lookup table `HAPAX_PORT_MAP` (`hapaxExport.ts`,
lines 12–27): raw handle → `(outPort, isAnalog)`. -/
def hapaxPortTable : List (String × String × Bool) :=
  [("midi-a", "A", false), ("midi-b", "B", false), ("midi-c", "C", false),
   ("midi-d", "D", false), ("usb-host", "USBH", false), ("usb-device", "USBD", false),
   ("cv-1", "CV1", true), ("cv-2", "CV2", true), ("cv-3", "CV3", true),
   ("cv-4", "CV4", true), ("gate-1", "G1", true), ("gate-2", "G2", true),
   ("gate-3", "G3", true), ("gate-4", "G4", true)]

/-- `HAPAX_PORT_MAP[handle]`: `none` models an unrecognized handle. -/
def hapaxPortMap (handle : String) : Option (String × Bool) :=
  (hapaxPortTable.find? (fun p => p.1 = handle)).map (fun p => p.2)

/-- Step 1 of `findConnectedInstruments` (`hapaxExport.ts`, lines 42–56):
turn every `(nodeId, handles)` entry of the BFS trace into resolved tuples,
skipping unknown nodes, the hub itself and unrecognized handles. -/
def rawStep1 (nodes : List NodeT) (routing : List (String × List String)) :
    List ConnectedInstrument :=
  routing.foldl
    (fun raw entry =>
      match nodes.find? (fun n => decide (n.id = entry.1)) with
      | none => raw
      | some targetNode =>
        if targetNode.data.isHapax then raw
        else
          entry.2.foldl
            (fun raw handle =>
              match hapaxPortMap handle with
              | none => raw
              | some portInfo => raw ++ [⟨targetNode, portInfo.1, portInfo.2⟩])
            raw)
    []

/-- Step 2 of `findConnectedInstruments` (`hapaxExport.ts`, lines 58–78):
add direct analog (CV/gate) connections leaving the hub, unless the
`(instrument, port)` pair is already present. -/
def rawStep2 (nodes : List NodeT) (hubId : String) (edges : List EdgeT)
    (raw0 : List ConnectedInstrument) : List ConnectedInstrument :=
  edges.foldl
    (fun raw e =>
      if e.source ≠ hubId then raw
      else
        match hapaxPortMap (e.sourceHandle.getD "") with
        | none => raw
        | some portInfo =>
          if ¬ portInfo.2 then raw
          else
            match nodes.find? (fun n => decide (n.id = e.target)) with
            | none => raw
            | some targetNode =>
              if targetNode.data.isHapax then raw
              else if raw.any (fun r =>
                  decide (r.node.id = targetNode.id ∧ r.hapaxPort = portInfo.1)) then raw
              else raw ++ [⟨targetNode, portInfo.1, true⟩])
    raw0

/-- Steps 1+2 combined: the `raw` list of `findConnectedInstruments` before
CV+gate pairing. -/
def rawConnected (nodes : List NodeT) (edges : List EdgeT) :
    List ConnectedInstrument :=
  match nodes.find? (fun n => n.data.isHapax) with
  | none => []
  | some hapaxNode =>
    rawStep2 nodes hapaxNode.id edges (rawStep1 nodes (traceHapaxRouting nodes edges))

/-- Test of the regex `/^CV\d$/` (`hapaxExport.ts`, line 90). -/
def isCVCode (s : String) : Bool :=
  match s.data with
  | ['C', 'V', d] => d.isDigit
  | _ => false

/-- Test of the regex `/^G\d$/` (`hapaxExport.ts`, line 91). -/
def isGCode (s : String) : Bool :=
  match s.data with
  | ['G', d] => d.isDigit
  | _ => false

/-- `cv.hapaxPort.replace('CV', '')` for a matched CV code: the digit part. -/
def cvDigits (s : String) : String := String.mk (s.data.drop 2)

/-- CV+gate pairing of one instrument's group (`hapaxExport.ts`, lines
89–113): emit the non-CV/non-gate entries, then a combined `CVG{n}` entry for
every CV entry with a same-numbered gate sibling, then the unmatched CV and
gate entries. -/
def pairGroup (instruments : List ConnectedInstrument) : List ConnectedInstrument :=
  let cvEntries := instruments.filter (fun i => isCVCode i.hapaxPort)
  let gateEntries := instruments.filter (fun i => isGCode i.hapaxPort)
  let others := instruments.filter
    (fun i => ¬ isCVCode i.hapaxPort ∧ ¬ isGCode i.hapaxPort)
  let folded := cvEntries.foldl
    (fun (acc : List ConnectedInstrument × List String × List String) cv =>
      let n := cvDigits cv.hapaxPort
      match gateEntries.find? (fun g => decide (g.hapaxPort = "G" ++ n)) with
      | some gate =>
        (acc.1 ++ [⟨cv.node, "CVG" ++ n, true⟩],
          setAdd acc.2.1 cv.hapaxPort, setAdd acc.2.2 gate.hapaxPort)
      | none => acc)
    (others, [], [])
  folded.1 ++ cvEntries.filter (fun cv => decide (cv.hapaxPort ∉ folded.2.1)) ++
    gateEntries.filter (fun g => decide (g.hapaxPort ∉ folded.2.2))

/-- `findConnectedInstruments(nodes, edges)` from `hapaxExport.ts` (lines
30–117): resolve the BFS trace and direct analog connections, then apply the
per-instrument CV+gate pairing group by group (in first-appearance order of
the instruments). -/
def findConnectedInstruments (nodes : List NodeT) (edges : List EdgeT) :
    List ConnectedInstrument :=
  match nodes.find? (fun n => n.data.isHapax) with
  | none => []
  | some hapaxNode =>
    let raw := rawStep2 nodes hapaxNode.id edges
      (rawStep1 nodes (traceHapaxRouting nodes edges))
    let grouped := raw.foldl
      (fun g inst => mapSet g inst.node.id (((mapGet g inst.node.id).getD []) ++ [inst]))
      []
    grouped.foldl (fun result entry => result ++ pairGroup entry.2) []

/-- A Hapax definition record (`HapaxDefinition` in `types/index.ts`); the
output channel is `NULL` for analog routes, numeric otherwise, which the
TypeScript expresses as `number | 'NULL'` at runtime. -/
structure HapaxDefinition where
  name : String
  manufacturer : String
  trackName : String
  type : InstrumentType
  outPort : String
  outChannel : Option Int
  ccMappings : List CCMapping
  nrpnMappings : List NRPNMapping
  assignCCs : List AssignCC
  automationLanes : List AutomationLane
  drumLanes : Option (List DrumLane)
deriving DecidableEq, Repr

/-- `formatAutomationLane` (`hapaxExport.ts`, lines 119–132); the `??`
fallbacks are nullish-coalescing defaults. -/
def formatAutomationLane (lane : AutomationLane) : String :=
  match lane.type with
  | .CC => "CC:" ++ toString (lane.ccNumber.getD 0)
  | .PB => "PB:"
  | .AT => "AT:"
  | .CV => "CV:" ++ toString (lane.cvNumber.getD 1)
  | .NRPN => "NRPN:" ++ toString (lane.nrpnMsb.getD 0) ++ ":" ++
      toString (lane.nrpnLsb.getD 0) ++ ":" ++ toString (lane.nrpnDepth.getD 7)

/-- `mapping.section || 'General'`: a missing or empty (falsy) section falls
back to `General`. -/
def sectionOrGeneral (s : Option String) : String :=
  match s with
  | some s => if s = "" then "General" else s
  | none => "General"

/-- `groupBySection` from `csvParser.ts` (lines 164–175): group CC mappings
by section in first-appearance order, preserving list order within groups. -/
def groupBySection (mappings : List CCMapping) : List (String × List CCMapping) :=
  mappings.foldl
    (fun g m => mapSet g (sectionOrGeneral m.sectionName)
      (((mapGet g (sectionOrGeneral m.sectionName)).getD []) ++ [m]))
    []

/-- `groupNRPNBySection` from `csvParser.ts` (lines 178–189). -/
def groupNRPNBySection (mappings : List NRPNMapping) :
    List (String × List NRPNMapping) :=
  mappings.foldl
    (fun g m => mapSet g (sectionOrGeneral m.sectionName)
      (((mapGet g (sectionOrGeneral m.sectionName)).getD []) ++ [m]))
    []

/-- The track-type keyword rendered into `TYPE`. -/
def instrumentTypeString : InstrumentType → String
  | .POLY => "POLY"
  | .DRUM => "DRUM"
  | .MPE => "MPE"

/-- One DRUMLANES row (`hapaxExport.ts`, lines 157–161):
`lane:trig:chan:note name`, rendering a missing (or, for the channel code,
falsy) value as the literal `NULL`. -/
def drumLaneRow (lane : DrumLane) : String :=
  toString lane.lane ++ ":" ++
    (match lane.trig with | some t => toString t | none => "NULL") ++ ":" ++
    (match lane.chan with | some c => if c = "" then "NULL" else c | none => "NULL") ++ ":" ++
    (match lane.note with | some n => toString n | none => "NULL") ++ " " ++ lane.name

/-- The DRUMLANES rows (`hapaxExport.ts`, lines 153–163): present only for a
`DRUM` definition with a nonempty lane list, sorted by descending lane number
(`sort((a, b) => b.lane - a.lane)`, a stable sort). -/
def drumRows (d : HapaxDefinition) : List String :=
  match d.drumLanes with
  | some lanes =>
    if d.type = .DRUM ∧ lanes.length > 0 then
      (lanes.mergeSort (fun a b => decide (b.lane ≤ a.lane))).map drumLaneRow
    else []
  | none => []

/-- The CC section body (`hapaxExport.ts`, lines 173–185). -/
def ccLines (d : HapaxDefinition) : List String :=
  if d.ccMappings.length > 0 then
    (groupBySection d.ccMappings).foldl
      (fun lines e => lines ++ ["# " ++ e.1] ++
        e.2.map (fun m => toString m.ccNumber ++ " " ++ m.paramName) ++ [""])
      []
  else []

/-- The NRPN section body (`hapaxExport.ts`, lines 188–199): note the
hard-coded 7-bit depth. -/
def nrpnLines (d : HapaxDefinition) : List String :=
  if d.nrpnMappings.length > 0 then
    (groupNRPNBySection d.nrpnMappings).foldl
      (fun lines e => lines ++ ["# " ++ e.1] ++
        e.2.map (fun m => toString m.msb ++ ":" ++ toString m.lsb ++ ":7 " ++ m.paramName)
        ++ [""])
      []
  else []

/-- The ASSIGN section body (`hapaxExport.ts`, lines 203–209). -/
def assignLines (d : HapaxDefinition) : List String :=
  d.assignCCs.map (fun a =>
    toString a.ccNumber ++ " " ++ a.paramName ++ " " ++ toString a.defaultValue)

/-- The AUTOMATION section body (`hapaxExport.ts`, lines 213–219). -/
def autoLines (d : HapaxDefinition) : List String :=
  d.automationLanes.map formatAutomationLane

/-- `OUTCHAN` value: `NULL` when analog. -/
def outChanString : Option Int → String
  | some n => toString n
  | none => "NULL"

/-- The full line list of `generateHapaxDefinition` (`hapaxExport.ts`, lines
135–228), mirroring the `lines.push` sequence. -/
def hapaxLines (d : HapaxDefinition) : List String :=
  ["############# " ++ d.manufacturer.toUpper ++ " " ++ d.name.toUpper ++
      " #############",
   "VERSION 1",
   "TRACKNAME " ++ d.trackName,
   "TYPE " ++ instrumentTypeString d.type,
   "OUTPORT " ++ d.outPort,
   "OUTCHAN " ++ outChanString d.outChannel,
   "INPORT NULL", "INCHAN NULL", "MAXRATE NULL", ""] ++
  ["[DRUMLANES]"] ++ drumRows d ++ ["[/DRUMLANES]", ""] ++
  ["[PC]", "[/PC]", ""] ++
  ["[CC]"] ++ ccLines d ++ ["[/CC]", ""] ++
  ["[NRPN]"] ++ nrpnLines d ++ ["[/NRPN]", ""] ++
  ["[ASSIGN]"] ++ assignLines d ++ ["[/ASSIGN]", ""] ++
  ["[AUTOMATION]"] ++ autoLines d ++ ["[/AUTOMATION]", ""] ++
  ["[COMMENT]", d.manufacturer ++ " " ++ d.name, "Generated by StudioGraph",
   "[/COMMENT]"]

/-- `generateHapaxDefinition(definition)`: the joined text
(`lines.join('\n')`). -/
def generateHapaxDefinition (d : HapaxDefinition) : String :=
  "\n".intercalate (hapaxLines d)

/-- `name.replace(/\s+/g, '')`: strip every whitespace character. -/
def stripWhitespace (s : String) : String :=
  String.mk (s.data.filter (fun c => ¬ c.isWhitespace))

/-- `name.replace(/[^a-zA-Z0-9]/g, '_')`: non-alphanumerics become
underscores. -/
def sanitizeName (s : String) : String :=
  String.mk (s.data.map (fun c => if c.isAlphanum then c else '_'))

/-- One emitted definition file (`{ nodeId, filename, content }`). -/
structure DefinitionFile where
  nodeId : String
  filename : String
  content : String
deriving DecidableEq, Repr

/-- `generateAllDefinitions(nodes, edges)` from `hapaxExport.ts` (lines
232–279): resolve the connected instruments, count entries per instrument,
and emit one definition file per entry, appending a `_{port}` suffix to both
the (pre-truncation) track name and the filename when the instrument has
more than one entry. -/
def generateAllDefinitions (nodes : List NodeT) (edges : List EdgeT) :
    List DefinitionFile :=
  let connected := findConnectedInstruments nodes edges
  let nodeConnectionCount : List (String × Nat) := connected.foldl
    (fun m c => mapSet m c.node.id (((mapGet m c.node.id).getD 0) + 1)) []
  connected.map (fun c =>
    let data := c.node.data
    let hasMultiple : Bool := decide (((mapGet nodeConnectionCount c.node.id).getD 0) > 1)
    let baseName := stripWhitespace data.name
    let trackName := if hasMultiple then (baseName ++ "_" ++ c.hapaxPort).take 12
      else baseName.take 12
    let d : HapaxDefinition :=
      ⟨data.name, data.manufacturer, trackName, data.type, c.hapaxPort,
        (if c.isAnalog then none else some data.channel), data.ccMap, data.nrpnMap,
        data.assignCCs, data.automationLanes, data.drumLanes⟩
    let sanitized := sanitizeName data.name
    let filename := if hasMultiple then sanitized ++ "_" ++ c.hapaxPort ++ ".txt"
      else sanitized ++ ".txt"
    ⟨c.node.id, filename, generateHapaxDefinition d⟩)

/-- C8.  The DRUMLANES section of a rendered definition has rows only when
the instrument type is `DRUM`; the rendered line list brackets exactly
`drumRows` between the `[DRUMLANES]` markers; and when rows are present they
are the lanes sorted by descending lane number, each formatted
`lane:trig:chan:note name` with a missing trig/chan/note rendered as the
literal `NULL`. -/
theorem generateHapaxDefinition_drumlanes (d : HapaxDefinition) :
    (d.type ≠ .DRUM → drumRows d = []) ∧
    (∃ pre suf, hapaxLines d =
      pre ++ ["[DRUMLANES]"] ++ drumRows d ++ ["[/DRUMLANES]"] ++ suf ∧
      generateHapaxDefinition d = "\n".intercalate (hapaxLines d)) ∧
    (∀ lanes, d.drumLanes = some lanes → d.type = .DRUM → lanes ≠ [] →
      ∃ sorted : List DrumLane, sorted.Perm lanes ∧
        List.Pairwise (fun a b => b.lane ≤ a.lane) sorted ∧
        drumRows d = sorted.map (fun lane =>
          toString lane.lane ++ ":" ++
          (match lane.trig with | some t => toString t | none => "NULL") ++ ":" ++
          (match lane.chan with
            | some c => if c = "" then "NULL" else c
            | none => "NULL") ++ ":" ++
          (match lane.note with | some n => toString n | none => "NULL") ++
          " " ++ lane.name)) := by
  refine ⟨?_, ?_, ?_⟩
  · intro hne
    unfold drumRows
    match hdl : d.drumLanes with
    | none => rfl
    | some lanes =>
      dsimp only
      rw [if_neg]
      intro hc
      exact hne hc.1
  · refine ⟨["############# " ++ d.manufacturer.toUpper ++ " " ++ d.name.toUpper ++
        " #############", "VERSION 1", "TRACKNAME " ++ d.trackName,
        "TYPE " ++ instrumentTypeString d.type, "OUTPORT " ++ d.outPort,
        "OUTCHAN " ++ outChanString d.outChannel, "INPORT NULL", "INCHAN NULL",
        "MAXRATE NULL", ""],
      [""] ++ ["[PC]", "[/PC]", ""] ++ ["[CC]"] ++ ccLines d ++ ["[/CC]", ""] ++
        ["[NRPN]"] ++ nrpnLines d ++ ["[/NRPN]", ""] ++ ["[ASSIGN]"] ++
        assignLines d ++ ["[/ASSIGN]", ""] ++ ["[AUTOMATION]"] ++ autoLines d ++
        ["[/AUTOMATION]", ""] ++ ["[COMMENT]", d.manufacturer ++ " " ++ d.name,
        "Generated by StudioGraph", "[/COMMENT]"], ?_, rfl⟩
    simp [hapaxLines]
  · intro lanes hdl hty hne
    refine ⟨lanes.mergeSort (fun a b => decide (b.lane ≤ a.lane)), ?_, ?_, ?_⟩
    · exact List.mergeSort_perm lanes _
    · have hs := @List.sorted_mergeSort DrumLane
        (fun a b : DrumLane => decide (b.lane ≤ a.lane))
        (fun a b c hab hbc => by
          simp only [decide_eq_true_eq] at hab hbc ⊢
          omega)
        (fun a b => by
          rcases le_total b.lane a.lane with h | h
          · simp [h]
          · simp [h])
        lanes
      exact hs.imp (fun h => by simpa using h)
    · unfold drumRows
      rw [hdl]
      dsimp only
      rw [if_pos ⟨hty, by rcases lanes with _ | _ <;> simp_all⟩]
      rfl

/-- Witness for C8: a DRUM definition with lanes numbered 1, 3, 2 is emitted
sorted 3, 2, 1 with `NULL` for the missing fields. -/
theorem generateHapaxDefinition_drumlanes_witness :
    ∃ sorted : List DrumLane,
      sorted.Perm [⟨1, some 36, some "1", some 60, "Kick"⟩,
        ⟨3, none, none, none, "Hat"⟩, ⟨2, some 38, none, some 0, "Snare"⟩] ∧
      List.Pairwise (fun a b => b.lane ≤ a.lane) sorted ∧
      drumRows ⟨"Drum", "Mk", "Drum", .DRUM, "A", some 10, [], [], [], [],
        some [⟨1, some 36, some "1", some 60, "Kick"⟩,
          ⟨3, none, none, none, "Hat"⟩,
          ⟨2, some 38, none, some 0, "Snare"⟩]⟩ =
        sorted.map (fun lane =>
          toString lane.lane ++ ":" ++
          (match lane.trig with | some t => toString t | none => "NULL") ++ ":" ++
          (match lane.chan with
            | some c => if c = "" then "NULL" else c
            | none => "NULL") ++ ":" ++
          (match lane.note with | some n => toString n | none => "NULL") ++
          " " ++ lane.name) :=
  (generateHapaxDefinition_drumlanes
    ⟨"Drum", "Mk", "Drum", .DRUM, "A", some 10, [], [], [], [],
      some [⟨1, some 36, some "1", some 60, "Kick"⟩,
        ⟨3, none, none, none, "Hat"⟩,
        ⟨2, some 38, none, some 0, "Snare"⟩]⟩).2.2
    [⟨1, some 36, some "1", some 60, "Kick"⟩, ⟨3, none, none, none, "Hat"⟩,
      ⟨2, some 38, none, some 0, "Snare"⟩] rfl rfl (by decide)

/-- The per-instrument connection counter of `generateAllDefinitions` counts
exactly the matching entries of the processed list. -/
theorem nodeConnectionCount_spec :
    ∀ (l : List ConnectedInstrument) (m : List (String × Nat)) (i : String),
      (mapGet (l.foldl
        (fun m c => mapSet m c.node.id (((mapGet m c.node.id).getD 0) + 1)) m) i).getD 0 =
      (mapGet m i).getD 0 + (l.filter (fun c => decide (c.node.id = i))).length := by
  intro l
  induction l with
  | nil => intro m i; simp
  | cons c rest ih =>
    intro m i
    rw [List.foldl_cons, ih, List.filter_cons]
    by_cases hc : c.node.id = i
    · rw [decide_eq_true hc]
      subst hc
      rw [mapGet_mapSet_self]
      simp
      omega
    · rw [decide_eq_false hc]
      have hne : i ≠ c.node.id := fun h => hc h.symm
      rw [mapGet_mapSet_ne _ _ hne]
      simp

/-- C7.  `generateAllDefinitions` emits one file per resolved entry; for an
instrument resolving to more than one entry, the filename is the sanitized
instrument name with `_{hubPortCode}` appended plus the `.txt` extension and
the rendered track name is the whitespace-stripped name with
`_{hubPortCode}` appended and the whole truncated to 12 characters; for an
instrument resolving to exactly one entry, neither name carries the port
suffix. -/
theorem generateAllDefinitions_names (nodes : List NodeT) (edges : List EdgeT) :
    (generateAllDefinitions nodes edges).length =
      (findConnectedInstruments nodes edges).length ∧
    ∀ (k : Nat) (c : ConnectedInstrument) (f : DefinitionFile),
      (findConnectedInstruments nodes edges)[k]? = some c →
      (generateAllDefinitions nodes edges)[k]? = some f →
      (((findConnectedInstruments nodes edges).filter
          (fun c' => decide (c'.node.id = c.node.id))).length > 1 →
        f.filename = sanitizeName c.node.data.name ++ "_" ++ c.hapaxPort ++ ".txt" ∧
        ∃ d : HapaxDefinition, f.content = generateHapaxDefinition d ∧
          d.trackName =
            (stripWhitespace c.node.data.name ++ "_" ++ c.hapaxPort).take 12) ∧
      (((findConnectedInstruments nodes edges).filter
          (fun c' => decide (c'.node.id = c.node.id))).length = 1 →
        f.filename = sanitizeName c.node.data.name ++ ".txt" ∧
        ∃ d : HapaxDefinition, f.content = generateHapaxDefinition d ∧
          d.trackName = (stripWhitespace c.node.data.name).take 12) := by
  constructor
  · unfold generateAllDefinitions
    exact List.length_map _ _
  · intro k c f hc hf
    unfold generateAllDefinitions at hf
    rw [List.getElem?_map, hc, Option.map_some'] at hf
    injection hf with hfe
    subst hfe
    have hcount : ((mapGet ((findConnectedInstruments nodes edges).foldl
        (fun m c => mapSet m c.node.id (((mapGet m c.node.id).getD 0) + 1))
        ([] : List (String × Nat))) c.node.id).getD 0) =
        ((findConnectedInstruments nodes edges).filter
          (fun c' => decide (c'.node.id = c.node.id))).length := by
      rw [nodeConnectionCount_spec]
      simp [mapGet]
    constructor
    · intro hmulti
      have hdec : decide (((mapGet ((findConnectedInstruments nodes edges).foldl
          (fun m c => mapSet m c.node.id (((mapGet m c.node.id).getD 0) + 1))
          ([] : List (String × Nat))) c.node.id).getD 0) > 1) = true := by
        rw [hcount]
        exact decide_eq_true hmulti
      dsimp only
      rw [hdec]
      refine ⟨by simp, _, rfl, ?_⟩
      simp
    · intro hsingle
      have hdec : decide (((mapGet ((findConnectedInstruments nodes edges).foldl
          (fun m c => mapSet m c.node.id (((mapGet m c.node.id).getD 0) + 1))
          ([] : List (String × Nat))) c.node.id).getD 0) > 1) = false := by
        rw [hcount]
        simp [hsingle]
      dsimp only
      rw [hdec]
      refine ⟨by simp, _, rfl, ?_⟩
      simp

/-- Witness for C7: a two-connection instrument gets the `_{port}` suffix on
its filename. -/
theorem generateAllDefinitions_names_witness :
    (generateAllDefinitions
      [⟨"hapax", ⟨"Hapax", "Squarp", 1, .POLY, [], [], [], [], none, true, false⟩⟩,
       ⟨"n1", ⟨"My Synth", "M", 3, .POLY, [], [], [], [], none, false, false⟩⟩]
      [⟨"e1", "hapax", "n1", some "midi-a", some "midi"⟩,
       ⟨"e2", "hapax", "n1", some "midi-b", some "midi"⟩]).length =
      (findConnectedInstruments
      [⟨"hapax", ⟨"Hapax", "Squarp", 1, .POLY, [], [], [], [], none, true, false⟩⟩,
       ⟨"n1", ⟨"My Synth", "M", 3, .POLY, [], [], [], [], none, false, false⟩⟩]
      [⟨"e1", "hapax", "n1", some "midi-a", some "midi"⟩,
       ⟨"e2", "hapax", "n1", some "midi-b", some "midi"⟩]).length ∧
    ∃ f : DefinitionFile,
      (generateAllDefinitions
        [⟨"hapax", ⟨"Hapax", "Squarp", 1, .POLY, [], [], [], [], none, true, false⟩⟩,
         ⟨"n1", ⟨"My Synth", "M", 3, .POLY, [], [], [], [], none, false, false⟩⟩]
        [⟨"e1", "hapax", "n1", some "midi-a", some "midi"⟩,
         ⟨"e2", "hapax", "n1", some "midi-b", some "midi"⟩])[0]? = some f ∧
      f.filename = "My_Synth_A.txt" := by
  have h := generateAllDefinitions_names
    [⟨"hapax", ⟨"Hapax", "Squarp", 1, .POLY, [], [], [], [], none, true, false⟩⟩,
     ⟨"n1", ⟨"My Synth", "M", 3, .POLY, [], [], [], [], none, false, false⟩⟩]
    [⟨"e1", "hapax", "n1", some "midi-a", some "midi"⟩,
     ⟨"e2", "hapax", "n1", some "midi-b", some "midi"⟩]
  refine ⟨h.1, ?_⟩
  rcases hf : (generateAllDefinitions
    [⟨"hapax", ⟨"Hapax", "Squarp", 1, .POLY, [], [], [], [], none, true, false⟩⟩,
     ⟨"n1", ⟨"My Synth", "M", 3, .POLY, [], [], [], [], none, false, false⟩⟩]
    [⟨"e1", "hapax", "n1", some "midi-a", some "midi"⟩,
     ⟨"e2", "hapax", "n1", some "midi-b", some "midi"⟩])[0]? with _ | f
  · exact absurd (by decide : (2 : Nat) > 0) (by
      have hlen := h.1
      have : (generateAllDefinitions
        [⟨"hapax", ⟨"Hapax", "Squarp", 1, .POLY, [], [], [], [], none, true, false⟩⟩,
         ⟨"n1", ⟨"My Synth", "M", 3, .POLY, [], [], [], [], none, false, false⟩⟩]
        [⟨"e1", "hapax", "n1", some "midi-a", some "midi"⟩,
         ⟨"e2", "hapax", "n1", some "midi-b", some "midi"⟩]).length = 2 := by
        rw [hlen]; decide
      intro _
      rw [List.getElem?_eq_none_iff] at hf
      omega)
  · refine ⟨f, rfl, ?_⟩
    have := ((h.2 0 ⟨⟨"n1", ⟨"My Synth", "M", 3, .POLY, [], [], [], [], none, false,
        false⟩⟩, "A", false⟩ f (by decide) hf).1 (by decide)).1
    rw [this]
    decide

/-! ## CV+gate pairing (`findConnectedInstruments`, claim C4) -/

/-- Membership after a map update: the element is an old binding or the
updated one. -/
theorem mem_mapSet_elim {β : Type} {m : List (String × β)} {k : String} {v : β}
    {p : String × β} (hp : p ∈ mapSet m k v) : p ∈ m ∨ p = (k, v) := by
  induction m with
  | nil =>
    simp only [mapSet, List.mem_singleton] at hp
    exact Or.inr hp
  | cons q rest ih =>
    obtain ⟨k', v'⟩ := q
    simp only [mapSet] at hp
    by_cases hk : k = k'
    · rw [if_pos hk] at hp
      rcases List.mem_cons.mp hp with rfl | hp
      · exact Or.inr rfl
      · exact Or.inl (List.mem_cons_of_mem _ hp)
    · rw [if_neg hk] at hp
      rcases List.mem_cons.mp hp with rfl | hp
      · exact Or.inl (List.mem_cons_self _ _)
      · rcases ih hp with h | h
        · exact Or.inl (List.mem_cons_of_mem _ h)
        · exact Or.inr h

/-- A successful lookup certifies membership. -/
theorem mapGet_mem {β : Type} {m : List (String × β)} {k : String} {v : β}
    (h : mapGet m k = some v) : (k, v) ∈ m := by
  induction m with
  | nil => simp [mapGet] at h
  | cons q rest ih =>
    obtain ⟨k', v'⟩ := q
    simp only [mapGet] at h
    by_cases hk : k = k'
    · rw [if_pos hk] at h
      injection h with h
      subst hk h
      exact List.mem_cons_self _ _
    · rw [if_neg hk] at h
      exact List.mem_cons_of_mem _ (ih h)

/-- In a map with duplicate-free keys a binding is recovered by lookup. -/
theorem mapGet_eq_of_mem_nodup {β : Type} {m : List (String × β)}
    (hkeys : (m.map Prod.fst).Nodup) :
    ∀ p ∈ m, mapGet m p.1 = some p.2 := by
  induction m with
  | nil => intro p hp; simp at hp
  | cons q rest ih =>
    intro p hp
    simp only [List.map_cons, List.nodup_cons] at hkeys
    rcases List.mem_cons.mp hp with h1 | hp2
    · subst h1
      unfold mapGet
      rw [if_pos rfl]
    · unfold mapGet
      have hne : p.1 ≠ q.1 := by
        intro hcontra
        apply hkeys.1
        rw [← hcontra]
        exact List.mem_map_of_mem Prod.fst hp2
      rw [if_neg hne]
      exact ih hkeys.2 p hp2

/-- `setAdd` keeps a duplicate-free list duplicate-free. -/
theorem setAdd_nodup {l : List String} (h : l.Nodup) (x : String) :
    (setAdd l x).Nodup := by
  unfold setAdd
  by_cases hx : x ∈ l
  · rw [if_pos hx]; exact h
  · rw [if_neg hx]
    simpa [List.nodup_append] using ⟨h, hx⟩

/-- In a list whose image under `f` is duplicate-free, filtering for the
image of a member isolates exactly that member. -/
theorem filter_eq_singleton_of_map_nodup {α β : Type} [DecidableEq β]
    {l : List α} (f : α → β) (hnd : (l.map f).Nodup) {x : α} (hx : x ∈ l) :
    l.filter (fun y => decide (f y = f x)) = [x] := by
  induction l with
  | nil => simp at hx
  | cons a rest ih =>
    simp only [List.map_cons, List.nodup_cons] at hnd
    rcases List.mem_cons.mp hx with h1 | hx2
    · rw [List.filter_cons_of_pos (by simp [h1])]
      have hrest : rest.filter (fun y => decide (f y = f x)) = [] := by
        rw [List.filter_eq_nil_iff]
        intro b hb
        simp only [decide_eq_true_eq]
        intro hfb
        apply hnd.1
        rw [← h1, ← hfb]
        exact List.mem_map_of_mem f hb
      rw [hrest, h1]
    · rw [List.filter_cons_of_neg, ih hnd.2 hx2]
      simp only [decide_eq_true_eq]
      intro hfa
      apply hnd.1
      rw [hfa]
      exact List.mem_map_of_mem f hx2

/-- Appending a raw character list to a string concatenates the data. -/
theorem string_mk_append (s : String) (l : List Char) :
    s ++ String.mk l = String.mk (s.data ++ l) := by
  cases s
  rfl

/-- Two equal packed strings have equal character data. -/
theorem string_mk_inj {l l' : List Char} (h : String.mk l = String.mk l') :
    l = l' :=
  congrArg String.data h

/-- A successful `HAPAX_PORT_MAP` lookup comes from the table. -/
theorem hapaxPortMap_mem {h : String} {pi : String × Bool}
    (hpi : hapaxPortMap h = some pi) : (h, pi) ∈ hapaxPortTable := by
  unfold hapaxPortMap at hpi
  rcases hfind : hapaxPortTable.find? (fun p => decide (p.1 = h)) with _ | q
  · rw [hfind] at hpi; simp at hpi
  · rw [hfind] at hpi
    simp only [Option.map_some'] at hpi
    have hq := List.find?_some hfind
    have hmem : q ∈ hapaxPortTable := List.mem_of_find?_eq_some hfind
    have hq' : q.1 = h := by simpa using hq
    injection hpi with hpi
    have : q = (h, pi) := by
      obtain ⟨q1, q2⟩ := q
      simp only at hq' hpi
      rw [hq', hpi]
    exact this ▸ hmem

/-- Distinct handles map to distinct port codes. -/
theorem hapaxPortTable_port_inj :
    ∀ x ∈ hapaxPortTable, ∀ y ∈ hapaxPortTable, x.2.1 = y.2.1 → x = y := by
  decide

/-- No port code of the table starts with the three characters `CVG`. -/
theorem hapaxPortTable_no_cvg :
    ∀ x ∈ hapaxPortTable, x.2.1.data.take 3 ≠ ['C', 'V', 'G'] := by
  decide

/-- `CV{d}` with a digit `d` passes the CV-code test. -/
theorem isCVCode_mk {e : Char} (he : e.isDigit = true) :
    isCVCode (String.mk ['C', 'V', e]) = true := by
  unfold isCVCode
  simpa using he

/-- `G{d}` with a digit `d` passes the gate-code test. -/
theorem isGCode_mk {e : Char} (he : e.isDigit = true) :
    isGCode (String.mk ['G', e]) = true := by
  unfold isGCode
  simpa using he

/-- Any string passing the CV-code test is `CV{d}` for a digit `d`. -/
theorem isCVCode_shape {s : String} (h : isCVCode s = true) :
    ∃ e : Char, e.isDigit = true ∧ s.data = ['C', 'V', e] := by
  unfold isCVCode at h
  split at h
  · rename_i d heq
    exact ⟨d, h, heq⟩
  · exact absurd h (by simp)

/-- Any string passing the gate-code test is `G{d}` for a digit `d`. -/
theorem isGCode_shape {s : String} (h : isGCode s = true) :
    ∃ e : Char, e.isDigit = true ∧ s.data = ['G', e] := by
  unfold isGCode at h
  split at h
  · rename_i d heq
    exact ⟨d, h, heq⟩
  · exact absurd h (by simp)

/-- A result map whose value lists are all duplicate-free yields a
duplicate-free list on every lookup. -/
theorem vpGet_nodup (res : List (String × List String))
    (hvals : ∀ e ∈ res, e.2.Nodup) (k : String) : (vpGet res k).Nodup := by
  unfold vpGet
  rcases hg : mapGet res k with _ | v
  · simp
  · exact hvals (k, v) (mapGet_mem hg)

/-- The BFS loop of the routing trace keeps the result map's keys
duplicate-free and every recorded handle list duplicate-free. -/
theorem traceLoop_res_nodup (hub : String)
    (adj : List (String × List (String × String))) :
    ∀ (fuel : Nat) (q : List (String × String)) (vis res : List (String × List String)),
      (res.map Prod.fst).Nodup → (∀ e ∈ res, e.2.Nodup) →
      ((traceLoop hub adj fuel q vis res).map Prod.fst).Nodup ∧
      (∀ e ∈ traceLoop hub adj fuel q vis res, e.2.Nodup) := by
  intro fuel
  induction fuel with
  | zero => intro q vis res h1 h2; exact ⟨h1, h2⟩
  | succ fuel ih =>
    intro q vis res h1 h2
    match q with
    | [] => exact ⟨h1, h2⟩
    | (nodeId, handle) :: rest =>
      rw [traceLoop]
      refine ih _ _ _ ?_ ?_
      · exact mapSet_keys_nodup res nodeId (setAdd (vpGet res nodeId) handle) h1
      · intro e he
        rcases mem_mapSet_elim he with h | h
        · exact h2 e h
        · rw [h]
          exact setAdd_nodup (vpGet_nodup res h2 nodeId) handle

/-- The routing trace returns a map with duplicate-free keys and
duplicate-free handle lists. -/
theorem traceHapaxRouting_nodup (nodes : List NodeT) (edges : List EdgeT) :
    ((traceHapaxRouting nodes edges).map Prod.fst).Nodup ∧
    (∀ e ∈ traceHapaxRouting nodes edges, e.2.Nodup) := by
  unfold traceHapaxRouting
  rcases hfind : nodes.find? (fun n => n.data.isHapax) with _ | hapaxNode
  · rw [hfind]
    exact ⟨List.nodup_nil, by intro e he; simp at he⟩
  · rw [hfind]
    exact traceLoop_res_nodup _ _ _ _ _ _ List.nodup_nil (by intro e he; simp at he)

/-- Named form of the inner handle fold of `rawStep1` (same body). -/
def s1Inner (targetNode : NodeT) :
    List ConnectedInstrument → String → List ConnectedInstrument :=
  fun raw handle =>
    match hapaxPortMap handle with
    | none => raw
    | some portInfo => raw ++ [⟨targetNode, portInfo.1, portInfo.2⟩]

/-- Named form of the per-entry step of `rawStep1` (same body). -/
def s1Step (nodes : List NodeT) :
    List ConnectedInstrument → String × List String → List ConnectedInstrument :=
  fun raw entry =>
    match nodes.find? (fun n => decide (n.id = entry.1)) with
    | none => raw
    | some targetNode =>
      if targetNode.data.isHapax then raw
      else entry.2.foldl (s1Inner targetNode) raw

/-- `rawStep1` is the fold of its per-entry step. -/
theorem rawStep1_eq (nodes : List NodeT) (routing : List (String × List String)) :
    rawStep1 nodes routing = routing.foldl (s1Step nodes) [] := rfl

/-- Named form of the per-edge step of `rawStep2` (same body). -/
def s2Step (nodes : List NodeT) (hubId : String) :
    List ConnectedInstrument → EdgeT → List ConnectedInstrument :=
  fun raw e =>
    if e.source ≠ hubId then raw
    else
      match hapaxPortMap (e.sourceHandle.getD "") with
      | none => raw
      | some portInfo =>
        if ¬ portInfo.2 then raw
        else
          match nodes.find? (fun n => decide (n.id = e.target)) with
          | none => raw
          | some targetNode =>
            if targetNode.data.isHapax then raw
            else if raw.any (fun r =>
                decide (r.node.id = targetNode.id ∧ r.hapaxPort = portInfo.1)) then raw
            else raw ++ [⟨targetNode, portInfo.1, true⟩]

/-- `rawStep2` is the fold of its per-edge step. -/
theorem rawStep2_eq (nodes : List NodeT) (hubId : String) (edges : List EdgeT)
    (raw0 : List ConnectedInstrument) :
    rawStep2 nodes hubId edges raw0 = edges.foldl (s2Step nodes hubId) raw0 := rfl

/-- Named form of the CV-pairing step of `pairGroup` (same body). -/
def pgStep (gateEntries : List ConnectedInstrument) :
    List ConnectedInstrument × List String × List String → ConnectedInstrument →
    List ConnectedInstrument × List String × List String :=
  fun acc cv =>
    let n := cvDigits cv.hapaxPort
    match gateEntries.find? (fun g => decide (g.hapaxPort = "G" ++ n)) with
    | some gate =>
      (acc.1 ++ [⟨cv.node, "CVG" ++ n, true⟩],
        setAdd acc.2.1 cv.hapaxPort, setAdd acc.2.2 gate.hapaxPort)
    | none => acc

/-- `pairGroup` written with its named pairing step. -/
theorem pairGroup_eq (instruments : List ConnectedInstrument) :
    pairGroup instruments =
      (let cvEntries := instruments.filter (fun i => isCVCode i.hapaxPort)
       let gateEntries := instruments.filter (fun i => isGCode i.hapaxPort)
       let others := instruments.filter
         (fun i => ¬ isCVCode i.hapaxPort ∧ ¬ isGCode i.hapaxPort)
       let folded := cvEntries.foldl (pgStep gateEntries) (others, [], [])
       folded.1 ++ cvEntries.filter (fun cv => decide (cv.hapaxPort ∉ folded.2.1)) ++
         gateEntries.filter (fun g => decide (g.hapaxPort ∉ folded.2.2))) := rfl

/-- Named form of the grouping step of `findConnectedInstruments`. -/
def groupStep :
    List (String × List ConnectedInstrument) → ConnectedInstrument →
    List (String × List ConnectedInstrument) :=
  fun g inst => mapSet g inst.node.id (((mapGet g inst.node.id).getD []) ++ [inst])

/-- Named form of the final concatenation step of `findConnectedInstruments`. -/
def resStep :
    List ConnectedInstrument → String × List ConnectedInstrument →
    List ConnectedInstrument :=
  fun result entry => result ++ pairGroup entry.2

/-- `findConnectedInstruments` decomposed into raw resolution, grouping and
per-group pairing. -/
theorem findConnectedInstruments_eq (nodes : List NodeT) (edges : List EdgeT) :
    findConnectedInstruments nodes edges =
      (match nodes.find? (fun n => n.data.isHapax) with
       | none => []
       | some hapaxNode =>
         ((rawStep2 nodes hapaxNode.id edges
             (rawStep1 nodes (traceHapaxRouting nodes edges))).foldl
           groupStep []).foldl resStep []) := rfl

/-- Repacking a string's characters gives the string back. -/
theorem string_eta (s : String) : String.mk s.data = s := rfl

/-- `G` prefixed to packed characters. -/
theorem gAppend (l : List Char) : "G" ++ String.mk l = String.mk ('G' :: l) := by
  rw [string_mk_append]
  rfl

/-- `CVG` prefixed to packed characters. -/
theorem cvgAppend (l : List Char) :
    "CVG" ++ String.mk l = String.mk ('C' :: 'V' :: 'G' :: l) := by
  rw [string_mk_append]
  rfl

/-- The `(instrument id, port code)` pair of a resolved entry. -/
def pairOf (c : ConnectedInstrument) : String × String := (c.node.id, c.hapaxPort)

/-- Entries appended by the inner handle fold carry a table port code. -/
theorem s1Inner_ports (tn : NodeT) :
    ∀ (l : List String) (acc : List ConnectedInstrument),
      ∀ c ∈ l.foldl (s1Inner tn) acc,
        c ∈ acc ∨ ∃ pr ∈ hapaxPortTable, c.hapaxPort = pr.2.1 := by
  intro l
  induction l with
  | nil => intro acc c hc; exact Or.inl hc
  | cons h rest ih =>
    intro acc c hc
    rw [List.foldl_cons] at hc
    rcases ih _ c hc with hmem | hport
    · simp only [s1Inner] at hmem
      rcases hpm : hapaxPortMap h with _ | pi
      · rw [hpm] at hmem; exact Or.inl hmem
      · rw [hpm] at hmem
        rcases List.mem_append.mp hmem with hmem | hmem
        · exact Or.inl hmem
        · simp only [List.mem_singleton] at hmem
          refine Or.inr ⟨(h, pi), hapaxPortMap_mem hpm, ?_⟩
          rw [hmem]
    · exact Or.inr hport

/-- Entries appended by the trace-resolution fold carry a table port code. -/
theorem s1Fold_ports (nodes : List NodeT) :
    ∀ (routing : List (String × List String)) (acc : List ConnectedInstrument),
      ∀ c ∈ routing.foldl (s1Step nodes) acc,
        c ∈ acc ∨ ∃ pr ∈ hapaxPortTable, c.hapaxPort = pr.2.1 := by
  intro routing
  induction routing with
  | nil => intro acc c hc; exact Or.inl hc
  | cons entry rest ih =>
    intro acc c hc
    rw [List.foldl_cons] at hc
    rcases ih _ c hc with hmem | hport
    · simp only [s1Step] at hmem
      rcases hfind : nodes.find? (fun n => decide (n.id = entry.1)) with _ | tn
      · rw [hfind] at hmem; exact Or.inl hmem
      · rw [hfind] at hmem
        dsimp only at hmem
        by_cases hh : tn.data.isHapax = true
        · rw [if_pos hh] at hmem; exact Or.inl hmem
        · rw [if_neg hh] at hmem
          exact s1Inner_ports tn _ _ c hmem
    · exact Or.inr hport

/-- One direct-analog step either keeps the list or appends a table-coded
entry. -/
theorem s2Step_mem (nodes : List NodeT) (hubId : String)
    (raw : List ConnectedInstrument) (e : EdgeT) (c : ConnectedInstrument)
    (hc : c ∈ s2Step nodes hubId raw e) :
    c ∈ raw ∨ ∃ pr ∈ hapaxPortTable, c.hapaxPort = pr.2.1 := by
  simp only [s2Step] at hc
  by_cases h1 : e.source ≠ hubId
  · rw [if_pos h1] at hc; exact Or.inl hc
  · rw [if_neg h1] at hc
    rcases hpm : hapaxPortMap (e.sourceHandle.getD "") with _ | pi
    · rw [hpm] at hc; exact Or.inl hc
    · rw [hpm] at hc
      dsimp only at hc
      by_cases h2 : ¬ pi.2 = true
      · rw [if_pos h2] at hc; exact Or.inl hc
      · rw [if_neg h2] at hc
        rcases hfind : nodes.find? (fun n => decide (n.id = e.target)) with _ | tn
        · rw [hfind] at hc; exact Or.inl hc
        · rw [hfind] at hc
          dsimp only at hc
          by_cases h3 : tn.data.isHapax = true
          · rw [if_pos h3] at hc; exact Or.inl hc
          · rw [if_neg h3] at hc
            by_cases h4 : raw.any (fun r =>
                decide (r.node.id = tn.id ∧ r.hapaxPort = pi.1)) = true
            · rw [if_pos h4] at hc; exact Or.inl hc
            · rw [if_neg h4] at hc
              rcases List.mem_append.mp hc with hc | hc
              · exact Or.inl hc
              · simp only [List.mem_singleton] at hc
                refine Or.inr ⟨(e.sourceHandle.getD "", pi), hapaxPortMap_mem hpm, ?_⟩
                rw [hc]

/-- Every entry of the raw resolved list carries a table port code. -/
theorem rawConnected_ports (nodes : List NodeT) (edges : List EdgeT) :
    ∀ c ∈ rawConnected nodes edges,
      ∃ pr ∈ hapaxPortTable, c.hapaxPort = pr.2.1 := by
  unfold rawConnected
  rcases hfind : nodes.find? (fun n => n.data.isHapax) with _ | hub
  · rw [hfind]; intro c hc; simp at hc
  · rw [hfind]
    dsimp only
    rw [rawStep2_eq]
    have base : ∀ c ∈ rawStep1 nodes (traceHapaxRouting nodes edges),
        ∃ pr ∈ hapaxPortTable, c.hapaxPort = pr.2.1 := by
      rw [rawStep1_eq]
      intro c hc
      rcases s1Fold_ports nodes _ _ c hc with hmem | hport
      · simp at hmem
      · exact hport
    have main : ∀ (es : List EdgeT) (acc : List ConnectedInstrument),
        (∀ c ∈ acc, ∃ pr ∈ hapaxPortTable, c.hapaxPort = pr.2.1) →
        ∀ c ∈ es.foldl (s2Step nodes hub.id) acc,
          ∃ pr ∈ hapaxPortTable, c.hapaxPort = pr.2.1 := by
      intro es
      induction es with
      | nil => intro acc hacc c hc; exact hacc c hc
      | cons e rest ih =>
        intro acc hacc c hc
        rw [List.foldl_cons] at hc
        refine ih _ ?_ c hc
        intro c' hc'
        rcases s2Step_mem nodes hub.id acc e c' hc' with hmem | hport
        · exact hacc c' hmem
        · exact hport
    exact main edges _ base

/-- The inner handle fold keeps the `(id, port)` pairs duplicate-free, and
every produced entry is old or targets the found instrument. -/
theorem s1Inner_nodup (tn : NodeT) :
    ∀ (l : List String), l.Nodup →
    ∀ (acc : List ConnectedInstrument),
      ((acc.map pairOf).Nodup) →
      (∀ c ∈ acc, c.node.id = tn.id →
        ∀ h ∈ l, ∀ pi, hapaxPortMap h = some pi → c.hapaxPort ≠ pi.1) →
      ((l.foldl (s1Inner tn) acc).map pairOf).Nodup ∧
      (∀ c ∈ l.foldl (s1Inner tn) acc, c ∈ acc ∨ c.node.id = tn.id) := by
  intro l
  induction l with
  | nil => intro _ acc h1 _; exact ⟨h1, fun c hc => Or.inl hc⟩
  | cons h rest ih =>
    intro hnd acc h1 h2
    simp only [List.nodup_cons] at hnd
    rw [List.foldl_cons]
    rcases hpm : hapaxPortMap h with _ | pi
    · have hstep : s1Inner tn acc h = acc := by simp only [s1Inner]; rw [hpm]
      rw [hstep]
      exact ih hnd.2 acc h1
        (fun c hc hid h' hh' => h2 c hc hid h' (List.mem_cons_of_mem _ hh'))
    · have hstep : s1Inner tn acc h = acc ++ [⟨tn, pi.1, pi.2⟩] := by
        simp only [s1Inner]; rw [hpm]
      rw [hstep]
      have hfresh : pairOf ⟨tn, pi.1, pi.2⟩ ∉ acc.map pairOf := by
        intro hcontra
        rcases List.mem_map.mp hcontra with ⟨c, hcmem, hcpair⟩
        have hcid : c.node.id = tn.id := congrArg Prod.fst hcpair
        have hcport : c.hapaxPort = pi.1 := congrArg Prod.snd hcpair
        exact h2 c hcmem hcid h (List.mem_cons_self _ _) pi hpm hcport
      have hnodup' : ((acc ++ [(⟨tn, pi.1, pi.2⟩ : ConnectedInstrument)]).map pairOf).Nodup := by
        rw [List.map_append]
        have hdisj : ∀ x ∈ acc, ¬ pairOf x = pairOf (⟨tn, pi.1, pi.2⟩ : ConnectedInstrument) := by
          intro x hx hcontra
          exact hfresh (hcontra ▸ List.mem_map_of_mem pairOf hx)
        simpa [List.nodup_append] using ⟨h1, hdisj⟩
      have hinv' : ∀ c ∈ acc ++ [(⟨tn, pi.1, pi.2⟩ : ConnectedInstrument)], c.node.id = tn.id →
          ∀ h' ∈ rest, ∀ pi', hapaxPortMap h' = some pi' → c.hapaxPort ≠ pi'.1 := by
        intro c hc hid h' hh' pi' hpm' hcontra
        rcases List.mem_append.mp hc with hc | hc
        · exact h2 c hc hid h' (List.mem_cons_of_mem _ hh') pi' hpm' hcontra
        · simp only [List.mem_singleton] at hc
          have hport : c.hapaxPort = pi.1 := by rw [hc]
          have hpp : pi.1 = pi'.1 := by rw [← hport, hcontra]
          have heq := hapaxPortTable_port_inj (h, pi) (hapaxPortMap_mem hpm)
            (h', pi') (hapaxPortMap_mem hpm') hpp
          have hhh : h = h' := congrArg Prod.fst heq
          exact hnd.1 (hhh ▸ hh')
      obtain ⟨ha, hb⟩ := ih hnd.2 (acc ++ [⟨tn, pi.1, pi.2⟩]) hnodup' hinv'
      refine ⟨ha, fun c hc => ?_⟩
      rcases hb c hc with hmem | hid
      · rcases List.mem_append.mp hmem with hmem | hmem
        · exact Or.inl hmem
        · simp only [List.mem_singleton] at hmem
          right; rw [hmem]
      · exact Or.inr hid

/-- The trace-resolution fold keeps the `(id, port)` pairs duplicate-free. -/
theorem s1Fold_nodup (nodes : List NodeT) :
    ∀ (routing : List (String × List String)),
      (routing.map Prod.fst).Nodup →
      (∀ e ∈ routing, e.2.Nodup) →
    ∀ (acc : List ConnectedInstrument),
      ((acc.map pairOf).Nodup) →
      (∀ c ∈ acc, ∀ e ∈ routing, c.node.id ≠ e.1) →
      ((routing.foldl (s1Step nodes) acc).map pairOf).Nodup := by
  intro routing
  induction routing with
  | nil => intro _ _ acc h1 _; exact h1
  | cons entry rest ih =>
    intro hknd hvnd acc h1 h2
    simp only [List.map_cons, List.nodup_cons] at hknd
    rw [List.foldl_cons]
    rcases hfind : nodes.find? (fun n => decide (n.id = entry.1)) with _ | tn
    · have hstep : s1Step nodes acc entry = acc := by simp only [s1Step]; rw [hfind]
      rw [hstep]
      exact ih hknd.2 (fun e he => hvnd e (List.mem_cons_of_mem _ he)) acc h1
        (fun c hc e he => h2 c hc e (List.mem_cons_of_mem _ he))
    · have htn : tn.id = entry.1 := by
        have := List.find?_some hfind
        simpa using this
      by_cases hh : tn.data.isHapax = true
      · have hstep : s1Step nodes acc entry = acc := by
          simp only [s1Step]; rw [hfind]; dsimp only; rw [if_pos hh]
        rw [hstep]
        exact ih hknd.2 (fun e he => hvnd e (List.mem_cons_of_mem _ he)) acc h1
          (fun c hc e he => h2 c hc e (List.mem_cons_of_mem _ he))
      · have hstep : s1Step nodes acc entry = entry.2.foldl (s1Inner tn) acc := by
          simp only [s1Step]; rw [hfind]; dsimp only; rw [if_neg hh]
        rw [hstep]
        have hinv : ∀ c ∈ acc, c.node.id = tn.id →
            ∀ h ∈ entry.2, ∀ pi, hapaxPortMap h = some pi → c.hapaxPort ≠ pi.1 := by
          intro c hc hid
          exact absurd (htn ▸ hid) (h2 c hc entry (List.mem_cons_self _ _))
        obtain ⟨ha, hb⟩ := s1Inner_nodup tn entry.2
          (hvnd entry (List.mem_cons_self _ _)) acc h1 hinv
        refine ih hknd.2 (fun e he => hvnd e (List.mem_cons_of_mem _ he)) _ ha ?_
        intro c hc e he
        rcases hb c hc with hmem | hid
        · exact h2 c hmem e (List.mem_cons_of_mem _ he)
        · rw [hid, htn]
          intro hcontra
          exact hknd.1 (hcontra ▸ List.mem_map_of_mem Prod.fst he)

/-- One direct-analog step keeps the `(id, port)` pairs duplicate-free. -/
theorem s2Step_nodup (nodes : List NodeT) (hubId : String)
    (raw : List ConnectedInstrument) (e : EdgeT)
    (h1 : (raw.map pairOf).Nodup) :
    ((s2Step nodes hubId raw e).map pairOf).Nodup := by
  by_cases hc1 : e.source ≠ hubId
  · have hstep : s2Step nodes hubId raw e = raw := by
      simp only [s2Step]; rw [if_pos hc1]
    rw [hstep]; exact h1
  · rcases hpm : hapaxPortMap (e.sourceHandle.getD "") with _ | pi
    · have hstep : s2Step nodes hubId raw e = raw := by
        simp only [s2Step]; rw [if_neg hc1, hpm]
      rw [hstep]; exact h1
    · by_cases hc2 : ¬ pi.2 = true
      · have hstep : s2Step nodes hubId raw e = raw := by
          simp only [s2Step]; rw [if_neg hc1, hpm]; dsimp only; rw [if_pos hc2]
        rw [hstep]; exact h1
      · rcases hfind : nodes.find? (fun n => decide (n.id = e.target)) with _ | tn
        · have hstep : s2Step nodes hubId raw e = raw := by
            simp only [s2Step]; rw [if_neg hc1, hpm]; dsimp only
            rw [if_neg hc2, hfind]
          rw [hstep]; exact h1
        · by_cases hc3 : tn.data.isHapax = true
          · have hstep : s2Step nodes hubId raw e = raw := by
              simp only [s2Step]; rw [if_neg hc1, hpm]; dsimp only
              rw [if_neg hc2, hfind]; dsimp only; rw [if_pos hc3]
            rw [hstep]; exact h1
          · by_cases hc4 : raw.any (fun r =>
                decide (r.node.id = tn.id ∧ r.hapaxPort = pi.1)) = true
            · have hstep : s2Step nodes hubId raw e = raw := by
                simp only [s2Step]; rw [if_neg hc1, hpm]; dsimp only
                rw [if_neg hc2, hfind]; dsimp only; rw [if_neg hc3, if_pos hc4]
              rw [hstep]; exact h1
            · have hstep : s2Step nodes hubId raw e =
                  raw ++ [(⟨tn, pi.1, true⟩ : ConnectedInstrument)] := by
                simp only [s2Step]; rw [if_neg hc1, hpm]; dsimp only
                rw [if_neg hc2, hfind]; dsimp only; rw [if_neg hc3, if_neg hc4]
              rw [hstep, List.map_append]
              have hfresh : pairOf ⟨tn, pi.1, true⟩ ∉ raw.map pairOf := by
                intro hcontra
                rcases List.mem_map.mp hcontra with ⟨c, hcmem, hcpair⟩
                have hcid : c.node.id = tn.id := congrArg Prod.fst hcpair
                have hcport : c.hapaxPort = pi.1 := congrArg Prod.snd hcpair
                have : raw.any (fun r =>
                    decide (r.node.id = tn.id ∧ r.hapaxPort = pi.1)) = true := by
                  rw [List.any_eq_true]
                  exact ⟨c, hcmem, by simp [hcid, hcport]⟩
                exact hc4 this
              have hdisj : ∀ x ∈ raw, ¬ pairOf x = pairOf (⟨tn, pi.1, true⟩ : ConnectedInstrument) := by
                intro x hx hcontra
                exact hfresh (hcontra ▸ List.mem_map_of_mem pairOf hx)
              simpa [List.nodup_append] using ⟨h1, hdisj⟩

/-- The raw resolved list never contains the same `(instrument, port)` pair
twice. -/
theorem rawConnected_pair_nodup (nodes : List NodeT) (edges : List EdgeT) :
    ((rawConnected nodes edges).map pairOf).Nodup := by
  unfold rawConnected
  rcases hfind : nodes.find? (fun n => n.data.isHapax) with _ | hub
  · rw [hfind]; exact List.nodup_nil
  · rw [hfind]
    dsimp only
    rw [rawStep2_eq]
    have base : ((rawStep1 nodes (traceHapaxRouting nodes edges)).map pairOf).Nodup := by
      rw [rawStep1_eq]
      exact s1Fold_nodup nodes _ (traceHapaxRouting_nodup nodes edges).1
        (traceHapaxRouting_nodup nodes edges).2 [] List.nodup_nil
        (by intro c hc; simp at hc)
    have main : ∀ (es : List EdgeT) (acc : List ConnectedInstrument),
        (acc.map pairOf).Nodup →
        ((es.foldl (s2Step nodes hub.id) acc).map pairOf).Nodup := by
      intro es
      induction es with
      | nil => intro acc hacc; exact hacc
      | cons e rest ih =>
        intro acc hacc
        rw [List.foldl_cons]
        exact ih _ (s2Step_nodup nodes hub.id acc e hacc)
    exact main edges _ base

/-- Lookup in the grouping fold: the group recorded for `k` collects, in
order, the processed entries whose instrument id is `k`. -/
theorem groupFold_get :
    ∀ (l : List ConnectedInstrument)
      (acc : List (String × List ConnectedInstrument)) (k : String),
      mapGet (l.foldl groupStep acc) k =
        (if l.any (fun c => decide (c.node.id = k)) = true ∨
            (mapGet acc k).isSome = true
         then some ((mapGet acc k).getD [] ++
           l.filter (fun c => decide (c.node.id = k)))
         else none) := by
  intro l
  induction l with
  | nil =>
    intro acc k
    rw [List.foldl_nil, List.any_nil, List.filter_nil, List.append_nil]
    rcases hm : mapGet acc k with _ | v
    · rw [if_neg (by simp)]
    · rw [if_pos (Or.inr (by simp))]
      rfl
  | cons inst rest ih =>
    intro acc k
    rw [List.foldl_cons, ih, List.any_cons, List.filter_cons]
    by_cases hk : inst.node.id = k
    · subst hk
      have hset : mapGet (groupStep acc inst) inst.node.id =
          some (((mapGet acc inst.node.id).getD []) ++ [inst]) := by
        simp only [groupStep]
        exact mapGet_mapSet_self _ _ _
      rw [hset]
      simp [List.append_assoc]
    · have hset : mapGet (groupStep acc inst) k = mapGet acc k := by
        simp only [groupStep]
        exact mapGet_mapSet_ne _ _ (fun h => hk h.symm)
      rw [hset, decide_eq_false hk]
      simp

/-- The grouping fold keeps its keys duplicate-free. -/
theorem groupFold_keys_nodup :
    ∀ (l : List ConnectedInstrument)
      (acc : List (String × List ConnectedInstrument)),
      (acc.map Prod.fst).Nodup → ((l.foldl groupStep acc).map Prod.fst).Nodup := by
  intro l
  induction l with
  | nil => intro acc h; exact h
  | cons inst rest ih =>
    intro acc h
    rw [List.foldl_cons]
    exact ih _ (mapSet_keys_nodup acc inst.node.id _ h)

/-- An entry of the grouping of `raw` is exactly the id-filtered sublist. -/
theorem grouped_mem (raw : List ConnectedInstrument) (k : String)
    (g : List ConnectedInstrument) (hmem : (k, g) ∈ raw.foldl groupStep []) :
    g = raw.filter (fun c => decide (c.node.id = k)) := by
  have hget := mapGet_eq_of_mem_nodup
    (groupFold_keys_nodup raw [] List.nodup_nil) (k, g) hmem
  rw [groupFold_get] at hget
  simp only [mapGet, Option.isSome_none, Option.getD_none, List.nil_append] at hget
  by_cases hany : raw.any (fun c => decide (c.node.id = k)) = true
  · rw [if_pos (Or.inl hany)] at hget
    injection hget with hget
    exact hget.symm
  · rw [if_neg (by simp [hany])] at hget
    exact absurd hget (by simp)

/-- Every raw entry's instrument id is a key of the grouping, bound to the
id-filtered sublist. -/
theorem grouped_mem_of_raw (raw : List ConnectedInstrument)
    (r : ConnectedInstrument) (hr : r ∈ raw) :
    (r.node.id, raw.filter (fun c => decide (c.node.id = r.node.id))) ∈
      raw.foldl groupStep [] := by
  apply mapGet_mem
  rw [groupFold_get]
  simp only [mapGet, Option.isSome_none, Option.getD_none, List.nil_append]
  rw [if_pos (Or.inl (by rw [List.any_eq_true]; exact ⟨r, hr, by simp⟩))]

/-- Membership in the final concatenation fold. -/
theorem resFold_mem :
    ∀ (l : List (String × List ConnectedInstrument))
      (init : List ConnectedInstrument) (c : ConnectedInstrument),
      c ∈ l.foldl resStep init ↔ c ∈ init ∨ ∃ e ∈ l, c ∈ pairGroup e.2 := by
  intro l
  induction l with
  | nil => intro init c; simp
  | cons entry rest ih =>
    intro init c
    rw [List.foldl_cons, ih]
    simp only [resStep, List.mem_append, List.mem_cons]
    constructor
    · rintro ((h | h) | ⟨e, he, hpg⟩)
      · exact Or.inl h
      · exact Or.inr ⟨entry, Or.inl rfl, h⟩
      · exact Or.inr ⟨e, Or.inr he, hpg⟩
    · rintro (h | ⟨e, (rfl | he), hpg⟩)
      · exact Or.inl (Or.inl h)
      · exact Or.inl (Or.inr hpg)
      · exact Or.inr ⟨e, he, hpg⟩

/-- Counting in the final concatenation fold. -/
theorem resFold_countP (p : ConnectedInstrument → Bool) :
    ∀ (l : List (String × List ConnectedInstrument))
      (init : List ConnectedInstrument),
      (l.foldl resStep init).countP p =
        init.countP p + (l.map (fun e => (pairGroup e.2).countP p)).sum := by
  intro l
  induction l with
  | nil => intro init; simp
  | cons entry rest ih =>
    intro init
    rw [List.foldl_cons, ih]
    simp only [resStep]
    rw [List.countP_append]
    simp [Nat.add_assoc]

/-- A string is recovered from its character data. -/
theorem string_of_data {s : String} {l : List Char} (h : s.data = l) :
    s = String.mk l :=
  (string_eta s).symm.trans (congrArg String.mk h)

/-- The digit part of a CV code. -/
theorem cvDigits_of_data {s : String} {e : Char} (h : s.data = ['C', 'V', e]) :
    cvDigits s = String.mk [e] := by
  unfold cvDigits
  rw [h]
  rfl

/-- Packed strings of different lengths differ. -/
theorem mk_ne_of_len {l l' : List Char} (h : l.length ≠ l'.length) :
    String.mk l ≠ String.mk l' :=
  fun hc => h (congrArg List.length (string_mk_inj hc))

/-- The pairing step when no same-numbered gate exists. -/
theorem pgStep_none {gE : List ConnectedInstrument} {cv : ConnectedInstrument}
    (acc : List ConnectedInstrument × List String × List String)
    (hfind : gE.find? (fun g =>
      decide (g.hapaxPort = "G" ++ cvDigits cv.hapaxPort)) = none) :
    pgStep gE acc cv = acc := by
  simp only [pgStep]
  rw [hfind]

/-- The pairing step when a same-numbered gate is found. -/
theorem pgStep_some {gE : List ConnectedInstrument} {cv gate : ConnectedInstrument}
    (acc : List ConnectedInstrument × List String × List String)
    (hfind : gE.find? (fun g =>
      decide (g.hapaxPort = "G" ++ cvDigits cv.hapaxPort)) = some gate) :
    pgStep gE acc cv =
      (acc.1 ++ [⟨cv.node, "CVG" ++ cvDigits cv.hapaxPort, true⟩],
        setAdd acc.2.1 cv.hapaxPort, setAdd acc.2.2 gate.hapaxPort) := by
  simp only [pgStep]
  rw [hfind]

/-- Entries of the pairing fold's output list: old, or a combined `CVG`
entry certified by a CV entry and a same-numbered gate. -/
theorem pgFold_acc1_mem (gE : List ConnectedInstrument) :
    ∀ (l : List ConnectedInstrument)
      (acc : List ConnectedInstrument × List String × List String)
      (c : ConnectedInstrument), c ∈ (l.foldl (pgStep gE) acc).1 →
      c ∈ acc.1 ∨ ∃ cv ∈ l, ∃ gate ∈ gE,
        gate.hapaxPort = "G" ++ cvDigits cv.hapaxPort ∧
        c = ⟨cv.node, "CVG" ++ cvDigits cv.hapaxPort, true⟩ := by
  intro l
  induction l with
  | nil => intro acc c hc; exact Or.inl hc
  | cons cv rest ih =>
    intro acc c hc
    rw [List.foldl_cons] at hc
    rcases hfind : gE.find? (fun g =>
        decide (g.hapaxPort = "G" ++ cvDigits cv.hapaxPort)) with _ | gate
    · rw [pgStep_none acc hfind] at hc
      rcases ih acc c hc with h | ⟨cv', hcv', gate', hg', hgp', hc'⟩
      · exact Or.inl h
      · exact Or.inr ⟨cv', List.mem_cons_of_mem _ hcv', gate', hg', hgp', hc'⟩
    · rw [pgStep_some acc hfind] at hc
      rcases ih _ c hc with h | ⟨cv', hcv', gate', hg', hgp', hc'⟩
      · rcases List.mem_append.mp h with h | h
        · exact Or.inl h
        · simp only [List.mem_singleton] at h
          have hgport : gate.hapaxPort = "G" ++ cvDigits cv.hapaxPort := by
            have := List.find?_some hfind
            simpa using this
          exact Or.inr ⟨cv, List.mem_cons_self _ _,
            gate, List.mem_of_find?_eq_some hfind, hgport, h⟩
      · exact Or.inr ⟨cv', List.mem_cons_of_mem _ hcv', gate', hg', hgp', hc'⟩

/-- Entries of the matched-CV set: old, or the port of a CV entry with a
same-numbered gate. -/
theorem pgFold_m1_mem (gE : List ConnectedInstrument) :
    ∀ (l : List ConnectedInstrument)
      (acc : List ConnectedInstrument × List String × List String)
      (p : String), p ∈ (l.foldl (pgStep gE) acc).2.1 →
      p ∈ acc.2.1 ∨ ∃ cv ∈ l, p = cv.hapaxPort ∧ ∃ gate ∈ gE,
        gate.hapaxPort = "G" ++ cvDigits cv.hapaxPort := by
  intro l
  induction l with
  | nil => intro acc p hp; exact Or.inl hp
  | cons cv rest ih =>
    intro acc p hp
    rw [List.foldl_cons] at hp
    rcases hfind : gE.find? (fun g =>
        decide (g.hapaxPort = "G" ++ cvDigits cv.hapaxPort)) with _ | gate
    · rw [pgStep_none acc hfind] at hp
      rcases ih acc p hp with h | ⟨cv', hcv', hp', hex⟩
      · exact Or.inl h
      · exact Or.inr ⟨cv', List.mem_cons_of_mem _ hcv', hp', hex⟩
    · rw [pgStep_some acc hfind] at hp
      rcases ih _ p hp with h | ⟨cv', hcv', hp', hex⟩
      · rcases setAdd_elim h with h | h
        · exact Or.inl h
        · have hgport : gate.hapaxPort = "G" ++ cvDigits cv.hapaxPort := by
            have := List.find?_some hfind
            simpa using this
          exact Or.inr ⟨cv, List.mem_cons_self _ _, h,
            gate, List.mem_of_find?_eq_some hfind, hgport⟩
      · exact Or.inr ⟨cv', List.mem_cons_of_mem _ hcv', hp', hex⟩

/-- Entries of the matched-gate set: old, or the gate code paired to some CV
entry. -/
theorem pgFold_m2_mem (gE : List ConnectedInstrument) :
    ∀ (l : List ConnectedInstrument)
      (acc : List ConnectedInstrument × List String × List String)
      (p : String), p ∈ (l.foldl (pgStep gE) acc).2.2 →
      p ∈ acc.2.2 ∨ ∃ cv ∈ l, p = "G" ++ cvDigits cv.hapaxPort := by
  intro l
  induction l with
  | nil => intro acc p hp; exact Or.inl hp
  | cons cv rest ih =>
    intro acc p hp
    rw [List.foldl_cons] at hp
    rcases hfind : gE.find? (fun g =>
        decide (g.hapaxPort = "G" ++ cvDigits cv.hapaxPort)) with _ | gate
    · rw [pgStep_none acc hfind] at hp
      rcases ih acc p hp with h | ⟨cv', hcv', hp'⟩
      · exact Or.inl h
      · exact Or.inr ⟨cv', List.mem_cons_of_mem _ hcv', hp'⟩
    · rw [pgStep_some acc hfind] at hp
      rcases ih _ p hp with h | ⟨cv', hcv', hp'⟩
      · rcases setAdd_elim h with h | h
        · exact Or.inl h
        · have hgport : gate.hapaxPort = "G" ++ cvDigits cv.hapaxPort := by
            have := List.find?_some hfind
            simpa using this
          exact Or.inr ⟨cv, List.mem_cons_self _ _, h.trans hgport⟩
      · exact Or.inr ⟨cv', List.mem_cons_of_mem _ hcv', hp'⟩

/-- The pairing fold only grows the matched sets. -/
theorem pgFold_mono (gE : List ConnectedInstrument) :
    ∀ (l : List ConnectedInstrument)
      (acc : List ConnectedInstrument × List String × List String),
      (∀ p ∈ acc.2.1, p ∈ (l.foldl (pgStep gE) acc).2.1) ∧
      (∀ p ∈ acc.2.2, p ∈ (l.foldl (pgStep gE) acc).2.2) := by
  intro l
  induction l with
  | nil => intro acc; exact ⟨fun p hp => hp, fun p hp => hp⟩
  | cons cv rest ih =>
    intro acc
    rw [List.foldl_cons]
    rcases hfind : gE.find? (fun g =>
        decide (g.hapaxPort = "G" ++ cvDigits cv.hapaxPort)) with _ | gate
    · rw [pgStep_none acc hfind]
      exact ih acc
    · rw [pgStep_some acc hfind]
      refine ⟨fun p hp => (ih _).1 p ?_, fun p hp => (ih _).2 p ?_⟩
      · exact setAdd_mem_of_mem _ hp
      · exact setAdd_mem_of_mem _ hp

/-- A CV entry with a same-numbered gate ends up in the matched-CV set. -/
theorem pgFold_matched_cv (gE : List ConnectedInstrument) :
    ∀ (l : List ConnectedInstrument)
      (acc : List ConnectedInstrument × List String × List String)
      (cv : ConnectedInstrument), cv ∈ l →
      (∃ gate ∈ gE, gate.hapaxPort = "G" ++ cvDigits cv.hapaxPort) →
      cv.hapaxPort ∈ (l.foldl (pgStep gE) acc).2.1 := by
  intro l
  induction l with
  | nil => intro acc cv hcv; simp at hcv
  | cons cv0 rest ih =>
    intro acc cv hcv hex
    rw [List.foldl_cons]
    rcases List.mem_cons.mp hcv with h1 | h2
    · subst h1
      rcases hfind : gE.find? (fun g =>
          decide (g.hapaxPort = "G" ++ cvDigits cv.hapaxPort)) with _ | gate
      · rcases hex with ⟨gate', hg', hgp'⟩
        have := List.find?_eq_none.mp hfind gate' hg'
        simp [hgp'] at this
      · rw [pgStep_some acc hfind]
        refine (pgFold_mono gE rest _).1 cv.hapaxPort ?_
        exact setAdd_mem_self _ _
    · rcases hfind : gE.find? (fun g =>
          decide (g.hapaxPort = "G" ++ cvDigits cv0.hapaxPort)) with _ | gate
      · rw [pgStep_none acc hfind]
        exact ih acc cv h2 hex
      · rw [pgStep_some acc hfind]
        exact ih _ cv h2 hex

/-- The gate code paired to a matched CV entry ends up in the matched-gate
set. -/
theorem pgFold_matched_g (gE : List ConnectedInstrument) :
    ∀ (l : List ConnectedInstrument)
      (acc : List ConnectedInstrument × List String × List String)
      (cv : ConnectedInstrument), cv ∈ l →
      (∃ gate ∈ gE, gate.hapaxPort = "G" ++ cvDigits cv.hapaxPort) →
      ("G" ++ cvDigits cv.hapaxPort) ∈ (l.foldl (pgStep gE) acc).2.2 := by
  intro l
  induction l with
  | nil => intro acc cv hcv; simp at hcv
  | cons cv0 rest ih =>
    intro acc cv hcv hex
    rw [List.foldl_cons]
    rcases List.mem_cons.mp hcv with h1 | h2
    · subst h1
      rcases hfind : gE.find? (fun g =>
          decide (g.hapaxPort = "G" ++ cvDigits cv.hapaxPort)) with _ | gate
      · rcases hex with ⟨gate', hg', hgp'⟩
        have := List.find?_eq_none.mp hfind gate' hg'
        simp [hgp'] at this
      · rw [pgStep_some acc hfind]
        have hgport : gate.hapaxPort = "G" ++ cvDigits cv.hapaxPort := by
          have := List.find?_some hfind
          simpa using this
        refine (pgFold_mono gE rest _).2 _ ?_
        rw [← hgport]
        exact setAdd_mem_self _ _
    · rcases hfind : gE.find? (fun g =>
          decide (g.hapaxPort = "G" ++ cvDigits cv0.hapaxPort)) with _ | gate
      · rw [pgStep_none acc hfind]
        exact ih acc cv h2 hex
      · rw [pgStep_some acc hfind]
        exact ih _ cv h2 hex

/-- Counting in the pairing fold's output list. -/
theorem pgFold_countP (gE : List ConnectedInstrument)
    (P : ConnectedInstrument → Bool) :
    ∀ (l : List ConnectedInstrument)
      (acc : List ConnectedInstrument × List String × List String),
      (l.foldl (pgStep gE) acc).1.countP P =
        acc.1.countP P + l.countP (fun cv =>
          (gE.find? (fun g =>
            decide (g.hapaxPort = "G" ++ cvDigits cv.hapaxPort))).isSome &&
          P ⟨cv.node, "CVG" ++ cvDigits cv.hapaxPort, true⟩) := by
  intro l
  induction l with
  | nil => intro acc; simp
  | cons cv rest ih =>
    intro acc
    rw [List.foldl_cons, List.countP_cons]
    rcases hfind : gE.find? (fun g =>
        decide (g.hapaxPort = "G" ++ cvDigits cv.hapaxPort)) with _ | gate
    · rw [pgStep_none acc hfind, ih acc, hfind]
      simp
    · rw [pgStep_some acc hfind, ih _, hfind]
      simp only [List.countP_append, Option.isSome_some, Bool.true_and]
      rw [List.countP_singleton]
      omega

/-- Counting with predicates that agree on the list's members. -/
theorem countP_congr_mem {α : Type} (l : List α) (p q : α → Bool)
    (h : ∀ a ∈ l, p a = q a) : l.countP p = l.countP q := by
  induction l with
  | nil => rfl
  | cons a rest ih =>
    rw [List.countP_cons, List.countP_cons, h a (List.mem_cons_self _ _),
      ih (fun b hb => h b (List.mem_cons_of_mem _ hb))]

/-- Every entry of a paired group is an original entry or a combined `CVG`
entry built from a CV entry and a same-numbered gate entry of the group. -/
theorem pairGroup_mem_shape (g : List ConnectedInstrument)
    (c : ConnectedInstrument) (hc : c ∈ pairGroup g) :
    c ∈ g ∨ ∃ cv ∈ g, isCVCode cv.hapaxPort = true ∧
      (∃ gate ∈ g, isGCode gate.hapaxPort = true ∧
        gate.hapaxPort = "G" ++ cvDigits cv.hapaxPort) ∧
      c = ⟨cv.node, "CVG" ++ cvDigits cv.hapaxPort, true⟩ := by
  rw [pairGroup_eq] at hc
  dsimp only at hc
  rcases List.mem_append.mp hc with hc01 | hc2
  · rcases List.mem_append.mp hc01 with hc0 | hc1
    · rcases pgFold_acc1_mem _ _ _ c hc0 with h | ⟨cv, hcv, gate, hg, hgp, hceq⟩
      · exact Or.inl (List.mem_of_mem_filter h)
      · exact Or.inr ⟨cv, List.mem_of_mem_filter hcv, (List.mem_filter.mp hcv).2,
          ⟨gate, List.mem_of_mem_filter hg, (List.mem_filter.mp hg).2, hgp⟩, hceq⟩
    · exact Or.inl (List.mem_of_mem_filter (List.mem_of_mem_filter hc1))
  · exact Or.inl (List.mem_of_mem_filter (List.mem_of_mem_filter hc2))

/-- Pairing never crosses instruments: entries of a single-instrument group
stay on that instrument. -/
theorem pairGroup_ids (g : List ConnectedInstrument) (I : String)
    (hid : ∀ c ∈ g, c.node.id = I) :
    ∀ c ∈ pairGroup g, c.node.id = I := by
  intro c hc
  rcases pairGroup_mem_shape g c hc with h | ⟨cv, hcv, _, _, hceq⟩
  · exact hid c h
  · rw [hceq]
    exact hid cv hcv

/-- In a single-instrument group with duplicate-free table port codes, a
same-numbered CV/gate pair yields exactly one combined `CVG` entry. -/
theorem pairGroup_cvg_count (g : List ConnectedInstrument) (I : String) (d : Char)
    (hd : d.isDigit = true)
    (hid : ∀ c ∈ g, c.node.id = I)
    (hports : (g.map (fun c => c.hapaxPort)).Nodup)
    (htable : ∀ c ∈ g, ∃ pr ∈ hapaxPortTable, c.hapaxPort = pr.2.1)
    (cvX : ConnectedInstrument) (hcvX : cvX ∈ g)
    (hcvXp : cvX.hapaxPort = String.mk ['C', 'V', d])
    (gtX : ConnectedInstrument) (hgtX : gtX ∈ g)
    (hgtXp : gtX.hapaxPort = String.mk ['G', d]) :
    (pairGroup g).countP (fun c => decide (c.node.id = I ∧
      c.hapaxPort = String.mk ['C', 'V', 'G', d])) = 1 := by
  rw [pairGroup_eq]
  dsimp only
  rw [List.countP_append, List.countP_append]
  have hfilt1 : ∀ (q : ConnectedInstrument → Bool),
      ((g.filter (fun i => isCVCode i.hapaxPort)).filter q).countP
        (fun c => decide (c.node.id = I ∧
          c.hapaxPort = String.mk ['C', 'V', 'G', d])) = 0 := by
    intro q
    rw [List.countP_eq_zero]
    intro c hcq
    have hcv := List.mem_filter.mp (List.mem_of_mem_filter hcq)
    rcases isCVCode_shape hcv.2 with ⟨e, _, hdata⟩
    simp only [decide_eq_true_eq, not_and]
    intro _
    rw [string_of_data hdata]
    exact mk_ne_of_len (by simp)
  have hfilt2 : ∀ (q : ConnectedInstrument → Bool),
      ((g.filter (fun i => isGCode i.hapaxPort)).filter q).countP
        (fun c => decide (c.node.id = I ∧
          c.hapaxPort = String.mk ['C', 'V', 'G', d])) = 0 := by
    intro q
    rw [List.countP_eq_zero]
    intro c hcq
    have hcg := List.mem_filter.mp (List.mem_of_mem_filter hcq)
    rcases isGCode_shape hcg.2 with ⟨e, _, hdata⟩
    simp only [decide_eq_true_eq, not_and]
    intro _
    rw [string_of_data hdata]
    exact mk_ne_of_len (by simp)
  rw [hfilt1, hfilt2, pgFold_countP]
  dsimp only
  have hothers : ∀ (q : ConnectedInstrument → Bool),
      (g.filter q).countP (fun c => decide (c.node.id = I ∧
        c.hapaxPort = String.mk ['C', 'V', 'G', d])) = 0 := by
    intro q
    rw [List.countP_eq_zero]
    intro c hcq
    rcases htable c (List.mem_of_mem_filter hcq) with ⟨pr, hpr, hport⟩
    simp only [decide_eq_true_eq, not_and]
    intro _ hcontra
    apply hapaxPortTable_no_cvg pr hpr
    rw [← hport, hcontra]
    rfl
  rw [hothers]
  have hagree : ∀ cv ∈ g.filter (fun i => isCVCode i.hapaxPort),
      (((g.filter (fun i => isGCode i.hapaxPort)).find? (fun g' =>
          decide (g'.hapaxPort = "G" ++ cvDigits cv.hapaxPort))).isSome &&
        decide (cv.node.id = I ∧
          ("CVG" ++ cvDigits cv.hapaxPort) = String.mk ['C', 'V', 'G', d])) =
      decide (cv.hapaxPort = String.mk ['C', 'V', d]) := by
    intro cv hcvE
    have hcvmem := List.mem_of_mem_filter hcvE
    have hcvcode := (List.mem_filter.mp hcvE).2
    rcases isCVCode_shape hcvcode with ⟨e, _, hdata⟩
    rw [cvDigits_of_data hdata, cvgAppend, gAppend]
    by_cases hed : e = d
    · subst hed
      have hport : cv.hapaxPort = String.mk ['C', 'V', e] := string_of_data hdata
      have hsome : ((g.filter (fun i => isGCode i.hapaxPort)).find? (fun g' =>
          decide (g'.hapaxPort = String.mk ['G', e]))).isSome = true := by
        rcases hfind : (g.filter (fun i => isGCode i.hapaxPort)).find? (fun g' =>
            decide (g'.hapaxPort = String.mk ['G', e])) with _ | gate
        · exfalso
          have hgX : gtX ∈ g.filter (fun i => isGCode i.hapaxPort) := by
            rw [List.mem_filter]
            exact ⟨hgtX, by rw [hgtXp]; exact isGCode_mk hd⟩
          have := List.find?_eq_none.mp hfind gtX hgX
          simp [hgtXp] at this
        · rw [hfind]; rfl
      rw [hsome, hport]
      simp [hid cv hcvmem]
    · have hportne : cv.hapaxPort ≠ String.mk ['C', 'V', d] := by
        rw [string_of_data hdata]
        intro hcontra
        have hl := string_mk_inj hcontra
        simp at hl
        exact hed hl
      have hcvgne : String.mk ['C', 'V', 'G', e] ≠ String.mk ['C', 'V', 'G', d] := by
        intro hcontra
        have hl := string_mk_inj hcontra
        simp at hl
        exact hed hl
      simp [hportne, hcvgne]
  have hmain := countP_congr_mem (g.filter (fun i => isCVCode i.hapaxPort)) _ _ hagree
  rw [hmain]
  have hcvXcv : cvX ∈ g.filter (fun i => isCVCode i.hapaxPort) := by
    rw [List.mem_filter]
    exact ⟨hcvX, by rw [hcvXp]; exact isCVCode_mk hd⟩
  have hnodupE : ((g.filter (fun i => isCVCode i.hapaxPort)).map
      (fun c => c.hapaxPort)).Nodup :=
    List.Nodup.sublist (List.Sublist.map _ (List.filter_sublist _)) hports
  have hsingle := filter_eq_singleton_of_map_nodup
    (fun c : ConnectedInstrument => c.hapaxPort) hnodupE hcvXcv
  dsimp only at hsingle
  rw [hcvXp] at hsingle
  rw [List.countP_eq_length_filter, hsingle]
  rfl

/-- When a same-numbered CV/gate pair is merged, neither original code
survives in the paired group. -/
theorem pairGroup_originals_removed (g : List ConnectedInstrument) (d : Char)
    (hd : d.isDigit = true)
    (cvX : ConnectedInstrument) (hcvX : cvX ∈ g)
    (hcvXp : cvX.hapaxPort = String.mk ['C', 'V', d])
    (gtX : ConnectedInstrument) (hgtX : gtX ∈ g)
    (hgtXp : gtX.hapaxPort = String.mk ['G', d]) :
    ∀ c ∈ pairGroup g, c.hapaxPort ≠ String.mk ['C', 'V', d] ∧
      c.hapaxPort ≠ String.mk ['G', d] := by
  intro c hc
  rw [pairGroup_eq] at hc
  dsimp only at hc
  have hcvXcv : cvX ∈ g.filter (fun i => isCVCode i.hapaxPort) := by
    rw [List.mem_filter]
    exact ⟨hcvX, by rw [hcvXp]; exact isCVCode_mk hd⟩
  have hdigX : cvDigits cvX.hapaxPort = String.mk [d] :=
    cvDigits_of_data (congrArg String.data hcvXp)
  have hgateEx : ∃ gate ∈ g.filter (fun i => isGCode i.hapaxPort),
      gate.hapaxPort = "G" ++ cvDigits cvX.hapaxPort := by
    refine ⟨gtX, ?_, ?_⟩
    · rw [List.mem_filter]
      exact ⟨hgtX, by rw [hgtXp]; exact isGCode_mk hd⟩
    · rw [hdigX, gAppend, hgtXp]
  rcases List.mem_append.mp hc with hc01 | hc2
  · rcases List.mem_append.mp hc01 with hc0 | hc1
    · rcases pgFold_acc1_mem _ _ _ c hc0 with h | ⟨cv, hcv, gate, hg, hgp, hceq⟩
      · have hpred := (List.mem_filter.mp h).2
        simp only [decide_eq_true_eq] at hpred
        constructor
        · intro hcontra
          exact hpred.1 (by rw [hcontra]; exact isCVCode_mk hd)
        · intro hcontra
          exact hpred.2 (by rw [hcontra]; exact isGCode_mk hd)
      · have hcvcode := (List.mem_filter.mp hcv).2
        rcases isCVCode_shape hcvcode with ⟨e, _, hdata⟩
        have hcport : c.hapaxPort = String.mk ['C', 'V', 'G', e] := by
          rw [hceq]
          dsimp only
          rw [cvDigits_of_data hdata, cvgAppend]
        rw [hcport]
        exact ⟨mk_ne_of_len (by simp), mk_ne_of_len (by simp)⟩
    · have hcvE := List.mem_of_mem_filter hc1
      have hnotin := (List.mem_filter.mp hc1).2
      simp only [decide_eq_true_eq] at hnotin
      have hcvcode := (List.mem_filter.mp hcvE).2
      rcases isCVCode_shape hcvcode with ⟨e, _, hdata⟩
      constructor
      · intro hcontra
        apply hnotin
        rw [hcontra, ← hcvXp]
        exact pgFold_matched_cv _ _ _ cvX hcvXcv hgateEx
      · intro hcontra
        have h1 : c.hapaxPort.data = ['G', d] := congrArg String.data hcontra
        rw [hdata] at h1
        simp at h1
  · have hgE := List.mem_of_mem_filter hc2
    have hnotin := (List.mem_filter.mp hc2).2
    simp only [decide_eq_true_eq] at hnotin
    have hgcode := (List.mem_filter.mp hgE).2
    rcases isGCode_shape hgcode with ⟨e, _, hdata⟩
    constructor
    · intro hcontra
      have h1 : c.hapaxPort.data = ['C', 'V', d] := congrArg String.data hcontra
      rw [hdata] at h1
      simp at h1
    · intro hcontra
      apply hnotin
      rw [hcontra, ← gAppend, ← hdigX]
      exact pgFold_matched_g _ _ _ cvX hcvXcv hgateEx

/-- A CV entry with no same-numbered gate in its group passes through. -/
theorem pairGroup_cv_passthrough (g : List ConnectedInstrument) (d : Char)
    (hd : d.isDigit = true)
    (cvX : ConnectedInstrument) (hcvX : cvX ∈ g)
    (hcvXp : cvX.hapaxPort = String.mk ['C', 'V', d])
    (hnog : ∀ c ∈ g, c.hapaxPort ≠ String.mk ['G', d]) :
    cvX ∈ pairGroup g := by
  rw [pairGroup_eq]
  dsimp only
  refine List.mem_append.mpr (Or.inl (List.mem_append.mpr (Or.inr ?_)))
  rw [List.mem_filter]
  refine ⟨?_, ?_⟩
  · rw [List.mem_filter]
    exact ⟨hcvX, by rw [hcvXp]; exact isCVCode_mk hd⟩
  · simp only [decide_eq_true_eq]
    intro hin
    rcases pgFold_m1_mem _ _ _ _ hin with h | ⟨cv, hcv, hpeq, gate, hg, hgp⟩
    · simp at h
    · have hcvcode := (List.mem_filter.mp hcv).2
      rcases isCVCode_shape hcvcode with ⟨e, _, hdata⟩
      have h1 : String.mk ['C', 'V', d] = String.mk ['C', 'V', e] := by
        rw [← hcvXp, hpeq]
        exact string_of_data hdata
      have hl := string_mk_inj h1
      simp at hl
      have hgport : gate.hapaxPort = String.mk ['G', d] := by
        rw [hgp, cvDigits_of_data hdata, gAppend, ← hl]
      exact hnog gate (List.mem_of_mem_filter hg) hgport

/-- A gate entry with no same-numbered CV in its group passes through. -/
theorem pairGroup_g_passthrough (g : List ConnectedInstrument) (d : Char)
    (hd : d.isDigit = true)
    (gtX : ConnectedInstrument) (hgtX : gtX ∈ g)
    (hgtXp : gtX.hapaxPort = String.mk ['G', d])
    (hnocv : ∀ c ∈ g, c.hapaxPort ≠ String.mk ['C', 'V', d]) :
    gtX ∈ pairGroup g := by
  rw [pairGroup_eq]
  dsimp only
  refine List.mem_append.mpr (Or.inr ?_)
  rw [List.mem_filter]
  refine ⟨?_, ?_⟩
  · rw [List.mem_filter]
    exact ⟨hgtX, by rw [hgtXp]; exact isGCode_mk hd⟩
  · simp only [decide_eq_true_eq]
    intro hin
    rcases pgFold_m2_mem _ _ _ _ hin with h | ⟨cv, hcv, hpeq⟩
    · simp at h
    · have hcvcode := (List.mem_filter.mp hcv).2
      rcases isCVCode_shape hcvcode with ⟨e, _, hdata⟩
      have h1 : String.mk ['G', d] = String.mk ['G', e] := by
        rw [← hgtXp, hpeq, cvDigits_of_data hdata, gAppend]
      have hl := string_mk_inj h1
      simp at hl
      apply hnocv cv (List.mem_of_mem_filter hcv)
      rw [string_of_data hdata, hl]

/-- Within one instrument's group, duplicate-free `(id, port)` pairs give
duplicate-free port codes. -/
theorem ports_nodup_of_pairs (raw : List ConnectedInstrument) (I : String)
    (hpairs : (raw.map pairOf).Nodup) :
    ((raw.filter (fun c => decide (c.node.id = I))).map
      (fun c => c.hapaxPort)).Nodup := by
  have hsub : (raw.filter (fun c => decide (c.node.id = I))).Sublist raw :=
    List.filter_sublist _
  have hpair2 : ((raw.filter (fun c => decide (c.node.id = I))).map pairOf).Nodup :=
    List.Nodup.sublist (List.Sublist.map _ hsub) hpairs
  have heq : (raw.filter (fun c => decide (c.node.id = I))).map pairOf =
      ((raw.filter (fun c => decide (c.node.id = I))).map
        (fun c => c.hapaxPort)).map (fun p => (I, p)) := by
    rw [List.map_map]
    apply List.map_congr_left
    intro c hc
    have hcid : c.node.id = I := by simpa using (List.mem_filter.mp hc).2
    simp [pairOf, Function.comp, hcid]
  rw [heq] at hpair2
  exact List.Nodup.of_map _ hpair2

/-- Summing per-group counts of an id-specific predicate over a grouping
with duplicate-free keys reduces to the single matching group. -/
theorem sum_single_key (I : String) (P : ConnectedInstrument → Bool)
    (hPid : ∀ c, P c = true → c.node.id = I) :
    ∀ (L : List (String × List ConnectedInstrument)),
      (L.map Prod.fst).Nodup →
      (∀ e ∈ L, ∀ x ∈ pairGroup e.2, x.node.id = e.1) →
      ∀ (gI : List ConnectedInstrument), (I, gI) ∈ L →
      (L.map (fun e => (pairGroup e.2).countP P)).sum =
        (pairGroup gI).countP P := by
  intro L
  induction L with
  | nil => intro _ _ gI hmem; simp at hmem
  | cons e rest ih =>
    intro hknd hids gI hmem
    simp only [List.map_cons, List.nodup_cons] at hknd
    rw [List.map_cons, List.sum_cons]
    rcases List.mem_cons.mp hmem with h1 | h2
    · have hrest : (rest.map (fun e => (pairGroup e.2).countP P)).sum = 0 := by
        rw [List.sum_eq_zero]
        intro n hn
        rcases List.mem_map.mp hn with ⟨e', he', rfl⟩
        rw [List.countP_eq_zero]
        intro x hx hPx
        have hxid : x.node.id = e'.1 := hids e' (List.mem_cons_of_mem _ he') x hx
        have hxI : x.node.id = I := hPid x hPx
        apply hknd.1
        have heI : e'.1 = e.1 := by
          rw [← hxid, hxI, congrArg Prod.fst h1.symm]
        rw [← heI]
        exact List.mem_map_of_mem Prod.fst he'
      rw [hrest]
      have h2eq : e.2 = gI := (congrArg Prod.snd h1).symm
      rw [h2eq]
      omega
    · have heI : e.1 ≠ I := by
        intro hcontra
        apply hknd.1
        rw [hcontra]
        have := List.mem_map_of_mem Prod.fst h2
        simpa using this
      have hzero : (pairGroup e.2).countP P = 0 := by
        rw [List.countP_eq_zero]
        intro x hx hPx
        exact heI (by rw [← hids e (List.mem_cons_self _ _) x hx, hPid x hPx])
      rw [hzero,
        ih hknd.2 (fun e' he' => hids e' (List.mem_cons_of_mem _ he')) gI h2]
      omega

/-- C4.  In the resolver's output (`findConnectedInstruments`), whenever one
instrument `I` resolves to both the CV code `CV{d}` and the gate code `G{d}`
for the same digit `d`, the two are replaced by exactly one combined entry
`CVG{d}` marked analog and neither original code survives for `I`; a CV or
gate code whose instrument lacks the same-numbered sibling passes through
unchanged and yields no combined entry; and a combined `CVG{d}` entry for an
instrument certifies that this same instrument — never a different one —
contributed both originals. -/
theorem findConnectedInstruments_cv_gate_pairing (nodes : List NodeT)
    (edges : List EdgeT) (I : String) (d : Char) (hd : d.isDigit = true) :
    ((∃ r ∈ rawConnected nodes edges, r.node.id = I ∧
        r.hapaxPort = String.mk ['C', 'V', d]) →
     (∃ r ∈ rawConnected nodes edges, r.node.id = I ∧
        r.hapaxPort = String.mk ['G', d]) →
      ((findConnectedInstruments nodes edges).countP (fun c =>
          decide (c.node.id = I ∧
            c.hapaxPort = String.mk ['C', 'V', 'G', d])) = 1 ∧
       (∀ c ∈ findConnectedInstruments nodes edges, c.node.id = I →
          c.hapaxPort = String.mk ['C', 'V', 'G', d] → c.isAnalog = true) ∧
       (∀ c ∈ findConnectedInstruments nodes edges, c.node.id = I →
          c.hapaxPort ≠ String.mk ['C', 'V', d] ∧
          c.hapaxPort ≠ String.mk ['G', d]))) ∧
    ((∃ r ∈ rawConnected nodes edges, r.node.id = I ∧
        r.hapaxPort = String.mk ['C', 'V', d]) →
     (∀ r ∈ rawConnected nodes edges, r.node.id = I →
        r.hapaxPort ≠ String.mk ['G', d]) →
      ((∃ c ∈ findConnectedInstruments nodes edges, c.node.id = I ∧
          c.hapaxPort = String.mk ['C', 'V', d]) ∧
       (∀ c ∈ findConnectedInstruments nodes edges, c.node.id = I →
          c.hapaxPort ≠ String.mk ['C', 'V', 'G', d]))) ∧
    ((∃ r ∈ rawConnected nodes edges, r.node.id = I ∧
        r.hapaxPort = String.mk ['G', d]) →
     (∀ r ∈ rawConnected nodes edges, r.node.id = I →
        r.hapaxPort ≠ String.mk ['C', 'V', d]) →
      ((∃ c ∈ findConnectedInstruments nodes edges, c.node.id = I ∧
          c.hapaxPort = String.mk ['G', d]) ∧
       (∀ c ∈ findConnectedInstruments nodes edges, c.node.id = I →
          c.hapaxPort ≠ String.mk ['C', 'V', 'G', d]))) ∧
    (∀ c ∈ findConnectedInstruments nodes edges, c.node.id = I →
      c.hapaxPort = String.mk ['C', 'V', 'G', d] →
      (∃ r ∈ rawConnected nodes edges, r.node.id = I ∧
        r.hapaxPort = String.mk ['C', 'V', d]) ∧
      (∃ r ∈ rawConnected nodes edges, r.node.id = I ∧
        r.hapaxPort = String.mk ['G', d])) := by
  rcases hfind : nodes.find? (fun n => n.data.isHapax) with _ | hub
  · have hraw : rawConnected nodes edges = [] := by
      unfold rawConnected
      rw [hfind]
    have hres : findConnectedInstruments nodes edges = [] := by
      rw [findConnectedInstruments_eq, hfind]
    refine ⟨?_, ?_, ?_, ?_⟩
    · intro h1 _
      rw [hraw] at h1
      simp at h1
    · intro h1 _
      rw [hraw] at h1
      simp at h1
    · intro h1 _
      rw [hraw] at h1
      simp at h1
    · intro c hc
      rw [hres] at hc
      simp at hc
  · have hraw : rawConnected nodes edges =
        rawStep2 nodes hub.id edges (rawStep1 nodes (traceHapaxRouting nodes edges)) := by
      unfold rawConnected
      rw [hfind]
    have hres : findConnectedInstruments nodes edges =
        ((rawStep2 nodes hub.id edges
          (rawStep1 nodes (traceHapaxRouting nodes edges))).foldl
            groupStep []).foldl resStep [] := by
      rw [findConnectedInstruments_eq, hfind]
    generalize hR : rawStep2 nodes hub.id edges
      (rawStep1 nodes (traceHapaxRouting nodes edges)) = raw at hraw hres
    have hpairs : (raw.map pairOf).Nodup := by
      rw [← hraw]
      exact rawConnected_pair_nodup nodes edges
    have htab : ∀ c ∈ raw, ∃ pr ∈ hapaxPortTable, c.hapaxPort = pr.2.1 := by
      intro c hc
      rw [← hraw] at hc
      exact rawConnected_ports nodes edges c hc
    set g := raw.filter (fun c => decide (c.node.id = I)) with hgdef
    have hgid : ∀ c ∈ g, c.node.id = I := by
      intro c hc
      rw [hgdef] at hc
      simpa using (List.mem_filter.mp hc).2
    have hgsub : ∀ c ∈ g, c ∈ raw := by
      intro c hc
      rw [hgdef] at hc
      exact List.mem_of_mem_filter hc
    have hgports : (g.map (fun c => c.hapaxPort)).Nodup := by
      rw [hgdef]
      exact ports_nodup_of_pairs raw I hpairs
    have hgtab : ∀ c ∈ g, ∃ pr ∈ hapaxPortTable, c.hapaxPort = pr.2.1 :=
      fun c hc => htab c (hgsub c hc)
    have hgids_groups : ∀ e ∈ raw.foldl groupStep [],
        ∀ x ∈ pairGroup e.2, x.node.id = e.1 := by
      intro e he x hx
      have he2 := grouped_mem raw e.1 e.2 he
      refine pairGroup_ids e.2 e.1 ?_ x hx
      intro y hy
      rw [he2] at hy
      simpa using (List.mem_filter.mp hy).2
    have hknd : ((raw.foldl groupStep []).map Prod.fst).Nodup :=
      groupFold_keys_nodup raw [] List.nodup_nil
    have hresat : ∀ c ∈ findConnectedInstruments nodes edges,
        c.node.id = I → c ∈ pairGroup g := by
      intro c hc hcid
      rw [hres] at hc
      rcases (resFold_mem _ _ c).mp hc with h | ⟨e, he, hpg⟩
      · simp at h
      · have hce : c.node.id = e.1 := hgids_groups e he c hpg
        have he2 := grouped_mem raw e.1 e.2 he
        have heI : e.1 = I := by rw [← hce, hcid]
        rw [he2, heI, ← hgdef] at hpg
        exact hpg
    have hIentry : ∀ r ∈ raw, r.node.id = I → (I, g) ∈ raw.foldl groupStep [] := by
      intro r hr hrid
      have hg0 := grouped_mem_of_raw raw r hr
      rw [hrid, ← hgdef] at hg0
      exact hg0
    have hintores : ∀ x ∈ pairGroup g, ∀ r ∈ raw, r.node.id = I →
        x ∈ findConnectedInstruments nodes edges := by
      intro x hx r hr hrid
      rw [hres]
      exact (resFold_mem _ _ x).mpr (Or.inr ⟨(I, g), hIentry r hr hrid, hx⟩)
    have hpartc : ∀ c ∈ findConnectedInstruments nodes edges, c.node.id = I →
        c.hapaxPort = String.mk ['C', 'V', 'G', d] →
        (∃ r ∈ rawConnected nodes edges, r.node.id = I ∧
          r.hapaxPort = String.mk ['C', 'V', d]) ∧
        (∃ r ∈ rawConnected nodes edges, r.node.id = I ∧
          r.hapaxPort = String.mk ['G', d]) := by
      intro c hc hcid hcport
      rcases pairGroup_mem_shape g c (hresat c hc hcid) with
        h | ⟨cv, hcv, hcvc, ⟨gate, hg, _, hgp⟩, hceq⟩
      · exfalso
        rcases hgtab c h with ⟨pr, hpr, hport⟩
        apply hapaxPortTable_no_cvg pr hpr
        rw [← hport, hcport]
        rfl
      · rcases isCVCode_shape hcvc with ⟨e, _, hdata⟩
        have hcport2 : c.hapaxPort = String.mk ['C', 'V', 'G', e] := by
          rw [hceq]
          dsimp only
          rw [cvDigits_of_data hdata, cvgAppend]
        have hed : e = d := by
          have h1 := string_mk_inj (hcport2.symm.trans hcport)
          simp at h1
          exact h1
        subst hed
        constructor
        · exact ⟨cv, by rw [hraw]; exact hgsub cv hcv, hgid cv hcv,
            string_of_data hdata⟩
        · refine ⟨gate, by rw [hraw]; exact hgsub gate hg, hgid gate hg, ?_⟩
          rw [hgp, cvDigits_of_data hdata, gAppend]
    refine ⟨?_, ?_, ?_, hpartc⟩
    · intro h1 h2
      rw [hraw] at h1 h2
      rcases h1 with ⟨cvX, hcvXr, hcvXid, hcvXp⟩
      rcases h2 with ⟨gtX, hgtXr, hgtXid, hgtXp⟩
      have hcvXg : cvX ∈ g := by
        rw [hgdef, List.mem_filter]
        exact ⟨hcvXr, by simp [hcvXid]⟩
      have hgtXg : gtX ∈ g := by
        rw [hgdef, List.mem_filter]
        exact ⟨hgtXr, by simp [hgtXid]⟩
      refine ⟨?_, ?_, ?_⟩
      · have hPid : ∀ c : ConnectedInstrument,
            (fun c => decide (c.node.id = I ∧
              c.hapaxPort = String.mk ['C', 'V', 'G', d])) c = true →
            c.node.id = I := by
          intro c hc
          simp only [decide_eq_true_eq] at hc
          exact hc.1
        rw [hres, resFold_countP,
          sum_single_key I _ hPid _ hknd hgids_groups g (hIentry cvX hcvXr hcvXid),
          pairGroup_cvg_count g I d hd hgid hgports hgtab cvX hcvXg hcvXp
            gtX hgtXg hgtXp]
        simp
      · intro c hc hcid hcport
        rcases pairGroup_mem_shape g c (hresat c hc hcid) with h | ⟨cv, hcv, _, _, hceq⟩
        · exfalso
          rcases hgtab c h with ⟨pr, hpr, hport⟩
          apply hapaxPortTable_no_cvg pr hpr
          rw [← hport, hcport]
          rfl
        · rw [hceq]
      · intro c hc hcid
        exact pairGroup_originals_removed g d hd cvX hcvXg hcvXp gtX hgtXg hgtXp
          c (hresat c hc hcid)
    · intro h1 hno
      rw [hraw] at h1 hno
      rcases h1 with ⟨cvX, hcvXr, hcvXid, hcvXp⟩
      have hcvXg : cvX ∈ g := by
        rw [hgdef, List.mem_filter]
        exact ⟨hcvXr, by simp [hcvXid]⟩
      have hnog : ∀ c ∈ g, c.hapaxPort ≠ String.mk ['G', d] :=
        fun c hc => hno c (hgsub c hc) (hgid c hc)
      constructor
      · exact ⟨cvX, hintores cvX
          (pairGroup_cv_passthrough g d hd cvX hcvXg hcvXp hnog) cvX hcvXr hcvXid,
          hcvXid, hcvXp⟩
      · intro c hc hcid hcport
        rcases (hpartc c hc hcid hcport).2 with ⟨r2, hr2, hr2id, hr2port⟩
        rw [hraw] at hr2
        exact hno r2 hr2 hr2id hr2port
    · intro h1 hno
      rw [hraw] at h1 hno
      rcases h1 with ⟨gtX, hgtXr, hgtXid, hgtXp⟩
      have hgtXg : gtX ∈ g := by
        rw [hgdef, List.mem_filter]
        exact ⟨hgtXr, by simp [hgtXid]⟩
      have hnocv : ∀ c ∈ g, c.hapaxPort ≠ String.mk ['C', 'V', d] :=
        fun c hc => hno c (hgsub c hc) (hgid c hc)
      constructor
      · exact ⟨gtX, hintores gtX
          (pairGroup_g_passthrough g d hd gtX hgtXg hgtXp hnocv) gtX hgtXr hgtXid,
          hgtXid, hgtXp⟩
      · intro c hc hcid hcport
        rcases (hpartc c hc hcid hcport).1 with ⟨r2, hr2, hr2id, hr2port⟩
        rw [hraw] at hr2
        exact hno r2 hr2 hr2id hr2port

/-- Witness for C4: a CV-1 plus gate-1 connection to the same instrument
resolves to exactly one combined `CVG1` entry. -/
theorem findConnectedInstruments_cv_gate_pairing_witness :
    ('1' : Char).isDigit = true ∧
    (findConnectedInstruments
      [⟨"hapax", ⟨"Hapax", "Squarp", 1, .POLY, [], [], [], [], none, true, false⟩⟩,
       ⟨"synth", ⟨"Mother", "Moog", 3, .POLY, [], [], [], [], none, false, false⟩⟩]
      [⟨"e1", "hapax", "synth", some "cv-1", some "cv"⟩,
       ⟨"e2", "hapax", "synth", some "gate-1", some "cv"⟩]).countP (fun c =>
        decide (c.node.id = "synth" ∧
          c.hapaxPort = String.mk ['C', 'V', 'G', '1'])) = 1 := by
  refine ⟨by decide, ?_⟩
  exact ((findConnectedInstruments_cv_gate_pairing
    [⟨"hapax", ⟨"Hapax", "Squarp", 1, .POLY, [], [], [], [], none, true, false⟩⟩,
     ⟨"synth", ⟨"Mother", "Moog", 3, .POLY, [], [], [], [], none, false, false⟩⟩]
    [⟨"e1", "hapax", "synth", some "cv-1", some "cv"⟩,
     ⟨"e2", "hapax", "synth", some "gate-1", some "cv"⟩]
    "synth" '1' (by decide)).1 (by decide) (by decide)).1

/-! ## `studioExport.ts` — save-file validation and migration (claim C9)

A JSON value as produced by `JSON.parse` (numbers are modelled as integers;
the save files at stake only carry integral numbers).  `none : Option JValue`
models an input string that is not valid JSON, on which `JSON.parse` throws
before any validation runs. -/

inductive JValue where
  | jnull
  | jbool (b : Bool)
  | jnum (n : Int)
  | jstr (s : String)
  | jarr (xs : List JValue)
  | jobj (fields : List (String × JValue))

/-- JavaScript property access `v[k]`: throws a `TypeError` on `null`,
returns the field on objects and `undefined` (`none`) otherwise. -/
def jsGet : JValue → String → Except String (Option JValue)
  | .jnull, _ => .error "TypeError: Cannot read properties of null"
  | .jobj fields, k => .ok (mapGet fields k)
  | _, _ => .ok none

/-- JavaScript truthiness of a possibly-undefined value. -/
def truthy : Option JValue → Bool
  | none => false
  | some .jnull => false
  | some (.jbool b) => b
  | some (.jnum n) => decide (n ≠ 0)
  | some (.jstr s) => decide (s ≠ "")
  | some (.jarr _) => true
  | some (.jobj _) => true

/-- JavaScript `a ?? b` on a possibly-undefined `a`. -/
def nnElse (v : Option JValue) (dflt : JValue) : JValue :=
  match v with
  | none => dflt
  | some .jnull => dflt
  | some x => x

/-- JavaScript `a || b` on a possibly-undefined `a`. -/
def orVal (v : Option JValue) (dflt : JValue) : JValue :=
  if truthy v then v.getD dflt else dflt

/-- Non-throwing property access (the receiver is known non-null). -/
def fieldOf : JValue → String → Option JValue
  | .jobj fields, k => mapGet fields k
  | _, _ => none

/-- Fields contributed by an object spread `{...v}`. -/
def fieldsOf : JValue → List (String × JValue)
  | .jobj fields => fields
  | _ => []

/-- The drum-lane migration of `parseStudioData` (`studioExport.ts`, lines
73–79): dereferencing a `null` lane throws, otherwise absent `lane`/`trig`/
`chan`/`note` fields fall back through `??` and `name` through `||`. -/
def migrateLane (lane : JValue) : Except String JValue :=
  match lane with
  | .jnull => .error "TypeError: Cannot read properties of null"
  | _ =>
    .ok (.jobj
      [("lane", nnElse (fieldOf lane "lane") (nnElse (fieldOf lane "channel") (.jnum 1))),
       ("trig", nnElse (fieldOf lane "trig") .jnull),
       ("chan", nnElse (fieldOf lane "chan") .jnull),
       ("note", nnElse (fieldOf lane "note") .jnull),
       ("name", orVal (fieldOf lane "name") (.jstr ""))])

/-- Error-propagating map over a list of JSON values. -/
def mapME (f : JValue → Except String JValue) : List JValue → Except String (List JValue)
  | [] => .ok []
  | x :: xs =>
    match f x with
    | .error e => .error e
    | .ok y =>
      match mapME f xs with
      | .error e => .error e
      | .ok ys => .ok (y :: ys)

/-- The per-node migration of `parseStudioData` (`studioExport.ts`, lines
67–83): spread `node.data`, backfill `automationLanes` (`|| []`) and
`showCVPorts` (`?? false`), then migrate a `drumLanes` array in place.
Accessing `automationLanes` throws when `node.data` is `undefined` or
`null`. -/
def migrateNode (node : JValue) : Except String JValue :=
  match jsGet node "data" with
  | .error e => .error e
  | .ok none => .error "TypeError: Cannot read properties of undefined"
  | .ok (some .jnull) => .error "TypeError: Cannot read properties of null"
  | .ok (some dataV) =>
    let nodeData0 := mapSet (mapSet (fieldsOf dataV) "automationLanes"
      (orVal (fieldOf dataV "automationLanes") (.jarr [])))
      "showCVPorts" (nnElse (fieldOf dataV "showCVPorts") (.jbool false))
    match mapGet nodeData0 "drumLanes" with
    | some (.jarr lanes) =>
      match mapME migrateLane lanes with
      | .error e => .error e
      | .ok lanes' =>
        .ok (.jobj (mapSet (fieldsOf node) "data"
          (.jobj (mapSet nodeData0 "drumLanes" (.jarr lanes')))))
    | _ => .ok (.jobj (mapSet (fieldsOf node) "data" (.jobj nodeData0)))

/-- The record returned by a successful `parseStudioData`. -/
structure StudioExportR where
  version : JValue
  exportedAt : JValue
  nodes : List JValue
  edges : List JValue
  customPresets : List JValue

/-- `parseStudioData(json)` from `studioExport.ts` (lines 47–92): reject
invalid JSON, a falsy/missing `version`/`nodes`/`edges` field, a version
other than `1` and non-array `nodes`/`edges`; default `customPresets` and
`exportedAt`; migrate every node. -/
def parseStudioData (input : Option JValue) : Except String StudioExportR :=
  match input with
  | none => .error "SyntaxError: Unexpected token in JSON"
  | some data =>
    match jsGet data "version" with
    | .error e => .error e
    | .ok version? =>
      match jsGet data "nodes" with
      | .error e => .error e
      | .ok nodes? =>
        match jsGet data "edges" with
        | .error e => .error e
        | .ok edges? =>
          if !(truthy version?) || !(truthy nodes?) || !(truthy edges?) then
            .error "Invalid file format: missing required fields"
          else
            match version? with
            | some (.jnum 1) =>
              match nodes?, edges? with
              | some (.jarr ns), some (.jarr es) =>
                match mapME migrateNode ns with
                | .error e => .error e
                | .ok ns' =>
                  .ok { version := version?.getD .jnull,
                        exportedAt := orVal (fieldOf data "exportedAt") (.jstr ""),
                        nodes := ns', edges := es,
                        customPresets :=
                          match fieldOf data "customPresets" with
                          | some (.jarr ps) => ps
                          | _ => [] }
              | _, _ => .error "Invalid file format: nodes and edges must be arrays"
            | _ => .error "Unsupported file version"

/-- `null`-test on a JSON value. -/
def notNull : JValue → Bool
  | .jnull => false
  | _ => true

/-- Structural well-formedness of a saved node: it must carry a non-null
`data` property, and a `drumLanes` array under it must not contain `null`
entries.  This is exactly what the migration dereferences. -/
def nodeOK (node : JValue) : Bool :=
  match fieldOf node "data" with
  | none => false
  | some dataV =>
    notNull dataV &&
      (match fieldOf dataV "drumLanes" with
       | some (.jarr lanes) => lanes.all notNull
       | _ => true)

/-- Field lookup through an object spread. -/
theorem fieldOf_eq (v : JValue) (k : String) :
    mapGet (fieldsOf v) k = fieldOf v k := by
  cases v <;> rfl

/-- Property access on a non-null value never throws. -/
theorem jsGet_nonnull (v : JValue) (k : String) (hnn : v ≠ JValue.jnull) :
    jsGet v k = .ok (fieldOf v k) := by
  cases v
  · exact absurd rfl hnn
  all_goals rfl

/-- The lane migration succeeds exactly on non-null lanes. -/
theorem migrateLane_ok (lane : JValue) :
    (∃ y, migrateLane lane = Except.ok y) ↔ notNull lane = true := by
  cases lane <;> simp [migrateLane, notNull]

/-- The error-propagating map succeeds exactly when every element does. -/
theorem mapME_ok (f : JValue → Except String JValue) :
    ∀ xs : List JValue,
      (∃ ys, mapME f xs = Except.ok ys) ↔ ∀ x ∈ xs, ∃ y, f x = Except.ok y := by
  intro xs
  induction xs with
  | nil => simp [mapME]
  | cons x rest ih =>
    simp only [mapME]
    rcases hf : f x with e | y
    · dsimp only
      constructor
      · rintro ⟨ys, h⟩
        exact absurd h (by simp)
      · intro hall
        rcases hall x (List.mem_cons_self _ _) with ⟨y, hy⟩
        rw [hf] at hy
        exact absurd hy (by simp)
    · dsimp only
      rcases hrest : mapME f rest with e' | ys'
      · dsimp only
        constructor
        · rintro ⟨ys, h⟩
          exact absurd h (by simp)
        · intro hall
          rcases ih.mpr (fun z hz => hall z (List.mem_cons_of_mem _ hz)) with ⟨ys, h⟩
          rw [hrest] at h
          exact absurd h (by simp)
      · dsimp only
        constructor
        · intro _ z hz
          rcases List.mem_cons.mp hz with h1 | hz2
          · exact ⟨y, h1 ▸ hf⟩
          · exact ih.mp ⟨ys', hrest⟩ z hz2
        · intro _
          exact ⟨y :: ys', rfl⟩

/-- The node migration succeeds exactly on structurally well-formed nodes. -/
theorem migrateNode_ok (node : JValue) :
    (∃ y, migrateNode node = Except.ok y) ↔ nodeOK node = true := by
  by_cases hnn : node = JValue.jnull
  · subst hnn
    constructor
    · rintro ⟨y, hy⟩
      exact absurd hy (by simp [migrateNode, jsGet])
    · intro h
      exact absurd h (by simp [nodeOK, fieldOf])
  · unfold migrateNode nodeOK
    rw [jsGet_nonnull node "data" hnn]
    dsimp only
    rcases hfd : fieldOf node "data" with _ | dataV
    · simp
    · dsimp only
      have hdl : mapGet (mapSet (mapSet (fieldsOf dataV) "automationLanes"
          (orVal (fieldOf dataV "automationLanes") (JValue.jarr [])))
          "showCVPorts" (nnElse (fieldOf dataV "showCVPorts") (JValue.jbool false)))
          "drumLanes" = fieldOf dataV "drumLanes" := by
        rw [mapGet_mapSet_ne _ _ (by decide), mapGet_mapSet_ne _ _ (by decide),
          fieldOf_eq]
      rcases dataV with _ | b | n | s | xs | fs
      · simp [fieldOf, notNull]
      all_goals (
        dsimp only
        rw [hdl]
        split <;>
          first
          | (rename_i lanes _
             constructor
             · rintro ⟨y, hy⟩
               rcases hME : mapME migrateLane lanes with e | ls
               · rw [hME] at hy
                 exact absurd hy (by simp)
               · have hall := (mapME_ok migrateLane lanes).mp ⟨ls, hME⟩
                 simp only [notNull, Bool.true_and]
                 rw [List.all_eq_true]
                 intro lane hl
                 exact (migrateLane_ok lane).mp (hall lane hl)
             · intro hall
               simp only [notNull, Bool.true_and] at hall
               rw [List.all_eq_true] at hall
               rcases (mapME_ok migrateLane lanes).mpr
                 (fun lane hl => (migrateLane_ok lane).mpr (hall lane hl)) with ⟨ls, hME⟩
               rw [hME]
               exact ⟨_, rfl⟩)
          | simp [notNull])

/-- A thrown property-access error carries a nonempty message. -/
theorem jsGet_err (v : JValue) (k : String) (msg : String)
    (h : jsGet v k = .error msg) : msg ≠ "" := by
  cases v <;> simp [jsGet] at h
  subst h
  decide

/-- A thrown lane-migration error carries a nonempty message. -/
theorem migrateLane_err (lane : JValue) (msg : String)
    (h : migrateLane lane = .error msg) : msg ≠ "" := by
  cases lane <;> simp [migrateLane] at h
  subst h
  decide

/-- A thrown error of the error-propagating map carries a nonempty message
when every element's errors do. -/
theorem mapME_err (f : JValue → Except String JValue)
    (hf : ∀ x msg, f x = .error msg → msg ≠ "") :
    ∀ (xs : List JValue) (msg : String), mapME f xs = .error msg → msg ≠ "" := by
  intro xs
  induction xs with
  | nil => intro msg h; exact absurd h (by simp [mapME])
  | cons x rest ih =>
    intro msg h
    simp only [mapME] at h
    split at h
    · rename_i e hfx
      injection h with h
      subst h
      exact hf x e hfx
    · split at h
      · rename_i e hrest
        injection h with h
        subst h
        exact ih e hrest
      · exact absurd h (by simp)

/-- A thrown node-migration error carries a nonempty message. -/
theorem migrateNode_err (node : JValue) (msg : String)
    (h : migrateNode node = .error msg) : msg ≠ "" := by
  unfold migrateNode at h
  split at h
  · rename_i e heq
    injection h with h
    subst h
    exact jsGet_err node "data" e heq
  · injection h with h
    subst h
    decide
  · injection h with h
    subst h
    decide
  · dsimp only at h
    split at h
    · split at h
      · rename_i e hME
        injection h with h
        subst h
        exact mapME_err migrateLane (fun x m hx => migrateLane_err x m hx) _ e hME
      · exact absurd h (by simp)
    · exact absurd h (by simp)

/-- Every rejection of `parseStudioData` carries a nonempty message. -/
theorem parseStudioData_err (input : Option JValue) (msg : String)
    (h : parseStudioData input = .error msg) : msg ≠ "" := by
  cases input with
  | none =>
    simp only [parseStudioData] at h
    injection h with h
    subst h
    decide
  | some data =>
    simp only [parseStudioData] at h
    split at h
    · rename_i e heq
      injection h with h
      subst h
      exact jsGet_err data "version" e heq
    · split at h
      · rename_i e heq
        injection h with h
        subst h
        exact jsGet_err data "nodes" e heq
      · split at h
        · rename_i e heq
          injection h with h
          subst h
          exact jsGet_err data "edges" e heq
        · split at h
          · injection h with h
            subst h
            decide
          · split at h
            · split at h
              · split at h
                · rename_i e hME
                  injection h with h
                  subst h
                  exact mapME_err migrateNode (fun x m hx => migrateNode_err x m hx) _ e hME
                · exact absurd h (by simp)
              · injection h with h
                subst h
                decide
            · injection h with h
              subst h
              decide

/-- C9 (amended).  `parseStudioData` accepts exactly the valid-JSON inputs
whose top level is an object with `version` strictly equal to `1`, array
`nodes` and `edges` fields, and structurally well-formed node elements
(each carrying a non-null `data` property whose `drumLanes` array, if any,
has no `null` entries); every rejection is a thrown error carrying a
nonempty human-readable message, and no partial result is produced. -/
theorem parseStudioData_validation (input : Option JValue) :
    ((∃ r, parseStudioData input = Except.ok r) ↔
      ∃ fields, input = some (JValue.jobj fields) ∧
        mapGet fields "version" = some (JValue.jnum 1) ∧
        (∃ ns, mapGet fields "nodes" = some (JValue.jarr ns) ∧
          ∀ n ∈ ns, nodeOK n = true) ∧
        (∃ es, mapGet fields "edges" = some (JValue.jarr es))) ∧
    (∀ msg, parseStudioData input = Except.error msg → msg ≠ "") := by
  refine ⟨?_, fun msg h => parseStudioData_err input msg h⟩
  cases input with
  | none => simp [parseStudioData]
  | some data =>
    cases data with
    | jnull => simp [parseStudioData, jsGet]
    | jbool b => simp [parseStudioData, jsGet, truthy]
    | jnum n => simp [parseStudioData, jsGet, truthy]
    | jstr s => simp [parseStudioData, jsGet, truthy]
    | jarr xs => simp [parseStudioData, jsGet, truthy]
    | jobj fields =>
      constructor
      · rintro ⟨r, hr⟩
        simp only [parseStudioData, jsGet] at hr
        split at hr
        · exact absurd hr (by simp)
        · split at hr
          · rename_i heqv
            split at hr
            · rename_i ns es heqn heqe
              split at hr
              · exact absurd hr (by simp)
              · rename_i ns' hME
                refine ⟨fields, rfl, heqv, ⟨ns, heqn, ?_⟩, es, heqe⟩
                intro n hn
                exact (migrateNode_ok n).mp
                  ((mapME_ok migrateNode ns).mp ⟨ns', hME⟩ n hn)
            · exact absurd hr (by simp)
          · exact absurd hr (by simp)
      · rintro ⟨fields', heq, hv, ⟨ns, hn, hall⟩, es, he⟩
        have hff : fields = fields' := by
          simp only [Option.some.injEq] at heq
          injection heq
        subst hff
        rcases (mapME_ok migrateNode ns).mpr
          (fun n hn' => (migrateNode_ok n).mpr (hall n hn')) with ⟨ns', hME⟩
        apply Exists.intro
        simp only [parseStudioData, jsGet]
        rw [hv, hn, he, if_neg (by simp [truthy])]
        show (match mapME migrateNode ns with
          | Except.error e => Except.error e
          | Except.ok ns2 => Except.ok
              (StudioExportR.mk ((some (JValue.jnum 1)).getD JValue.jnull)
               (orVal (fieldOf (JValue.jobj fields) "exportedAt") (JValue.jstr ""))
               ns2 es
               (match fieldOf (JValue.jobj fields) "customPresets" with
                | some (JValue.jarr ps) => ps
                | _ => []))) = _
        rw [hME]

/-- Counterexample to C9 as stated: `{"version":1,"nodes":[5],"edges":[]}`
is valid JSON whose version is `1` and whose `nodes` and `edges` are arrays,
yet parsing throws — the migration dereferences the missing `data` property
of the numeric node element — so the claimed acceptance condition is not
sufficient. -/
theorem parseStudioData_throws_on_valid_header :
    mapGet [("version", JValue.jnum 1), ("nodes", JValue.jarr [JValue.jnum 5]),
      ("edges", JValue.jarr [])] "version" = some (JValue.jnum 1) ∧
    mapGet [("version", JValue.jnum 1), ("nodes", JValue.jarr [JValue.jnum 5]),
      ("edges", JValue.jarr [])] "nodes" = some (JValue.jarr [JValue.jnum 5]) ∧
    mapGet [("version", JValue.jnum 1), ("nodes", JValue.jarr [JValue.jnum 5]),
      ("edges", JValue.jarr [])] "edges" = some (JValue.jarr []) ∧
    parseStudioData (some (JValue.jobj
      [("version", JValue.jnum 1), ("nodes", JValue.jarr [JValue.jnum 5]),
       ("edges", JValue.jarr [])])) =
      Except.error "TypeError: Cannot read properties of undefined" :=
  ⟨rfl, rfl, rfl, rfl⟩

end StudioGraph
